import Mathlib

/-!
# Verification of the nfx-datatypes numeric core

A shallow embedding, in Lean 4, of the `Int128` (128-bit signed integer)
and `Decimal` (96-bit-mantissa fixed-point decimal) types of the
nfx-datatypes C++ library, together with proofs and refutations of the
frozen specification claims.

The embedding follows the portable (non-native `__int128`) code path of
`src/Int128.cpp`, `src/Decimal.cpp` and the corresponding `.inl` headers:
a 128-bit value is a pair of 64-bit words and every machine operation is
written out with explicit `% 2^64` wrapping, exactly as the C++ source
propagates carries and borrows.  Values that the C++ stores in
`std::uint64_t` / `std::uint32_t` are modelled as `Nat` with explicit
masking; exceptions (`std::overflow_error`, `std::domain_error`,
`std::invalid_argument`) are modelled by an `Except`-style error type.

Constants from the repository's `Constants.h` (the header itself is not
part of the sources available here; the values are forced by the spec and
by their uses) are collected in the `constants` namespace.
-/

set_option maxHeartbeats 1000000
set_option maxRecDepth 16384

namespace Nfx

/-- Error kinds of the library (§7 of the spec): `overflow` models
`std::overflow_error`, `domain` models `std::domain_error`,
`invalidFormat` models `std::invalid_argument`. -/
inductive Err where
  | overflow
  | domain
  | invalidFormat
  deriving DecidableEq, Repr

namespace constants

/-- 2^32, the wrap modulus of a 32-bit word. -/
def U32 : ℕ := 2 ^ 32

/-- 2^64, the wrap modulus of a 64-bit word. -/
def U64 : ℕ := 2 ^ 64

/-- 2^128, the wrap modulus of the full 128-bit value. -/
def U128 : ℕ := 2 ^ 128

/-- `DECIMAL_BASE` / `INT128_BASE`: the decimal base 10. -/
def BASE : ℕ := 10

/-- `DECIMAL_MAXIMUM_PLACES`: maximum decimal scale / significant digits (28). -/
def DECIMAL_MAXIMUM_PLACES : ℕ := 28

/-- `DECIMAL_ROUNDING_THRESHOLD`: the rounding mid digit 5. -/
def DECIMAL_ROUNDING_THRESHOLD : ℕ := 5

/-- `UINT32_MAX_VALUE`: 2^32 - 1. -/
def UINT32_MAX_VALUE : ℕ := 2 ^ 32 - 1

/-- `INT128_MAX_DIGIT_COUNT`: 39, the digit count of 2^127. -/
def INT128_MAX_DIGIT_COUNT : ℕ := 39

end constants

open constants

/-!
## The Int128 word-pair representation

`src/include/nfx/detail/datatypes/Int128.inl`, portable branch:
`m_layout` is `{ lower64bits : u64, upper64bits : u64 }`.
-/

/-- The portable two-word layout of `Int128`: `lo` models `lower64bits`,
`hi` models `upper64bits`.  Well-formed values keep both below 2^64. -/
structure Int128 where
  lo : ℕ
  hi : ℕ
  deriving DecidableEq, Repr

namespace Int128

/-- Well-formedness: both words fit in 64 bits. -/
def Wf (x : Int128) : Prop := x.lo < U64 ∧ x.hi < U64

instance (x : Int128) : Decidable (Wf x) := by unfold Wf; infer_instance

/-- The raw (unsigned) 128-bit value `lower64bits + 2^64 * upper64bits`. -/
def toNat (x : Int128) : ℕ := x.lo + U64 * x.hi

/-- The two's-complement signed value of the bit pattern. -/
def toInt (x : Int128) : ℤ :=
  if x.hi < 2 ^ 63 then (x.toNat : ℤ) else (x.toNat : ℤ) - (U128 : ℤ)

/-- Sign test `static_cast<std::int64_t>(upper64bits) < 0`:
the top bit of the high word. -/
def isNeg (x : Int128) : Bool := decide (2 ^ 63 ≤ x.hi)

/-- `Int128{0}` / default construction: both words zero. -/
def zero : Int128 := ⟨0, 0⟩

/-- `Int128(std::uint64_t low, std::uint64_t high)`. -/
def ofWords (low high : ℕ) : Int128 := ⟨low, high⟩

/-- Construction from a non-negative number below 2^128 (how the model
injects `Nat` literals; matches `Int128{u64}` for values below 2^64 and
`Int128{low, high}` beyond). -/
def ofNat (n : ℕ) : Int128 := ⟨n % U64, n / U64 % U64⟩

/-- `Int128::operator==` (portable): word-wise equality. -/
def beq (a b : Int128) : Bool := a.lo == b.lo && a.hi == b.hi

/-- `Int128::operator<=>` (portable): sign test first, then unsigned
comparison of high then low words.  `blt a b` is `a < b`. -/
def blt (a b : Int128) : Bool :=
  if a.isNeg && !b.isNeg then true
  else if !a.isNeg && b.isNeg then false
  else if a.hi < b.hi then true
  else if b.hi < a.hi then false
  else decide (a.lo < b.lo)

/-- `Int128::operator+` (portable): 128-bit addition with carry
propagation; each word wraps at 2^64. -/
def add (a b : Int128) : Int128 :=
  let resultLow := (a.lo + b.lo) % U64
  let carry := if resultLow < a.lo then 1 else 0
  let resultHigh := (a.hi + b.hi + carry) % U64
  ⟨resultLow, resultHigh⟩

/-- `Int128::operator-` (binary, portable): 128-bit subtraction with
borrow propagation; each word wraps at 2^64. -/
def sub (a b : Int128) : Int128 :=
  let resultLow := (a.lo + U64 - b.lo) % U64
  let borrow := if a.lo < b.lo then 1 else 0
  let resultHigh := (a.hi + 2 * U64 - b.hi - borrow) % U64
  ⟨resultLow, resultHigh⟩

/-- `Int128::operator-` (unary, portable): two's complement
`~low, ~high` plus one.  For a well-formed word `w`, `~w = 2^64 - 1 - w`. -/
def neg (a : Int128) : Int128 :=
  add ⟨U64 - 1 - a.lo, U64 - 1 - a.hi⟩ ⟨1, 0⟩

/-- `Int128::operator*` (portable): Karatsuba-style 128-bit
multiplication from four 32x32→64 partial products, as in
`Int128.cpp` lines 240-274.  All intermediate 64-bit expressions wrap. -/
def mul (a b : Int128) : Int128 :=
  let aLow := a.lo % U32
  let aHigh := a.lo / U32
  let bLow := b.lo % U32
  let bHigh := b.lo / U32
  let p0 := aLow * bLow
  let p1 := aLow * bHigh
  let p2 := aHigh * bLow
  let p3 := aHigh * bHigh
  let carry := (p0 / U32 + p1 % U32 + p2 % U32) / U32
  let resultLow := (p0 + p1 * U32 + p2 * U32) % U64
  let resultHigh := (p3 + p1 / U32 + p2 / U32 + carry + a.hi * b.lo + a.lo * b.hi) % U64
  ⟨resultLow, resultHigh⟩

/-- `Int128::abs`: identity for non-negative bit patterns, two's
complement negation otherwise (so `abs min = min`, the documented wrap). -/
def abs (a : Int128) : Int128 := if a.isNeg then neg a else a

/-- `std::numeric_limits<Int128>::min()`: low word 0, high word 2^63. -/
def minValue : Int128 := ⟨0, 2 ^ 63⟩

/-- `std::numeric_limits<Int128>::max()`: low word 2^64-1, high 2^63-1. -/
def maxValue : Int128 := ⟨U64 - 1, 2 ^ 63 - 1⟩

end Int128

open constants

namespace Int128

/-!
## Int128 division (`Int128.cpp`, `operator/`, portable path)

The source has three code paths: a 64/64 fast path, an optimized
128-bit-dividend / 64-bit-divisor word-at-a-time path (falling back when
an intermediate remainder no longer fits 32 bits), and a general
128-bit binary long division.
-/

/-- The i-th bit of the dividend, read the way the source does:
`(upper64bits >> (i-64)) & 1` when `i >= 64`, else `(lower64bits >> i) & 1`. -/
def bitAt (a : Int128) (i : ℕ) : ℕ :=
  if 64 ≤ i then a.hi / 2 ^ (i - 64) % 2 else a.lo / 2 ^ i % 2

/-- One iteration of the binary long division loop at bit index `i`:
shift the remainder, bring down bit `i`, and subtract/set-quotient-bit
when the remainder reaches the divisor. -/
def divStep (dvd dvs : Int128) (i : ℕ) (st : Int128 × Int128) :
    Int128 × Int128 :=
  let r1 := add st.2 st.2
  let r2 := if bitAt dvd i = 1 then add r1 ⟨1, 0⟩ else r1
  if blt r2 dvs then (st.1, r2)
  else
    let r3 := sub r2 dvs
    let q' : Int128 :=
      if 64 ≤ i then ⟨st.1.lo, st.1.hi ||| 2 ^ (i - 64)⟩
      else ⟨st.1.lo ||| 2 ^ i, st.1.hi⟩
    (q', r3)

/-- The binary long division loop, processing bit indices
`k-1, k-2, …, 0` (the source runs `i` from 127 down to 0, so the whole
loop is `divisionLoop dvd dvs 128`). -/
def divisionLoop (dvd dvs : Int128) : ℕ → Int128 × Int128 → Int128 × Int128
  | 0, st => st
  | k + 1, st => divisionLoop dvd dvs k (divStep dvd dvs k st)

/-- The general 128/128 signed binary long division (source lines
343-408): take absolute values, handle trivial comparisons, run the
bit loop, and restore the sign. -/
def divGeneral (a b : Int128) : Int128 :=
  let n1 := blt a zero
  let absDividend := if n1 then neg a else a
  let n2 := blt b zero
  let absDivisor := if n2 then neg b else b
  let resultNegative := n1 != n2
  if blt absDividend absDivisor then ⟨0, 0⟩
  else if beq absDividend absDivisor then
    if resultNegative then sub ⟨0, 0⟩ ⟨1, 0⟩ else ⟨1, 0⟩
  else
    let st := divisionLoop absDividend absDivisor 128 (⟨0, 0⟩, ⟨0, 0⟩)
    if resultNegative then sub ⟨0, 0⟩ st.1 else st.1

/-- The optimized 128/64 path (source lines 293-341), for a 64-bit
divisor `d` with a 128-bit dividend.  Returns `none` exactly where the
source sets `canUseOptimizedPath = false` (or skips the branch because
the high remainder does not fit 32 bits) and falls through to the
general algorithm. -/
def divFast64 (a : Int128) (d : ℕ) : Option Int128 :=
  let highQuotient := a.hi / d
  let highRemainder := a.hi % d
  if highRemainder = 0 then
    some ⟨a.lo / d, highQuotient⟩
  else if highRemainder < 2 ^ 32 then
    -- first chunk (shift = 32): the remainder check passes by the branch test
    let chunk1 := a.lo / 2 ^ 32 % 2 ^ 32
    let dp1 := highRemainder * 2 ^ 32 + chunk1
    let q1 := dp1 / d
    let r1 := dp1 % d
    let acc1 := 0 * 2 ^ 32 % U64 ||| q1
    -- second chunk (shift = 0): the source re-checks the remainder
    if r1 < 2 ^ 32 then
      let chunk0 := a.lo % 2 ^ 32
      let dp0 := r1 * 2 ^ 32 + chunk0
      let q0 := dp0 / d
      let acc0 := acc1 * 2 ^ 32 % U64 ||| q0
      some ⟨acc0, highQuotient⟩
    else none
  else none

/-- `Int128::operator/` minus its divide-by-zero check: the three-path
dispatch of the source.  (The caller-visible operator is `divE` below;
`divRaw a b` for `b = 0` is never reached behind the zero check.) -/
def divRaw (a b : Int128) : Int128 :=
  if a.hi = 0 ∧ b.hi = 0 then ⟨a.lo / b.lo, 0⟩
  else if b.hi = 0 then
    match divFast64 a b.lo with
    | some q => q
    | none => divGeneral a b
  else divGeneral a b

/-- `Int128::operator/`: throws `std::overflow_error` ("Division by
zero") on a zero divisor, otherwise dispatches as `divRaw`. -/
def divE (a b : Int128) : Except Err Int128 :=
  if beq b zero then .error .overflow else .ok (divRaw a b)

/-- `Int128::operator%` minus its divide-by-zero check (source
`Int128.inl` lines 567-584): a 64-bit fast path, else
`*this - (*this / other) * other`. -/
def modRaw (a b : Int128) : Int128 :=
  if a.hi = 0 ∧ b.hi = 0 then ⟨a.lo % b.lo, 0⟩
  else sub a (mul (divRaw a b) b)

/-- `Int128::operator%`: throws on a zero divisor, else `modRaw`. -/
def modE (a b : Int128) : Except Err Int128 :=
  if beq b zero then .error .overflow else .ok (modRaw a b)

end Int128

/-!
## The Decimal layout

`src/include/nfx/datatypes/Decimal.h`: `m_layout` is a `flags : u32`
word (bit 31 = sign = `DECIMAL_SIGN_MASK 0x80000000`, bits 16-23 = scale
= `DECIMAL_SCALE_MASK 0x00FF0000`, shift `DECIMAL_SCALE_SHIFT 16`) and a
three-limb little-endian 96-bit mantissa `mantissa : u32[3]`.

The bit-mask manipulations of the source are modelled arithmetically:
for any `flags < 2^32` the expressions below agree bit-for-bit with
`flags & mask`, `flags | mask`, `flags ^ mask` on the sign and scale
fields.
-/

/-- `Decimal::RoundingMode`. -/
inductive RoundingMode where
  | toNearest
  | toNearestTiesAway
  | toZero
  | toPositiveInfinity
  | toNegativeInfinity
  deriving DecidableEq, Repr

/-- The stored layout of a `Decimal`: flags word and mantissa limbs. -/
structure Decimal where
  flags : ℕ
  m0 : ℕ
  m1 : ℕ
  m2 : ℕ
  deriving DecidableEq, Repr

namespace Decimal

/-- The default-constructed `Decimal{}`: all words zero. -/
def decZero : Decimal := ⟨0, 0, 0, 0⟩

/-- `Decimal::scale()`: `(flags & DECIMAL_SCALE_MASK) >> DECIMAL_SCALE_SHIFT`. -/
def scale (d : Decimal) : ℕ := d.flags / 2 ^ 16 % 2 ^ 8

/-- The sign-bit test `(flags & DECIMAL_SIGN_MASK) != 0`. -/
def signBit (d : Decimal) : Bool := decide (d.flags / 2 ^ 31 % 2 = 1)

/-- `flags |= DECIMAL_SIGN_MASK`. -/
def setSignMask (f : ℕ) : ℕ := if f / 2 ^ 31 % 2 = 1 then f else f + 2 ^ 31

/-- `flags ^= DECIMAL_SIGN_MASK`. -/
def xorSignMask (f : ℕ) : ℕ := if f / 2 ^ 31 % 2 = 1 then f - 2 ^ 31 else f + 2 ^ 31

/-- `(flags & ~DECIMAL_SCALE_MASK) | (s << DECIMAL_SCALE_SHIFT)`
(for a new scale `s < 2^8`). -/
def withScale (f s : ℕ) : ℕ := f - f / 2 ^ 16 % 2 ^ 8 * 2 ^ 16 + s * 2 ^ 16

/-- Well-formed stored decimals: limbs fit 32 bits, the flags word holds
only the sign bit and a scale in 0..28 (all other bits zero, as every
constructor and operation of the source maintains). -/
def Wf (d : Decimal) : Prop :=
  d.m0 < U32 ∧ d.m1 < U32 ∧ d.m2 < U32 ∧ scale d ≤ 28 ∧
    (d.flags = scale d * 2 ^ 16 ∨ d.flags = 2 ^ 31 + scale d * 2 ^ 16)

instance (d : Decimal) : Decidable (Wf d) := by unfold Wf; infer_instance

/-- The 96-bit mantissa as a number. -/
def mantNat (d : Decimal) : ℕ := d.m0 + 2 ^ 32 * d.m1 + 2 ^ 64 * d.m2

/-- `internal::mantissaAsInt128` (portable branch):
`low = mantissa[1] << 32 | mantissa[0]`, `high = mantissa[2]`. -/
def mantissaAsInt128 (d : Decimal) : Int128 :=
  ⟨d.m1 * 2 ^ 32 + d.m0, d.m2⟩

/-- `internal::setMantissa` (portable branch): store the low 96 bits of
an `Int128` into the three limbs (the `(uint32)` casts truncate). -/
def setMantissa (d : Decimal) (v : Int128) : Decimal :=
  { d with
    m0 := v.lo % U32
    m1 := v.lo / U32 % U32
    m2 := v.hi % U32 }

/-- `internal::powerOf10`: the source reads 10^p from lookup tables
(64-bit for p ≤ 19, precomputed 128-bit pairs for 20 ≤ p ≤ 28, iterated
multiplication as fallback); the table contents are the powers of ten. -/
def powerOf10 (p : ℕ) : Int128 := Int128.ofNat (10 ^ p)

/-- `internal::alignScale`: bring both mantissas to the larger scale by
multiplying the smaller-scale one by the needed power of ten. -/
def alignScale (d o : Decimal) : Int128 × Int128 :=
  let left := mantissaAsInt128 d
  let right := mantissaAsInt128 o
  if scale d < scale o then
    (Int128.mul left (powerOf10 (scale o - scale d)), right)
  else if scale o < scale d then
    (left, Int128.mul right (powerOf10 (scale d - scale o)))
  else (left, right)

/-- `internal::divideByPowerOf10`: divide the mantissa (the source calls
`Int128::operator/`, whose zero check never fires because `10^p > 0`). -/
def divideByPowerOf10 (d : Decimal) (p : ℕ) : Decimal :=
  setMantissa d (Int128.divRaw (mantissaAsInt128 d) (powerOf10 p))

/-- One pass of `internal::normalize`'s while-loop body. -/
def normalizeStep (d : Decimal) : Decimal :=
  let d1 := divideByPowerOf10 d 1
  { d1 with flags := withScale d1.flags (scale d - 1) }

/-- `internal::normalize`: strip factors of ten while the scale is
positive and the mantissa divides by ten.  The scale strictly decreases,
so running the loop `scale d` times reaches the fixed point. -/
def normalizeGo : ℕ → Decimal → Decimal
  | 0, d => d
  | fuel + 1, d =>
    if scale d ≠ 0 ∧
        Int128.beq (Int128.modRaw (mantissaAsInt128 d) (Int128.ofNat 10))
          Int128.zero = true then
      normalizeGo fuel (normalizeStep d)
    else d

/-- `internal::normalize`. -/
def normalize (d : Decimal) : Decimal := normalizeGo (scale d) d

/-- `Decimal::operator==`: both-zero check on raw limbs, then sign
bits, then scale-aligned mantissa comparison. -/
def decEq (a b : Decimal) : Bool :=
  if a.m0 = 0 ∧ a.m1 = 0 ∧ a.m2 = 0 ∧ b.m0 = 0 ∧ b.m1 = 0 ∧ b.m2 = 0 then true
  else if signBit a ≠ signBit b then false
  else
    let p := alignScale a b
    Int128.beq p.1 p.2

/-- `Decimal::operator<=> … == less`, i.e. `a < b`: sign comparison
first, then aligned mantissas, reversed when both operands are
negative. -/
def decLt (a b : Decimal) : Bool :=
  let thisNeg := signBit a
  let otherNeg := signBit b
  if thisNeg && !otherNeg then true
  else if !thisNeg && otherNeg then false
  else
    let p := alignScale a b
    if thisNeg then Int128.blt p.2 p.1 else Int128.blt p.1 p.2

/-- `Decimal::operator+` (source lines 667-717).  The result's flags
word is initialised from *this* operand's flags (sign bit included)
with only the scale field replaced; afterwards the sign bit is only
ever OR-ed in, never cleared. -/
def decAdd (a b : Decimal) : Decimal :=
  if decEq a decZero then b
  else if decEq b decZero then a
  else
    let p := alignScale a b
    let r0 := setMantissa decZero (Int128.add p.1 p.2)
    let r1 : Decimal := { r0 with flags := withScale a.flags (max (scale a) (scale b)) }
    let r2 :=
      if (decLt a decZero) = (decLt b decZero) then
        if decLt a decZero then { r1 with flags := setSignMask r1.flags } else r1
      else
        if Int128.blt p.2 p.1 then
          let r := setMantissa r1 (Int128.sub p.1 p.2)
          if decLt a decZero then { r with flags := setSignMask r.flags } else r
        else
          let r := setMantissa r1 (Int128.sub p.2 p.1)
          if decLt b decZero then { r with flags := setSignMask r.flags } else r
    normalize r2

/-- `Decimal::operator-` (binary, `Decimal.inl` lines 367-374): add the
sign-flipped second operand. -/
def decSub (a b : Decimal) : Decimal :=
  decAdd a { b with flags := xorSignMask b.flags }

/-- `Decimal::operator-` (unary, `Decimal.inl` lines 376-382): flip the
stored sign bit, even on zero. -/
def decNeg (a : Decimal) : Decimal := { a with flags := xorSignMask a.flags }

/-- `DECIMAL_96BIT_MAX_*`: the 96-bit mantissa bound 2^96 - 1 as an
`Int128`. -/
def max96bit : Int128 := ⟨U64 - 1, U32 - 1⟩

/-- The post-multiply precision-reduction loop: while the product
exceeds 96 bits and the scale is positive, divide by ten rounding
half-up and decrement the scale. -/
def mulReduceLoop (m : Int128) : ℕ → Int128 × ℕ
  | 0 => (m, 0)
  | s + 1 =>
    if Int128.blt max96bit m then
      mulReduceLoop (Int128.divRaw (Int128.add m (Int128.ofNat 5)) (Int128.ofNat 10)) s
    else (m, s + 1)

/-- The post-multiply safety loop: keep dividing by ten (truncating)
while the product still exceeds 96 bits.  The source loop is unbounded;
39 truncating divisions by ten bring any 128-bit value below 2^96, so
fuel 40 never binds. -/
def mulSafetyLoop : ℕ → Int128 → Int128
  | 0, m => m
  | fuel + 1, m =>
    if Int128.blt max96bit m then
      mulSafetyLoop fuel (Int128.divRaw m (Int128.ofNat 10))
    else m

/-- `Decimal::operator*` (source lines 719-797): zero short-circuit,
pre-reduction of the operands when the combined scale exceeds 28
(rounding half-up), 128-bit product, iterative reduction to 96 bits,
then flags assembly (scale field directly, sign by XOR of the operand
signs) and normalization. -/
def decMul (a b : Decimal) : Decimal :=
  if decEq a decZero ∨ decEq b decZero then decZero
  else
    let left0 := mantissaAsInt128 a
    let right0 := mantissaAsInt128 b
    let newScale0 := scale a + scale b
    let leftRight :=
      if DECIMAL_MAXIMUM_PLACES < newScale0 then
        let excessScale := newScale0 - DECIMAL_MAXIMUM_PLACES
        let leftReduction := excessScale / 2
        let rightReduction := excessScale - leftReduction
        let left1 :=
          if 0 < leftReduction then
            let leftDivisor := powerOf10 leftReduction
            let leftHalf := Int128.divRaw leftDivisor (Int128.ofNat 2)
            Int128.divRaw (Int128.add left0 leftHalf) leftDivisor
          else left0
        let right1 :=
          if 0 < rightReduction then
            let rightDivisor := powerOf10 rightReduction
            let rightHalf := Int128.divRaw rightDivisor (Int128.ofNat 2)
            Int128.divRaw (Int128.add right0 rightHalf) rightDivisor
          else right0
        (left1, right1, DECIMAL_MAXIMUM_PLACES)
      else (left0, right0, newScale0)
    let productMantissa := Int128.mul leftRight.1 leftRight.2.1
    let reduced := mulReduceLoop productMantissa leftRight.2.2
    let productMantissa2 := mulSafetyLoop 40 reduced.1
    let r0 := setMantissa decZero productMantissa2
    let r1 : Decimal := { r0 with flags := reduced.2 * 2 ^ 16 }
    let r2 :=
      if (decLt a decZero) ≠ (decLt b decZero) then
        { r1 with flags := setSignMask r1.flags }
      else r1
    normalize r2

/-!
### Rounding (`Decimal::round` and the `internal::shouldRoundUp…` helpers)
-/

/-- `internal::shouldRoundUpToNearest` (source lines 223-256): banker's
rounding decision.  For `digitsToRemove > 1` the source compares
`mantissa % divisor` with `roundingDigit * (divisor / 10)` to decide
whether non-zero digits remain below the rounding digit. -/
def shouldRoundUpToNearest (roundingDigit mantissa divisor : Int128)
    (digitsToRemove : ℕ) (result : Decimal) : Bool :=
  if DECIMAL_ROUNDING_THRESHOLD < roundingDigit.lo then true
  else if roundingDigit.lo = DECIMAL_ROUNDING_THRESHOLD then
    let hasRemainingFraction :=
      if 1 < digitsToRemove then
        let remainder := Int128.modRaw mantissa divisor
        let roundingDigitContribution :=
          Int128.mul roundingDigit (Int128.divRaw divisor (Int128.ofNat 10))
        !(Int128.beq remainder roundingDigitContribution)
      else false
    if hasRemainingFraction then true
    else
      let resultMantissa := mantissaAsInt128 result
      let isEven := Int128.beq (Int128.modRaw resultMantissa (Int128.ofNat 2)) Int128.zero
      !isEven
  else false

/-- `internal::shouldRoundUpToNearestTiesAway`. -/
def shouldRoundUpToNearestTiesAway (roundingDigit : Int128) : Bool :=
  decide (DECIMAL_ROUNDING_THRESHOLD ≤ roundingDigit.lo)

/-- `internal::shouldRoundUpToPositiveInfinity` (ceiling). -/
def shouldRoundUpToPositiveInfinity (mantissa : Int128) (digitsToRemove : ℕ)
    (isNegative : Bool) : Bool :=
  if isNegative then false
  else if 0 < digitsToRemove then
    !(Int128.beq (Int128.modRaw mantissa (powerOf10 digitsToRemove)) Int128.zero)
  else false

/-- `internal::shouldRoundUpToNegativeInfinity` (floor). -/
def shouldRoundUpToNegativeInfinity (mantissa : Int128) (digitsToRemove : ℕ)
    (isNegative : Bool) : Bool :=
  if !isNegative then false
  else if 0 < digitsToRemove then
    !(Int128.beq (Int128.modRaw mantissa (powerOf10 digitsToRemove)) Int128.zero)
  else false

/-- The divisor-building loop of `Decimal::round`: `digitsToRemove - 1`
multiplications of `Int128{1}` by ten (only run when more than one digit
is removed). -/
def roundDivisorGo : ℕ → Int128
  | 0 => ⟨1, 0⟩
  | n + 1 => Int128.mul (roundDivisorGo n) (Int128.ofNat 10)

/-- The divisor used to extract the rounding digit. -/
def roundDivisor (digitsToRemove : ℕ) : Int128 :=
  if 1 < digitsToRemove then roundDivisorGo (digitsToRemove - 1) else ⟨1, 0⟩

/-- The truncation loop of `Decimal::round`: `digitsToRemove` successive
divisions of the stored mantissa by ten. -/
def truncateLoop : ℕ → Decimal → Decimal
  | 0, d => d
  | n + 1, d => truncateLoop n (divideByPowerOf10 d 1)

/-- `Decimal::round(decimalsPlacesCount, mode)` (source lines 915-1012):
negative place counts clamp to zero; a request at or above the current
scale (or a zero value) returns the value unchanged; otherwise the
value is truncated to the target scale and conditionally incremented
according to the mode (the increment adds one to the unsigned mantissa
for either sign). -/
def decRound (d : Decimal) (decimalsPlacesCount : ℤ) (mode : RoundingMode) :
    Decimal :=
  let places : ℤ := if decimalsPlacesCount < 0 then 0 else decimalsPlacesCount
  let thisZero := d.m0 = 0 ∧ d.m1 = 0 ∧ d.m2 = 0
  if (scale d : ℤ) ≤ places ∨ thisZero then d
  else
    let targetScale := places.toNat
    let digitsToRemove := scale d - targetScale
    let mantissa := mantissaAsInt128 d
    let divisor := roundDivisor digitsToRemove
    let roundingDigit := Int128.modRaw (Int128.divRaw mantissa divisor) (Int128.ofNat 10)
    let result0 := truncateLoop digitsToRemove d
    let result1 : Decimal := { result0 with flags := withScale result0.flags targetScale }
    let shouldRoundUp :=
      match mode with
      | RoundingMode.toNearest =>
        shouldRoundUpToNearest roundingDigit mantissa divisor digitsToRemove result1
      | RoundingMode.toNearestTiesAway => shouldRoundUpToNearestTiesAway roundingDigit
      | RoundingMode.toZero => false
      | RoundingMode.toPositiveInfinity =>
        shouldRoundUpToPositiveInfinity mantissa digitsToRemove (signBit d)
      | RoundingMode.toNegativeInfinity =>
        shouldRoundUpToNegativeInfinity mantissa digitsToRemove (signBit d)
    if shouldRoundUp then
      setMantissa result1 (Int128.add (mantissaAsInt128 result1) ⟨1, 0⟩)
    else result1

/-!
### Division (`Decimal::operator/`, source lines 802-909)
-/

/-- Modelled from the spec: `DECIMAL_DIVISION_EXTRA_PRECISION`, the
"extra precision constant" added to the larger operand scale to pick the
division target precision (`Constants.h` is not among the sources; the
exact value does not affect any claim settled here). -/
def DECIMAL_DIVISION_EXTRA_PRECISION : ℤ := 10

/-- Modelled from the spec: `INT128_MUL10_OVERFLOW_THRESHOLD`, the
high-word bound ⌊(2^64 - 1) / 10⌋ guarding the multiply-by-ten scale-up
(`Constants.h` is not among the sources; any bound making the guard
sound gives the same claim verdicts). -/
def INT128_MUL10_OVERFLOW_THRESHOLD : ℕ := 1844674407370955161

/-- Clamp-to-zero used by the division back-off (`if (targetPrecision < 0)
targetPrecision = 0`). -/
def clamp0 (z : ℤ) : ℤ := if z < 0 then 0 else z

/-- The dividend scale-up loop of `Decimal::operator/`: multiply the
dividend by ten up to `scaleUpBy` times (the fuel), backing off — and
recomputing the target precision from the iteration index `i` — when the
overflow guard or the post-multiply wrap check fires. -/
def divScaleUpGo (dividendScale divisorScale : ℤ) :
    ℕ → ℕ → Int128 → ℤ → Int128 × ℤ
  | 0, _, dividend, target => (dividend, target)
  | fuel + 1, i, dividend, target =>
    if INT128_MUL10_OVERFLOW_THRESHOLD < dividend.hi then
      (dividend, clamp0 ((i : ℤ) + dividendScale - divisorScale))
    else
      let newDividend := Int128.mul dividend (Int128.ofNat 10)
      if Int128.blt newDividend dividend then
        (dividend, clamp0 ((i : ℤ) + dividendScale - divisorScale))
      else divScaleUpGo dividendScale divisorScale fuel (i + 1) newDividend target

/-- The post-division 96-bit reduction loop: while the quotient's high
word exceeds 32 bits and precision remains, divide by ten. -/
def divReduceGo : ℕ → Int128 → ℤ → Int128 × ℤ
  | 0, q, t => (q, t)
  | fuel + 1, q, t =>
    if UINT32_MAX_VALUE < q.hi ∧ 0 < t then
      divReduceGo fuel (Int128.divRaw q (Int128.ofNat 10)) (t - 1)
    else (q, t)

/-- `Decimal::operator/`: throws `std::overflow_error` ("Division by
zero") when the divisor compares equal to zero; a zero dividend yields
zero; otherwise scale the dividend toward the target precision, divide
the 128-bit mantissas, reduce the quotient to 96 bits, assemble flags
(scale field direct, sign by XOR) and normalize. -/
def decDiv (a b : Decimal) : Except Err Decimal :=
  if decEq b decZero then .error .overflow
  else if decEq a decZero then .ok decZero
  else
    let dividend0 := mantissaAsInt128 a
    let divisor := mantissaAsInt128 b
    let dividendScale : ℤ := scale a
    let divisorScale : ℤ := scale b
    let targetPrecision0 : ℤ :=
      max dividendScale divisorScale + DECIMAL_DIVISION_EXTRA_PRECISION
    let targetPrecision1 : ℤ :=
      if (DECIMAL_MAXIMUM_PLACES : ℤ) < targetPrecision0 then DECIMAL_MAXIMUM_PLACES
      else targetPrecision0
    let scaleUpBy : ℤ := divisorScale + targetPrecision1 - dividendScale
    let scaled :=
      if 0 < scaleUpBy then
        divScaleUpGo dividendScale divisorScale scaleUpBy.toNat 0 dividend0 targetPrecision1
      else if scaleUpBy < 0 then
        (dividend0, clamp0 (dividendScale - divisorScale))
      else (dividend0, targetPrecision1)
    let quotientMantissa := Int128.divRaw scaled.1 divisor
    let reduced := divReduceGo (clamp0 scaled.2).toNat quotientMantissa scaled.2
    let r0 := setMantissa decZero reduced.1
    let r1 : Decimal := { r0 with flags := reduced.2.toNat % 2 ^ 32 * 2 ^ 16 % 2 ^ 32 }
    let r2 :=
      if (decLt a decZero) ≠ (decLt b decZero) then
        { r1 with flags := setSignMask r1.flags }
      else r1
    Except.ok (normalize r2)

/-- `Decimal::Decimal(const Int128&)` (source lines 469-509): zero maps
to zero; the minimum `Int128` and any magnitude above 2^96 - 1 throw
`std::overflow_error`; otherwise the absolute value becomes the
mantissa (scale 0) and the sign bit records the sign. -/
def decOfInt128 (val : Int128) : Except Err Decimal :=
  if Int128.beq val Int128.zero then .ok decZero
  else
    let isNegative := Int128.blt val Int128.zero
    if Int128.beq val Int128.minValue then .error .overflow
    else
      let absoluteValue := Int128.abs val
      let fl := if isNegative then setSignMask decZero.flags else decZero.flags
      if UINT32_MAX_VALUE < absoluteValue.hi then .error .overflow
      else .ok (setMantissa { flags := fl, m0 := 0, m1 := 0, m2 := 0 } absoluteValue)

/-!
## Basic Decimal lemmas
-/

/-- The limbs fit 32 bits (what `setMantissa` guarantees structurally). -/
def LimbsWf (d : Decimal) : Prop := d.m0 < U32 ∧ d.m1 < U32 ∧ d.m2 < U32

instance (d : Decimal) : Decidable (LimbsWf d) := by unfold LimbsWf; infer_instance

/-- Canonical-form predicate `Invariant 1`: scale 0 or mantissa not
divisible by ten. -/
def Normalized (d : Decimal) : Prop := scale d = 0 ∨ mantNat d % 10 ≠ 0

end Decimal

open Decimal

/-!
## String codecs: shared digit toolkit and `Int128` strings
-/

/-- Little-endian decimal digit characters of `n` (at most `fuel`
digits): the common shape of every digit-extraction loop in the source. -/
def natDigitsLE : ℕ → ℕ → List Char
  | 0, _ => []
  | fuel + 1, n =>
    if n = 0 then [] else Char.ofNat (48 + n % 10) :: natDigitsLE fuel (n / 10)

/-- Modelled from the spec: `constants::INT128_MAX_POSITIVE_STRING`
(`Constants.h` is not among the sources) - the 39 decimal digits of the
maximum value 2^127 - 1 the spec states for the type. -/
def INT128_MAX_POSITIVE_STRING : List Char := (natDigitsLE 39 (2 ^ 127 - 1)).reverse

/-- Modelled from the spec: `constants::INT128_MAX_NEGATIVE_STRING` -
the 39 decimal digits of the minimum magnitude 2^127. -/
def INT128_MAX_NEGATIVE_STRING : List Char := (natDigitsLE 39 (2 ^ 127)).reverse

namespace Int128

/-- The digit-extraction loop of `Int128::toString` (source lines
539-551): repeated division by ten, prepending each remainder digit
(the `char` cast wraps at 256). -/
def toStringGo : ℕ → Int128 → List Char → List Char
  | 0, _, acc => acc
  | fuel + 1, temp, acc =>
    if beq temp zero then acc
    else
      toStringGo fuel (divRaw temp (ofNat 10))
        (Char.ofNat ((48 + (modRaw temp (ofNat 10)).lo) % 256) :: acc)

/-- `Int128::toString` (source lines 526-561): zero and the minimum
value are special-cased, otherwise the digits of the absolute value are
extracted and a minus sign is prepended for negative values. -/
def toString (x : Int128) : List Char :=
  if beq x zero then ['0']
  else if beq x minValue then '-' :: INT128_MAX_NEGATIVE_STRING
  else
    let digits := toStringGo 39 (abs x) []
    if blt x zero then '-' :: digits else digits

/-- The digit-accumulation loop of `Int128::fromString` (source lines
485-497): reject non-digit characters, multiply-accumulate in wrapping
`Int128` arithmetic. -/
def fromStringLoop : List Char → Int128 → Option Int128
  | [], acc => some acc
  | c :: rest, acc =>
    if c.toNat < 48 ∨ 57 < c.toNat then none
    else fromStringLoop rest (add (mul acc (ofNat 10)) (ofNat (c.toNat - 48)))

/-- Lexicographic greater-than on character lists:
`std::string_view::operator>`, used on the 39-digit run against the
boundary strings. -/
def lexGt : List Char → List Char → Bool
  | [], _ => false
  | _ :: _, [] => true
  | a :: as, b :: bs =>
    if a.toNat < b.toNat then false
    else if b.toNat < a.toNat then true
    else lexGt as bs

/-- `Int128::fromString` (source lines 417-510): optional sign, at most
39 digits, lexicographic boundary comparison for exactly 39 digits with
the minimum value special-cased, then the accumulation loop and final
negation. -/
def fromString (str : List Char) : Option Int128 :=
  match str with
  | [] => none
  | c :: rest0 =>
    let isNegative : Bool := c = '-'
    let digits := if c = '-' ∨ c = '+' then rest0 else c :: rest0
    if digits = [] then none
    else if INT128_MAX_DIGIT_COUNT < digits.length then none
    else if digits.length = INT128_MAX_DIGIT_COUNT then
      if isNegative = false then
        if lexGt digits INT128_MAX_POSITIVE_STRING = true then none
        else Option.map (fun r => if isNegative = true then neg r else r)
          (fromStringLoop digits zero)
      else
        if digits = INT128_MAX_NEGATIVE_STRING then some minValue
        else if lexGt digits INT128_MAX_NEGATIVE_STRING = true then none
        else Option.map (fun r => if isNegative = true then neg r else r)
          (fromStringLoop digits zero)
    else Option.map (fun r => if isNegative = true then neg r else r)
      (fromStringLoop digits zero)

end Int128

/-- The character run after the optional leading sign, exactly as
`Int128::fromString` computes `str.substr(pos)`. -/
def Int128.stripSign : List Char → List Char
  | [] => []
  | c :: rest => if c = '-' ∨ c = '+' then rest else c :: rest

/-!
## Digit/Horner toolkit for the string codecs
-/

/-- Horner evaluation of a run of decimal digit characters on top of an
accumulator, the way both parse loops accumulate. -/
def hornerVal : List Char → ℕ → ℕ
  | [], a => a
  | c :: cs, a => hornerVal cs (a * 10 + (c.toNat - 48))

/-- All characters of the list are decimal digits. -/
def AllDigits (l : List Char) : Prop := ∀ c ∈ l, 48 ≤ c.toNat ∧ c.toNat ≤ 57

namespace Decimal

/-!
## `Decimal` string codec
-/

/-- The 64-bit fast digit loop of `Decimal::toString` (portable branch):
little-endian digit characters by repeated division. -/
def decDigits64 : ℕ → ℕ → List Char
  | 0, _ => []
  | fuel + 1, v =>
    if v = 0 then [] else Char.ofNat (48 + v % 10) :: decDigits64 fuel (v / 10)

/-- The 128-bit digit loop of `Decimal::toString` (portable branch),
with its switch to the 64-bit loop once the high word clears. -/
def decDigits128 : ℕ → Int128 → List Char
  | 0, _ => []
  | fuel + 1, m =>
    if Int128.beq m Int128.zero then []
    else if m.hi = 0 then decDigits64 (fuel + 1) m.lo
    else
      Char.ofNat ((48 + (Int128.modRaw m (Int128.ofNat 10)).lo) % 256) ::
        decDigits128 fuel (Int128.divRaw m (Int128.ofNat 10))

/-- `Decimal::toString` (portable branch, source lines 1358-1492).  The
source's digit buffer holds `DECIMAL_MAX_STRING_LENGTH` characters (a
constant of the missing `Constants.h`); a 96-bit mantissa has at most
29 decimal digits, so the loop is modelled with fuel 29, which the
buffer bound never cuts short. -/
def decToString (d : Decimal) : List Char :=
  if d.m0 = 0 ∧ d.m1 = 0 ∧ d.m2 = 0 then ['0']
  else
    let mantissa := (mantissaAsInt128 d).abs
    let currentScale := scale d
    let digits0 := decDigits128 29 mantissa
    let digits := if digits0 = [] then ['0'] else digits0
    let sign : List Char := if signBit d then ['-'] else []
    if 0 < currentScale then
      if digits.length ≤ currentScale then
        sign ++ '0' :: '.' ::
          (List.replicate (currentScale - digits.length) '0' ++ digits.reverse)
      else
        sign ++ (digits.drop currentScale).reverse ++
          '.' :: (digits.take currentScale).reverse
    else sign ++ digits.reverse

/-- The accumulation loop of `Decimal::fromString` (source lines
1206-1253): one pass over the characters, skipping the decimal point,
rejecting other non-digits, counting significant digits (leading
integer zeros excluded) and post-point digits, and breaking once 28
significant digits were seen - when a point exists, the scale is then
adjusted to the number of post-point digits actually consumed. -/
def decParseLoop (hasPoint : Bool) :
    List Char → Bool → Int128 → Bool → ℕ → ℕ → ℕ → Option (Int128 × Bool × ℕ)
  | [], _, mv, hd, _, _, cs => some (mv, hd, cs)
  | c :: rest, ap, mv, hd, sd, ddp, cs =>
    if c = '.' then decParseLoop hasPoint rest true mv hd sd ddp cs
    else if c.toNat < 48 ∨ 57 < c.toNat then none
    else if DECIMAL_MAXIMUM_PLACES ≤ sd then
      some (mv, true, if hasPoint then ddp else cs)
    else
      let digit := c.toNat - 48
      let sd' := if digit ≠ 0 ∨ Int128.beq mv Int128.zero = false ∨ ap = true
        then sd + 1 else sd
      let ddp' := if ap = true then ddp + 1 else ddp
      decParseLoop hasPoint rest ap
        (Int128.add (Int128.mul mv (Int128.ofNat 10)) (Int128.ofNat digit))
        true sd' ddp' cs

/-- The scale-consuming 96-bit truncation loop of `Decimal::fromString`
(source lines 1262-1266): at most 28 iterations, one per scale unit. -/
def decTruncScaleLoop : ℕ → Int128 → ℕ → Int128 × ℕ
  | 0, mv, cs => (mv, cs)
  | fuel + 1, mv, cs =>
    if UINT32_MAX_VALUE < mv.hi ∧ 0 < cs then
      decTruncScaleLoop fuel (Int128.divRaw mv (Int128.ofNat 10)) (cs - 1)
    else (mv, cs)

/-- The unconditional 96-bit truncation loop of `Decimal::fromString`
(source lines 1269-1272): the magnitude shrinks tenfold per step, so at
most 39 iterations happen. -/
def decTruncLoop : ℕ → Int128 → Int128
  | 0, mv => mv
  | fuel + 1, mv =>
    if UINT32_MAX_VALUE < mv.hi then
      decTruncLoop fuel (Int128.divRaw mv (Int128.ofNat 10))
    else mv

/-- `Decimal::fromString` (source lines 1145-1301). -/
def decFromString (str : List Char) : Option Decimal :=
  match str with
  | [] => none
  | c :: rest0 =>
    let negative : Bool := c = '-'
    let s := if c = '-' ∨ c = '+' then rest0 else c :: rest0
    if s = [] then none
    else if 1 < (s.filter (fun ch => ch == '.')).length then none
    else
      let hasPoint : Bool := (s.filter (fun ch => ch == '.')).length = 1
      let tailLen := (s.reverse.takeWhile (fun ch => !(ch == '.'))).length
      let cs0 := if hasPoint then
          (if DECIMAL_MAXIMUM_PLACES < tailLen % 256 then DECIMAL_MAXIMUM_PLACES
           else tailLen % 256)
        else 0
      match decParseLoop hasPoint s false Int128.zero false 0 0 cs0 with
      | none => none
      | some (mv, hd, cs) =>
        if hd = false then none
        else
          let p1 := decTruncScaleLoop 28 mv cs
          let mv2 := decTruncLoop 39 p1.1
          let fl : ℕ := (if negative then 2 ^ 31 else 0) + p1.2 * 2 ^ 16
          some (normalize
            (setMantissa { flags := fl, m0 := 0, m1 := 0, m2 := 0 } mv2))

end Decimal

namespace Int128

/-!
## `Int128::isqrt`
-/

/-- The 6-step binary search of `Int128::isqrt` for the highest set bit
of a 64-bit word (source lines 686-802): each step tests an upper-bits
mask, adding the half-width when it is non-empty and shifting the word
up otherwise.  The result is the index of the highest set bit. -/
def bl64 (w0 : ℕ) : ℕ :=
  let p1 := if w0 / 2 ^ 32 = 0 then (0, w0 * 2 ^ 32 % U64) else (32, w0)
  let p2 := if p1.2 / 2 ^ 48 = 0 then (p1.1, p1.2 * 2 ^ 16 % U64)
    else (p1.1 + 16, p1.2)
  let p3 := if p2.2 / 2 ^ 56 = 0 then (p2.1, p2.2 * 2 ^ 8 % U64)
    else (p2.1 + 8, p2.2)
  let p4 := if p3.2 / 2 ^ 60 = 0 then (p3.1, p3.2 * 2 ^ 4 % U64)
    else (p3.1 + 4, p3.2)
  let p5 := if p4.2 / 2 ^ 62 = 0 then (p4.1, p4.2 * 2 ^ 2 % U64)
    else (p4.1 + 2, p4.2)
  if p5.2 / 2 ^ 63 = 0 then p5.1 else p5.1 + 1

/-- The bit-length computation of `Int128::isqrt` (source lines
681-802): the high word when it is non-zero (offset 64), the low word
otherwise. -/
def bitLength (x : Int128) : ℕ :=
  if x.hi ≠ 0 then 64 + bl64 x.hi else bl64 x.lo

/-- Modelled from the spec: `constants::INT128_ISQRT_MAX_ITERATIONS`
(`Constants.h` is not among the sources) - the fixed safety-net
iteration cap on the Heron loop.  Heron iteration from the
bit-length-derived seed stabilizes well within 100 steps for every
128-bit input, so any cap of at least that many iterations realizes
the spec's description; 100 is used here. -/
def INT128_ISQRT_MAX_ITERATIONS : ℕ := 100

/-- The Heron loop of `Int128::isqrt` (source lines 818-833):
`y = (div + this/div) / 2`, stopping when the estimate stabilizes or
alternates (returning the smaller value), with the previous estimate
kept in `div2`. -/
def heronGo (x : Int128) : ℕ → Int128 → Int128 → Int128
  | 0, div, _ => div
  | fuel + 1, div, div2 =>
    let y := divRaw (add div (divRaw x div)) (ofNat 2)
    if (beq y div || beq y div2) = true then
      if blt y div = true then y else div
    else heronGo x fuel y div

/-- `Int128::isqrt` (source lines 664-836): domain error for negative
input, zero and one returned unchanged, otherwise Heron iteration
seeded with 2^(bitLength/2). -/
def isqrt (x : Int128) : Except Err Int128 :=
  if blt x zero = true then .error .domain
  else if (beq x zero || beq x (ofNat 1)) = true then .ok x
  else
    let initialShift := bitLength x / 2
    let div : Int128 :=
      if 64 ≤ initialShift then ⟨0, 2 ^ (initialShift - 64) % U64⟩
      else ⟨2 ^ initialShift % U64, 0⟩
    .ok (heronGo x INT128_ISQRT_MAX_ITERATIONS div div)

end Int128

/-!
## Theorems
-/

open constants
open Decimal

namespace Int128

/-!
## Basic word lemmas for the Int128 operations
-/

theorem wf_def {x : Int128} : Wf x ↔ x.lo < U64 ∧ x.hi < U64 := Iff.rfl

theorem toNat_lt {x : Int128} (h : Wf x) : x.toNat < U128 := by
  obtain ⟨h1, h2⟩ := h
  unfold toNat U128 U64 at *
  omega

theorem wf_mk {lo hi : ℕ} (h1 : lo < U64) (h2 : hi < U64) : Wf ⟨lo, hi⟩ :=
  ⟨h1, h2⟩

theorem wf_ofNat (n : ℕ) : Wf (ofNat n) := by
  constructor <;> simp [ofNat, U64] <;> omega

theorem toNat_ofNat {n : ℕ} (h : n < U128) : (ofNat n).toNat = n := by
  unfold ofNat toNat
  dsimp only
  unfold U128 U64 at *
  omega

theorem wf_zero : Wf zero := by constructor <;> norm_num [zero, U64]

theorem toNat_zero : zero.toNat = 0 := by simp [zero, toNat]

/-- `beq` decides structural equality of well-formed values. -/
theorem beq_iff {a b : Int128} : beq a b = true ↔ a = b := by
  cases a; cases b
  simp [beq, Int128.mk.injEq]

theorem beq_iff_toNat {a b : Int128} (ha : Wf a) (hb : Wf b) :
    beq a b = true ↔ a.toNat = b.toNat := by
  rw [beq_iff]
  constructor
  · rintro rfl; rfl
  · intro h
    obtain ⟨ha1, ha2⟩ := ha
    obtain ⟨hb1, hb2⟩ := hb
    cases a; cases b
    simp only [toNat] at h
    simp only [Int128.mk.injEq]
    dsimp only at h ha1 ha2 hb1 hb2
    unfold U64 at *
    constructor <;> omega

/-- The signed value determines and is determined by `(toNat, isNeg)`. -/
theorem toInt_eq_toNat {x : Int128} (h : x.isNeg = false) :
    x.toInt = (x.toNat : ℤ) := by
  unfold toInt
  simp only [isNeg, decide_eq_false_iff_not, not_le] at h
  rw [if_pos h]

theorem toInt_eq_of_neg {x : Int128} (h : x.isNeg = true) :
    x.toInt = (x.toNat : ℤ) - U128 := by
  unfold toInt
  simp only [isNeg, decide_eq_true_eq] at h
  rw [if_neg (by omega)]

theorem isNeg_false_of_toNat_lt {x : Int128} (hwf : Wf x)
    (h : x.toNat < 2 ^ 127) : x.isNeg = false := by
  obtain ⟨h1, h2⟩ := hwf
  simp only [isNeg, decide_eq_false_iff_not, not_le]
  unfold toNat U64 at *
  omega

theorem toNat_lt_of_isNeg_false {x : Int128} (hwf : Wf x)
    (h : x.isNeg = false) : x.toNat < 2 ^ 127 := by
  obtain ⟨h1, h2⟩ := hwf
  simp only [isNeg, decide_eq_false_iff_not, not_le] at h
  unfold toNat U64 at *
  omega

theorem toInt_nonneg_iff {x : Int128} (hwf : Wf x) :
    0 ≤ x.toInt ↔ x.isNeg = false := by
  constructor
  · intro h
    by_contra hne
    have hneg : x.isNeg = true := by
      cases hx : x.isNeg
      · exact absurd hx hne
      · rfl
    rw [toInt_eq_of_neg hneg] at h
    simp only [isNeg, decide_eq_true_eq] at hneg
    have := toNat_lt hwf
    unfold toNat U128 U64 at *
    omega
  · intro h
    rw [toInt_eq_toNat h]
    exact Int.natCast_nonneg _

/-- `add` computes addition of raw values modulo 2^128. -/
theorem add_spec {a b : Int128} (ha : Wf a) (hb : Wf b) :
    (add a b).toNat = (a.toNat + b.toNat) % U128 ∧ Wf (add a b) := by
  obtain ⟨ha1, ha2⟩ := ha
  obtain ⟨hb1, hb2⟩ := hb
  unfold add toNat Wf U128 U64 at *
  refine ⟨?_, ?_, ?_⟩ <;> dsimp only <;> (try split_ifs) <;> omega

theorem wf_add {a b : Int128} (ha : Wf a) (hb : Wf b) : Wf (add a b) :=
  (add_spec ha hb).2

theorem toNat_add {a b : Int128} (ha : Wf a) (hb : Wf b) :
    (add a b).toNat = (a.toNat + b.toNat) % U128 :=
  (add_spec ha hb).1

/-- `add` without wrap when the true sum stays below 2^128. -/
theorem toNat_add_of_lt {a b : Int128} (ha : Wf a) (hb : Wf b)
    (h : a.toNat + b.toNat < U128) :
    (add a b).toNat = a.toNat + b.toNat := by
  rw [toNat_add ha hb, Nat.mod_eq_of_lt h]

/-- `sub` computes subtraction of raw values modulo 2^128. -/
theorem sub_spec {a b : Int128} (ha : Wf a) (hb : Wf b) :
    (sub a b).toNat = (a.toNat + U128 - b.toNat) % U128 ∧ Wf (sub a b) := by
  obtain ⟨ha1, ha2⟩ := ha
  obtain ⟨hb1, hb2⟩ := hb
  unfold sub toNat Wf U128 U64 at *
  refine ⟨?_, ?_, ?_⟩ <;> dsimp only <;> (try split_ifs) <;> omega

theorem wf_sub {a b : Int128} (ha : Wf a) (hb : Wf b) : Wf (sub a b) :=
  (sub_spec ha hb).2

theorem toNat_sub {a b : Int128} (ha : Wf a) (hb : Wf b) :
    (sub a b).toNat = (a.toNat + U128 - b.toNat) % U128 :=
  (sub_spec ha hb).1

/-- `sub` without wrap when the minuend dominates. -/
theorem toNat_sub_of_le {a b : Int128} (ha : Wf a) (hb : Wf b)
    (h : b.toNat ≤ a.toNat) :
    (sub a b).toNat = a.toNat - b.toNat := by
  rw [toNat_sub ha hb]
  have hab := toNat_lt ha
  have hbb := toNat_lt hb
  have : a.toNat + U128 - b.toNat = (a.toNat - b.toNat) + U128 := by omega
  rw [this, Nat.add_mod_right, Nat.mod_eq_of_lt (by omega)]

/-- `neg` computes two's-complement negation modulo 2^128. -/
theorem neg_spec {a : Int128} (ha : Wf a) :
    (neg a).toNat = (U128 - a.toNat) % U128 ∧ Wf (neg a) := by
  obtain ⟨ha1, ha2⟩ := ha
  unfold neg add toNat Wf U128 U64 at *
  refine ⟨?_, ?_, ?_⟩ <;> dsimp only <;> (try split_ifs) <;> omega

theorem wf_neg {a : Int128} (ha : Wf a) : Wf (neg a) := (neg_spec ha).2

theorem toNat_neg {a : Int128} (ha : Wf a) :
    (neg a).toNat = (U128 - a.toNat) % U128 := (neg_spec ha).1

/-- The Karatsuba-style `mul` computes multiplication of raw values
modulo 2^128. -/
theorem mul_spec {a b : Int128} (ha : Wf a) (hb : Wf b) :
    (mul a b).toNat = (a.toNat * b.toNat) % U128 ∧ Wf (mul a b) := by
  obtain ⟨ha1, ha2⟩ := ha
  obtain ⟨hb1, hb2⟩ := hb
  unfold mul toNat Wf U128 U64 U32 at *
  dsimp only
  -- decompose the low words into 32-bit halves and expand the product
  have hAC : a.lo * b.lo =
      a.lo % 2 ^ 32 * (b.lo % 2 ^ 32) +
      2 ^ 32 * (a.lo % 2 ^ 32 * (b.lo / 2 ^ 32)) +
      2 ^ 32 * (a.lo / 2 ^ 32 * (b.lo % 2 ^ 32)) +
      2 ^ 64 * (a.lo / 2 ^ 32 * (b.lo / 2 ^ 32)) := by
    conv_lhs => rw [← Nat.mod_add_div a.lo (2 ^ 32), ← Nat.mod_add_div b.lo (2 ^ 32)]
    ring
  have hprod : (a.lo + 2 ^ 64 * a.hi) * (b.lo + 2 ^ 64 * b.hi) =
      a.lo * b.lo + 2 ^ 64 * (a.lo * b.hi) + 2 ^ 64 * (a.hi * b.lo) +
      2 ^ 128 * (a.hi * b.hi) := by ring
  have hm32 : ∀ n : ℕ, n % 2 ^ 32 < 2 ^ 32 := fun n => Nat.mod_lt _ (by norm_num)
  have hd32a : a.lo / 2 ^ 32 < 2 ^ 32 := Nat.div_lt_of_lt_mul (by omega)
  have hd32b : b.lo / 2 ^ 32 < 2 ^ 32 := Nat.div_lt_of_lt_mul (by omega)
  have hp0 : a.lo % 2 ^ 32 * (b.lo % 2 ^ 32) < 2 ^ 64 := by
    calc a.lo % 2 ^ 32 * (b.lo % 2 ^ 32) < 2 ^ 32 * 2 ^ 32 :=
      Nat.mul_lt_mul'' (hm32 _) (hm32 _)
    _ = 2 ^ 64 := by norm_num
  have hp1 : a.lo % 2 ^ 32 * (b.lo / 2 ^ 32) < 2 ^ 64 := by
    calc a.lo % 2 ^ 32 * (b.lo / 2 ^ 32) < 2 ^ 32 * 2 ^ 32 :=
      Nat.mul_lt_mul'' (hm32 _) hd32b
    _ = 2 ^ 64 := by norm_num
  have hp2 : a.lo / 2 ^ 32 * (b.lo % 2 ^ 32) < 2 ^ 64 := by
    calc a.lo / 2 ^ 32 * (b.lo % 2 ^ 32) < 2 ^ 32 * 2 ^ 32 :=
      Nat.mul_lt_mul'' hd32a (hm32 _)
    _ = 2 ^ 64 := by norm_num
  have hp3 : a.lo / 2 ^ 32 * (b.lo / 2 ^ 32) < 2 ^ 64 := by
    calc a.lo / 2 ^ 32 * (b.lo / 2 ^ 32) < 2 ^ 32 * 2 ^ 32 :=
      Nat.mul_lt_mul'' hd32a hd32b
    _ = 2 ^ 64 := by norm_num
  have hBC : a.hi * b.lo < 2 ^ 128 := by
    calc a.hi * b.lo < 2 ^ 64 * 2 ^ 64 := Nat.mul_lt_mul'' ha2 hb1
    _ = 2 ^ 128 := by norm_num
  have hAD : a.lo * b.hi < 2 ^ 128 := by
    calc a.lo * b.hi < 2 ^ 64 * 2 ^ 64 := Nat.mul_lt_mul'' ha1 hb2
    _ = 2 ^ 128 := by norm_num
  refine ⟨?_, ?_, ?_⟩
  · rw [hprod, Nat.add_mul_mod_self_left, hAC]
    generalize a.lo % 2 ^ 32 * (b.lo % 2 ^ 32) = p0 at *
    generalize a.lo % 2 ^ 32 * (b.lo / 2 ^ 32) = p1 at *
    generalize a.lo / 2 ^ 32 * (b.lo % 2 ^ 32) = p2 at *
    generalize a.lo / 2 ^ 32 * (b.lo / 2 ^ 32) = p3 at *
    generalize a.lo * b.hi = q1 at *
    generalize a.hi * b.lo = q2 at *
    omega
  · exact Nat.mod_lt _ (by norm_num)
  · exact Nat.mod_lt _ (by norm_num)

theorem wf_mul {a b : Int128} (ha : Wf a) (hb : Wf b) : Wf (mul a b) :=
  (mul_spec ha hb).2

theorem toNat_mul {a b : Int128} (ha : Wf a) (hb : Wf b) :
    (mul a b).toNat = (a.toNat * b.toNat) % U128 :=
  (mul_spec ha hb).1

/-- `mul` without wrap when the true product stays below 2^128. -/
theorem toNat_mul_of_lt {a b : Int128} (ha : Wf a) (hb : Wf b)
    (h : a.toNat * b.toNat < U128) :
    (mul a b).toNat = a.toNat * b.toNat := by
  rw [toNat_mul ha hb, Nat.mod_eq_of_lt h]

/-- The signed comparison decides the order of the signed values. -/
theorem blt_iff_toInt {a b : Int128} (ha : Wf a) (hb : Wf b) :
    blt a b = true ↔ a.toInt < b.toInt := by
  obtain ⟨ha1, ha2⟩ := ha
  obtain ⟨hb1, hb2⟩ := hb
  unfold U64 at ha1 ha2 hb1 hb2
  cases hA : a.isNeg <;> cases hB : b.isNeg <;>
    [skip; skip; skip; skip] <;>
    (have hA' := hA
     have hB' := hB
     simp only [isNeg, decide_eq_true_eq, decide_eq_false_iff_not, not_le]
       at hA' hB'
     unfold blt toInt toNat U128 U64
     rw [hA, hB]
     simp only [Bool.not_true, Bool.not_false, Bool.and_true, Bool.and_false,
       Bool.true_and, Bool.false_and]
     split_ifs <;> simp_all <;> omega)

/-- On non-negative bit patterns the signed comparison is the unsigned
comparison of raw values. -/
theorem blt_iff_of_nonneg {a b : Int128} (hwa : Wf a) (hwb : Wf b)
    (ha : a.isNeg = false) (hb : b.isNeg = false) :
    blt a b = true ↔ a.toNat < b.toNat := by
  rw [blt_iff_toInt hwa hwb, toInt_eq_toNat ha, toInt_eq_toNat hb]
  exact_mod_cast Iff.rfl

theorem blt_zero_iff {a : Int128} (ha : Wf a) :
    blt a zero = a.isNeg := by
  cases h : a.isNeg
  · rw [← Bool.not_eq_true]
    intro hc
    rw [blt_iff_toInt ha wf_zero, toInt_eq_toNat h] at hc
    have : zero.toInt = 0 := by simp [zero, toInt, toNat, U64]
    rw [this] at hc
    omega
  · rw [blt_iff_toInt ha wf_zero, toInt_eq_of_neg h]
    have : zero.toInt = 0 := by simp [zero, toInt, toNat, U64]
    rw [this]
    have := toNat_lt ha
    omega

/-!
### Correctness of the division paths (for non-negative operands)

All division sites in the library divide non-negative values by positive
divisors below 2^126 (powers of ten up to 10^28, decimal mantissas below
2^96, square-root iterates below 2^66), so correctness is established on
that region.
-/

/-- Setting a clear bit with `|||` is addition. -/
theorem lor_two_pow_of_mod {x k : ℕ} (h : x % 2 ^ (k + 1) = 0) :
    x ||| 2 ^ k = x + 2 ^ k := by
  have hx : 2 ^ (k + 1) * (x / 2 ^ (k + 1)) = x := by
    have := Nat.div_add_mod x (2 ^ (k + 1))
    omega
  calc x ||| 2 ^ k = 2 ^ (k + 1) * (x / 2 ^ (k + 1)) ||| 2 ^ k := by rw [hx]
    _ = 2 ^ (k + 1) * (x / 2 ^ (k + 1)) + 2 ^ k :=
      (Nat.mul_add_lt_is_or (by exact Nat.pow_lt_pow_succ (by norm_num)) _).symm
    _ = x + 2 ^ k := by rw [hx]

/-- `bitAt` reads bit `i` of the raw 128-bit value. -/
theorem bitAt_spec {a : Int128} (ha : Wf a) (i : ℕ) (hi : i < 128) :
    bitAt a i = a.toNat / 2 ^ i % 2 := by
  obtain ⟨ha1, ha2⟩ := ha
  unfold bitAt toNat U64 at *
  split_ifs with h
  · -- high-word bit: toNat / 2^i = a.hi / 2^(i-64)
    have h64 : (2 : ℕ) ^ i = 2 ^ 64 * 2 ^ (i - 64) := by
      rw [← pow_add]
      congr 1
      omega
    rw [h64, ← Nat.div_div_eq_div_mul]
    have : (a.lo + 2 ^ 64 * a.hi) / 2 ^ 64 = a.hi := by
      rw [Nat.add_mul_div_left _ _ (by norm_num), Nat.div_eq_of_lt ha1]
      omega
    rw [this]
  · -- low-word bit: the high word contributes an even multiple
    push_neg at h
    have h64 : (2 : ℕ) ^ 64 = 2 ^ i * 2 ^ (64 - i) := by
      rw [← pow_add]
      congr 1
      omega
    rw [h64, Nat.mul_assoc, Nat.add_mul_div_left _ _ (Nat.pos_pow_of_pos i (by norm_num))]
    have heven : (2 : ℕ) ^ (64 - i) = 2 * 2 ^ (63 - i) := by
      rw [← pow_succ']
      congr 1
      omega
    rw [heven, Nat.mul_assoc, Nat.add_mul_mod_self_left]

/-- The low word of a well-formed value is its raw value modulo 2^64. -/
theorem lo_eq_mod {q : Int128} (h : Wf q) : q.lo = q.toNat % U64 := by
  obtain ⟨h1, h2⟩ := h
  unfold toNat U64 at *
  omega

/-- The high word of a well-formed value is its raw value over 2^64. -/
theorem hi_eq_div {q : Int128} (h : Wf q) : q.hi = q.toNat / U64 := by
  obtain ⟨h1, h2⟩ := h
  unfold toNat U64 at *
  omega

/-- A 2^(m+1)-aligned value below 2^n stays below 2^n after its bit `m`
is set. -/
theorem add_pow_lt {x m n : ℕ} (hx : x < 2 ^ n) (hm : m < n)
    (hmod : x % 2 ^ (m + 1) = 0) : x + 2 ^ m < 2 ^ n := by
  obtain ⟨t, ht⟩ := Nat.dvd_of_mod_eq_zero hmod
  have hn : (2 : ℕ) ^ n = 2 ^ (m + 1) * 2 ^ (n - (m + 1)) := by
    rw [← pow_add]
    congr 1
    omega
  have htlt : t < 2 ^ (n - (m + 1)) := by
    by_contra hcon
    push_neg at hcon
    have : 2 ^ (m + 1) * 2 ^ (n - (m + 1)) ≤ 2 ^ (m + 1) * t :=
      Nat.mul_le_mul_left _ hcon
    omega
  have hsucc : 2 ^ (m + 1) * (t + 1) ≤ 2 ^ n := by
    rw [hn]
    exact Nat.mul_le_mul_left _ htlt
  have hms : (2 : ℕ) ^ (m + 1) = 2 * 2 ^ m := by
    rw [pow_succ]
    ring
  have hexp : 2 ^ (m + 1) * (t + 1) = 2 ^ (m + 1) * t + 2 ^ (m + 1) := by ring
  have hmpos : 0 < (2 : ℕ) ^ m := Nat.pos_pow_of_pos m (by norm_num)
  omega

/-- One step of the binary long-division loop preserves the loop
invariant: after processing bit `k`, the quotient holds the bits of
`A / 2^k / B` (shifted up by `k`) and the remainder holds `A / 2^k % B`. -/
theorem divStep_spec {a b q r : Int128} {k : ℕ}
    (ha : Wf a) (hb : Wf b) (hq : Wf q) (hr : Wf r)
    (hk : k < 128)
    (hbpos : 0 < b.toNat) (hble : b.toNat ≤ 2 ^ 126)
    (hqv : q.toNat = a.toNat / 2 ^ (k + 1) / b.toNat * 2 ^ (k + 1))
    (hrv : r.toNat = a.toNat / 2 ^ (k + 1) % b.toNat) :
    Wf (divStep a b k (q, r)).1 ∧ Wf (divStep a b k (q, r)).2 ∧
      (divStep a b k (q, r)).1.toNat = a.toNat / 2 ^ k / b.toNat * 2 ^ k ∧
      (divStep a b k (q, r)).2.toNat = a.toNat / 2 ^ k % b.toNat := by
  have hA := toNat_lt ha
  have hrlt : r.toNat < b.toNat := hrv ▸ Nat.mod_lt _ hbpos
  have h1wf : Wf (⟨1, 0⟩ : Int128) := ⟨by norm_num [U64], by norm_num [U64]⟩
  have h1v : (⟨1, 0⟩ : Int128).toNat = 1 := by simp [toNat]
  have hwrr : Wf (add r r) := wf_add hr hr
  have hvrr : (add r r).toNat = 2 * r.toNat := by
    rw [toNat_add_of_lt hr hr (by unfold U128; omega)]
    omega
  have hwr2 : Wf (add (add r r) ⟨1, 0⟩) := wf_add hwrr h1wf
  have hvr2 : (add (add r r) ⟨1, 0⟩).toNat = 2 * r.toNat + 1 := by
    rw [toNat_add_of_lt hwrr h1wf (by rw [hvrr, h1v]; unfold U128; omega), hvrr, h1v]
  have hbit := bitAt_spec ha k hk
  have hbitlt : a.toNat / 2 ^ k % 2 < 2 := Nat.mod_lt _ (by norm_num)
  -- `A / 2^k` decomposes as `2 * (A / 2^(k+1)) + bit`
  have hP : a.toNat / 2 ^ k = 2 * (a.toNat / 2 ^ (k + 1)) + a.toNat / 2 ^ k % 2 := by
    have h1 : a.toNat / 2 ^ k / 2 = a.toNat / 2 ^ (k + 1) := by
      rw [Nat.div_div_eq_div_mul, ← pow_succ]
    have := Nat.div_add_mod (a.toNat / 2 ^ k) 2
    omega
  have hPsplit := Nat.div_add_mod (a.toNat / 2 ^ (k + 1)) b.toNat
  have hpowsucc : (2 : ℕ) ^ (k + 1) = 2 * 2 ^ k := by rw [pow_succ]; ring
  -- the quotient bit update adds 2^k to a quotient whose bit k is clear
  have hqmod : q.toNat % 2 ^ (k + 1) = 0 := by
    rw [hqv, Nat.mul_mod_left]
  have hmul2 : b.toNat * (2 * (a.toNat / 2 ^ (k + 1) / b.toNat)) =
      2 * (b.toNat * (a.toNat / 2 ^ (k + 1) / b.toNat)) := by ring
  have hmul21 : b.toNat * (2 * (a.toNat / 2 ^ (k + 1) / b.toNat) + 1) =
      2 * (b.toNat * (a.toNat / 2 ^ (k + 1) / b.toNat)) + b.toNat := by ring
  have hqupd :
      Wf (if 64 ≤ k then (⟨q.lo, q.hi ||| 2 ^ (k - 64)⟩ : Int128)
          else ⟨q.lo ||| 2 ^ k, q.hi⟩) ∧
      (if 64 ≤ k then (⟨q.lo, q.hi ||| 2 ^ (k - 64)⟩ : Int128)
          else ⟨q.lo ||| 2 ^ k, q.hi⟩).toNat = q.toNat + 2 ^ k := by
    have hqval : q.toNat = q.lo + U64 * q.hi := rfl
    by_cases h64 : 64 ≤ k
    · simp only [if_pos h64]
      have hdvd : (U64 : ℕ) ∣ 2 ^ (k + 1) := by
        unfold U64
        exact pow_dvd_pow 2 (by omega)
      have hlo : q.lo = 0 := by
        rw [lo_eq_mod hq]
        have h2 := Nat.mod_mod_of_dvd q.toNat hdvd
        rw [hqmod] at h2
        simpa using h2.symm
      have hhi : q.hi % 2 ^ (k - 64 + 1) = 0 := by
        rw [hi_eq_div hq]
        obtain ⟨t, ht⟩ := Nat.dvd_of_mod_eq_zero hqmod
        rw [ht]
        have hsplit : (2 : ℕ) ^ (k + 1) = U64 * 2 ^ (k - 64 + 1) := by
          unfold U64
          rw [← pow_add]
          congr 1
          omega
        rw [hsplit, Nat.mul_assoc,
          Nat.mul_div_cancel_left _ (by norm_num [U64] : 0 < U64)]
        exact Nat.mul_mod_right _ _
      have hlor : q.hi ||| 2 ^ (k - 64) = q.hi + 2 ^ (k - 64) :=
        lor_two_pow_of_mod hhi
      have h2k : U64 * 2 ^ (k - 64) = 2 ^ k := by
        unfold U64
        rw [← pow_add]
        congr 1
        omega
      have hhibound : q.hi + 2 ^ (k - 64) < 2 ^ 64 := by
        refine add_pow_lt ?_ (by omega) hhi
        have := hq.2
        unfold U64 at this
        exact this
      refine ⟨⟨hq.1, ?_⟩, ?_⟩
      · rw [hlor]
        unfold U64
        exact hhibound
      · show q.lo + U64 * (q.hi ||| 2 ^ (k - 64)) = q.toNat + 2 ^ k
        rw [hlor, hlo, hqval, hlo, Nat.mul_add, h2k]
        ring
    · simp only [if_neg h64]
      have hdvd : (2 : ℕ) ^ (k + 1) ∣ U64 := by
        unfold U64
        exact pow_dvd_pow 2 (by omega)
      have hlomod : q.lo % 2 ^ (k + 1) = 0 := by
        rw [lo_eq_mod hq, Nat.mod_mod_of_dvd _ hdvd, hqmod]
      have hlor : q.lo ||| 2 ^ k = q.lo + 2 ^ k := lor_two_pow_of_mod hlomod
      have hlobound : q.lo + 2 ^ k < 2 ^ 64 := by
        refine add_pow_lt ?_ (by omega) hlomod
        have := hq.1
        unfold U64 at this
        exact this
      refine ⟨⟨?_, hq.2⟩, ?_⟩
      · rw [hlor]
        unfold U64
        exact hlobound
      · show (q.lo ||| 2 ^ k) + U64 * q.hi = q.toNat + 2 ^ k
        rw [hlor, hqval]
        ring
  -- now run the step
  simp only [divStep]
  by_cases hbitc : bitAt a k = 1
  · -- the brought-down bit is 1
    have hbit1 : a.toNat / 2 ^ k % 2 = 1 := by rw [← hbit]; exact hbitc
    simp only [if_pos hbitc]
    have hr2small : (add (add r r) ⟨1, 0⟩).toNat < 2 ^ 127 := by
      rw [hvr2]
      omega
    by_cases hblt : blt (add (add r r) ⟨1, 0⟩) b = true
    · simp only [if_pos hblt]
      have hr2B : (add (add r r) ⟨1, 0⟩).toNat < b.toNat := by
        rw [← blt_iff_of_nonneg hwr2 hb
          (isNeg_false_of_toNat_lt hwr2 hr2small)
          (isNeg_false_of_toNat_lt hb (by omega))]
        exact hblt
      rw [hvr2] at hr2B
      have huniq : a.toNat / 2 ^ k / b.toNat = 2 * (a.toNat / 2 ^ (k + 1) / b.toNat) ∧
          a.toNat / 2 ^ k % b.toNat = 2 * r.toNat + 1 := by
        refine (Nat.div_mod_unique hbpos).mpr ⟨?_, hr2B⟩
        omega
      refine ⟨hq, hwr2, ?_, ?_⟩
      · rw [huniq.1, hqv]
        rw [hpowsucc]
        ring
      · rw [huniq.2, hvr2]
    · simp only [Bool.not_eq_true] at hblt
      simp only [hblt, Bool.false_eq_true, if_false]
      have hr2B : b.toNat ≤ (add (add r r) ⟨1, 0⟩).toNat := by
        by_contra hcon
        push_neg at hcon
        rw [← blt_iff_of_nonneg hwr2 hb
          (isNeg_false_of_toNat_lt hwr2 hr2small)
          (isNeg_false_of_toNat_lt hb (by omega))] at hcon
        rw [hcon] at hblt
        exact absurd hblt (by simp)
      have hwr3 : Wf (sub (add (add r r) ⟨1, 0⟩) b) := wf_sub hwr2 hb
      have hvr3 : (sub (add (add r r) ⟨1, 0⟩) b).toNat = 2 * r.toNat + 1 - b.toNat := by
        rw [toNat_sub_of_le hwr2 hb hr2B, hvr2]
      have huniq : a.toNat / 2 ^ k / b.toNat = 2 * (a.toNat / 2 ^ (k + 1) / b.toNat) + 1 ∧
          a.toNat / 2 ^ k % b.toNat = 2 * r.toNat + 1 - b.toNat := by
        refine (Nat.div_mod_unique hbpos).mpr ⟨?_, ?_⟩
        · omega
        · rw [hvr2] at hr2B
          omega
      refine ⟨hqupd.1, hwr3, ?_, ?_⟩
      · rw [huniq.1, hqupd.2, hqv, hpowsucc]
        ring
      · rw [huniq.2, hvr3]
  · -- the brought-down bit is 0
    have hbit0 : a.toNat / 2 ^ k % 2 = 0 := by
      rw [← hbit]
      omega
    simp only [if_neg hbitc]
    have hr2small : (add r r).toNat < 2 ^ 127 := by
      rw [hvrr]
      omega
    by_cases hblt : blt (add r r) b = true
    · simp only [if_pos hblt]
      have hr2B : (add r r).toNat < b.toNat := by
        rw [← blt_iff_of_nonneg hwrr hb
          (isNeg_false_of_toNat_lt hwrr hr2small)
          (isNeg_false_of_toNat_lt hb (by omega))]
        exact hblt
      rw [hvrr] at hr2B
      have huniq : a.toNat / 2 ^ k / b.toNat = 2 * (a.toNat / 2 ^ (k + 1) / b.toNat) ∧
          a.toNat / 2 ^ k % b.toNat = 2 * r.toNat := by
        refine (Nat.div_mod_unique hbpos).mpr ⟨?_, hr2B⟩
        omega
      refine ⟨hq, hwrr, ?_, ?_⟩
      · rw [huniq.1, hqv, hpowsucc]
        ring
      · rw [huniq.2, hvrr]
    · simp only [Bool.not_eq_true] at hblt
      simp only [hblt, Bool.false_eq_true, if_false]
      have hr2B : b.toNat ≤ (add r r).toNat := by
        by_contra hcon
        push_neg at hcon
        rw [← blt_iff_of_nonneg hwrr hb
          (isNeg_false_of_toNat_lt hwrr hr2small)
          (isNeg_false_of_toNat_lt hb (by omega))] at hcon
        rw [hcon] at hblt
        exact absurd hblt (by simp)
      have hwr3 : Wf (sub (add r r) b) := wf_sub hwrr hb
      have hvr3 : (sub (add r r) b).toNat = 2 * r.toNat - b.toNat := by
        rw [toNat_sub_of_le hwrr hb hr2B, hvrr]
      have huniq : a.toNat / 2 ^ k / b.toNat = 2 * (a.toNat / 2 ^ (k + 1) / b.toNat) + 1 ∧
          a.toNat / 2 ^ k % b.toNat = 2 * r.toNat - b.toNat := by
        refine (Nat.div_mod_unique hbpos).mpr ⟨?_, ?_⟩
        · omega
        · rw [hvrr] at hr2B
          omega
      refine ⟨hqupd.1, hwr3, ?_, ?_⟩
      · rw [huniq.1, hqupd.2, hqv, hpowsucc]
        ring
      · rw [huniq.2, hvr3]

/-- Running the loop from a state satisfying the invariant at `k`
produces the quotient `A / B`. -/
theorem divisionLoop_spec {a b : Int128} (ha : Wf a) (hb : Wf b)
    (hbpos : 0 < b.toNat) (hble : b.toNat ≤ 2 ^ 126) :
    ∀ k, k ≤ 128 → ∀ q r : Int128, Wf q → Wf r →
      q.toNat = a.toNat / 2 ^ k / b.toNat * 2 ^ k →
      r.toNat = a.toNat / 2 ^ k % b.toNat →
      (divisionLoop a b k (q, r)).1.toNat = a.toNat / b.toNat ∧
        Wf (divisionLoop a b k (q, r)).1 := by
  intro k
  induction k with
  | zero =>
    intro _ q r hq _ hqv _
    simp only [divisionLoop]
    rw [hqv]
    simp only [pow_zero, Nat.div_one, Nat.mul_one]
    exact ⟨trivial, hq⟩
  | succ k ih =>
    intro hk q r hq hr hqv hrv
    have hstep := divStep_spec ha hb hq hr (by omega) hbpos hble hqv hrv
    obtain ⟨hw1, hw2, hv1, hv2⟩ := hstep
    show (divisionLoop a b k (divStep a b k (q, r))).1.toNat = _ ∧ _
    exact ih (by omega) _ _ hw1 hw2 hv1 hv2

/-- The general path computes the quotient on non-negative dividends and
positive divisors at most 2^126. -/
theorem divGeneral_spec {a b : Int128} (ha : Wf a) (hb : Wf b)
    (hna : a.isNeg = false)
    (hbpos : 0 < b.toNat) (hble : b.toNat ≤ 2 ^ 126) :
    (divGeneral a b).toNat = a.toNat / b.toNat ∧ Wf (divGeneral a b) := by
  have hnb : b.isNeg = false :=
    isNeg_false_of_toNat_lt hb (by omega)
  unfold divGeneral
  rw [blt_zero_iff ha, blt_zero_iff hb, hna, hnb]
  simp only [Bool.false_eq_true, if_false, bne_self_eq_false]
  by_cases hlt : blt a b = true
  · rw [if_pos hlt]
    rw [blt_iff_of_nonneg ha hb hna hnb] at hlt
    constructor
    · show (0 : ℕ) + U64 * 0 = _
      rw [Nat.div_eq_of_lt hlt]
      ring
    · exact ⟨by norm_num [U64], by norm_num [U64]⟩
  · rw [if_neg hlt]
    by_cases heq : beq a b = true
    · rw [if_pos heq]
      rw [beq_iff] at heq
      subst heq
      constructor
      · show (1 : ℕ) + U64 * 0 = _
        rw [Nat.div_self hbpos]
        ring
      · exact ⟨by norm_num [U64], by norm_num [U64]⟩
    · rw [if_neg heq]
      have hz : Wf (⟨0, 0⟩ : Int128) := ⟨by norm_num [U64], by norm_num [U64]⟩
      have hzv : (⟨0, 0⟩ : Int128).toNat = 0 := by simp [toNat]
      have hA := toNat_lt ha
      have h0 : a.toNat / 2 ^ 128 = 0 := by
        apply Nat.div_eq_of_lt
        unfold U128 at hA
        exact hA
      exact divisionLoop_spec ha hb hbpos hble 128 (le_refl _) ⟨0, 0⟩ ⟨0, 0⟩
        hz hz (by rw [hzv, h0]; simp) (by rw [hzv, h0]; simp)

/-- The optimized 128/64 path is correct whenever it commits to a
result. -/
theorem divFast64_spec {a : Int128} {d : ℕ} {res : Int128} (ha : Wf a)
    (hd : 0 < d) (hdlt : d < U64)
    (h : divFast64 a d = some res) :
    res.toNat = a.toNat / d ∧ Wf res := by
  obtain ⟨ha1, ha2⟩ := ha
  unfold divFast64 at h
  by_cases hr0 : a.hi % d = 0
  · rw [if_pos hr0] at h
    obtain ⟨m, hm⟩ := Nat.dvd_of_mod_eq_zero hr0
    injection h with h
    subst h
    constructor
    · show a.lo / d + U64 * (a.hi / d) = (a.lo + U64 * a.hi) / d
      rw [hm, Nat.mul_div_cancel_left _ hd]
      have : a.lo + U64 * (d * m) = a.lo + d * (U64 * m) := by ring
      rw [this, Nat.add_mul_div_left _ _ hd]
    · refine ⟨lt_of_le_of_lt (Nat.div_le_self _ _) ha1,
        lt_of_le_of_lt (Nat.div_le_self _ _) ha2⟩
  · rw [if_neg hr0] at h
    by_cases hr32 : a.hi % d < 2 ^ 32
    · rw [if_pos hr32] at h
      by_cases hr132 : (a.hi % d * 2 ^ 32 + a.lo / 2 ^ 32 % 2 ^ 32) % d < 2 ^ 32
      · rw [if_pos hr132] at h
        injection h with h
        subst h
        -- abbreviations
        have hhrd : a.hi % d < d := Nat.mod_lt _ hd
        have hchunk1 : a.lo / 2 ^ 32 % 2 ^ 32 < 2 ^ 32 := Nat.mod_lt _ (by norm_num)
        have hchunk0 : a.lo % 2 ^ 32 < 2 ^ 32 := Nat.mod_lt _ (by norm_num)
        set hr := a.hi % d with hhr_def
        set c1 := a.lo / 2 ^ 32 % 2 ^ 32 with hc1_def
        set c0 := a.lo % 2 ^ 32 with hc0_def
        set dp1 := hr * 2 ^ 32 + c1 with hdp1_def
        set q1 := dp1 / d with hq1_def
        set r1 := dp1 % d with hr1_def
        set dp0 := r1 * 2 ^ 32 + c0 with hdp0_def
        set q0 := dp0 / d with hq0_def
        -- q1 and q0 each fit in 32 bits
        have hq1lt : q1 < 2 ^ 32 := by
          rw [hq1_def, Nat.div_lt_iff_lt_mul hd]
          have h1 : 2 ^ 32 * (hr + 1) ≤ 2 ^ 32 * d := Nat.mul_le_mul_left _ (by omega)
          have h2 : 2 ^ 32 * (hr + 1) = hr * 2 ^ 32 + 2 ^ 32 := by ring
          omega
        have hr1d : r1 < d := Nat.mod_lt _ hd
        have hq0lt : q0 < 2 ^ 32 := by
          rw [hq0_def, Nat.div_lt_iff_lt_mul hd]
          have h1 : 2 ^ 32 * (r1 + 1) ≤ 2 ^ 32 * d := Nat.mul_le_mul_left _ (by omega)
          have h2 : 2 ^ 32 * (r1 + 1) = r1 * 2 ^ 32 + 2 ^ 32 := by ring
          omega
        -- the two `(acc << 32) | q` steps are plain arithmetic
        have hacc1 : (0 : ℕ) * 2 ^ 32 % U64 ||| q1 = q1 := by
          simp
        have hacc0 : (0 * 2 ^ 32 % U64 ||| q1) * 2 ^ 32 % U64 ||| q0 =
            q1 * 2 ^ 32 + q0 := by
          rw [hacc1]
          have hlt64 : q1 * 2 ^ 32 < U64 := by
            unfold U64
            nlinarith
          rw [Nat.mod_eq_of_lt hlt64]
          have := Nat.mul_add_lt_is_or (i := 32) hq0lt q1
          rw [Nat.mul_comm (2 ^ 32) q1] at this
          exact this.symm
        -- the value: A / d = 2^64 (hi/d) + (hr * 2^64 + lo) / d
        have hlow : (hr * U64 + a.lo) / d = q1 * 2 ^ 32 + q0 := by
          have hdecomp : hr * U64 + a.lo = d * (q1 * 2 ^ 32 + q0) + dp0 % d := by
            have hlosplit : a.lo = c1 * 2 ^ 32 + c0 := by
              rw [hc1_def, hc0_def]
              have h1 := Nat.div_add_mod a.lo (2 ^ 32)
              have h2 : a.lo / 2 ^ 32 % 2 ^ 32 = a.lo / 2 ^ 32 := by
                apply Nat.mod_eq_of_lt
                apply Nat.div_lt_of_lt_mul
                unfold U64 at ha1
                calc a.lo < 2 ^ 64 := ha1
                _ = 2 ^ 32 * 2 ^ 32 := by norm_num
              rw [h2]
              omega
            have hdp1split := Nat.div_add_mod dp1 d
            have hdp0split := Nat.div_add_mod dp0 d
            have hU : (U64 : ℕ) = 2 ^ 32 * 2 ^ 32 := by norm_num [U64]
            calc hr * U64 + a.lo = (hr * 2 ^ 32 + c1) * 2 ^ 32 + c0 := by
                  rw [hU, hlosplit]
                  ring
            _ = (d * q1 + r1) * 2 ^ 32 + c0 := by
                  rw [hq1_def, hr1_def, Nat.div_add_mod]
            _ = d * (q1 * 2 ^ 32) + dp0 := by
                  rw [hdp0_def]
                  ring
            _ = d * (q1 * 2 ^ 32) + (d * q0 + dp0 % d) := by
                  rw [hq0_def, Nat.div_add_mod]
            _ = d * (q1 * 2 ^ 32 + q0) + dp0 % d := by ring
          rw [hdecomp, Nat.mul_add_div hd, Nat.div_eq_of_lt (Nat.mod_lt _ hd)]
          omega
        have hacclt : q1 * 2 ^ 32 + q0 < U64 := by
          unfold U64
          nlinarith
        constructor
        · unfold toNat
          dsimp only
          rw [hacc0]
          have hsplit : a.lo + U64 * a.hi = (hr * U64 + a.lo) + d * (U64 * (a.hi / d)) := by
            rw [hhr_def]
            calc a.lo + U64 * a.hi = a.lo + U64 * (d * (a.hi / d) + a.hi % d) := by
                  rw [Nat.div_add_mod]
            _ = a.hi % d * U64 + a.lo + d * (U64 * (a.hi / d)) := by ring
          show q1 * 2 ^ 32 + q0 + U64 * (a.hi / d) = (a.lo + U64 * a.hi) / d
          rw [hsplit, Nat.add_mul_div_left _ _ hd, hlow]
        · constructor
          · show ((0 * 2 ^ 32 % U64 ||| q1) * 2 ^ 32 % U64 ||| q0) < U64
            rw [hacc0]
            exact hacclt
          · exact lt_of_le_of_lt (Nat.div_le_self _ _) ha2
      · rw [if_neg hr132] at h
        exact absurd h (by simp)
    · rw [if_neg hr32] at h
      exact absurd h (by simp)

/-- Correctness of `Int128::operator/` (all three paths) on
non-negative dividends and positive divisors at most 2^126. -/
theorem divRaw_spec {a b : Int128} (ha : Wf a) (hb : Wf b)
    (hna : a.isNeg = false)
    (hbpos : 0 < b.toNat) (hble : b.toNat ≤ 2 ^ 126) :
    (divRaw a b).toNat = a.toNat / b.toNat ∧ Wf (divRaw a b) := by
  unfold divRaw
  by_cases hfast : a.hi = 0 ∧ b.hi = 0
  · rw [if_pos hfast]
    obtain ⟨hahi, hbhi⟩ := hfast
    have hav : a.toNat = a.lo := by unfold toNat; rw [hahi]; ring
    have hbv : b.toNat = b.lo := by unfold toNat; rw [hbhi]; ring
    constructor
    · show a.lo / b.lo + U64 * 0 = _
      rw [hav, hbv]
      ring
    · exact ⟨lt_of_le_of_lt (Nat.div_le_self _ _) ha.1, by norm_num [U64]⟩
  · rw [if_neg hfast]
    by_cases hb0 : b.hi = 0
    · rw [if_pos hb0]
      have hbv : b.toNat = b.lo := by unfold toNat; rw [hb0]; ring
      have hdpos : 0 < b.lo := by rw [hbv] at hbpos; exact hbpos
      cases hres : divFast64 a b.lo with
      | some res =>
        have := divFast64_spec ha hdpos hb.1 hres
        rw [hbv]
        exact this
      | none =>
        exact divGeneral_spec ha hb hna hbpos hble
    · rw [if_neg hb0]
      exact divGeneral_spec ha hb hna hbpos hble

theorem toNat_divRaw {a b : Int128} (ha : Wf a) (hb : Wf b)
    (hna : a.isNeg = false)
    (hbpos : 0 < b.toNat) (hble : b.toNat ≤ 2 ^ 126) :
    (divRaw a b).toNat = a.toNat / b.toNat :=
  (divRaw_spec ha hb hna hbpos hble).1

theorem wf_divRaw {a b : Int128} (ha : Wf a) (hb : Wf b)
    (hna : a.isNeg = false)
    (hbpos : 0 < b.toNat) (hble : b.toNat ≤ 2 ^ 126) :
    Wf (divRaw a b) :=
  (divRaw_spec ha hb hna hbpos hble).2

/-- Correctness of `Int128::operator%` on the same region. -/
theorem modRaw_spec {a b : Int128} (ha : Wf a) (hb : Wf b)
    (hna : a.isNeg = false)
    (hbpos : 0 < b.toNat) (hble : b.toNat ≤ 2 ^ 126) :
    (modRaw a b).toNat = a.toNat % b.toNat ∧ Wf (modRaw a b) := by
  unfold modRaw
  by_cases hfast : a.hi = 0 ∧ b.hi = 0
  · rw [if_pos hfast]
    obtain ⟨hahi, hbhi⟩ := hfast
    have hav : a.toNat = a.lo := by unfold toNat; rw [hahi]; ring
    have hbv : b.toNat = b.lo := by unfold toNat; rw [hbhi]; ring
    constructor
    · show a.lo % b.lo + U64 * 0 = _
      rw [hav, hbv]
      ring
    · refine ⟨?_, by norm_num [U64]⟩
      calc a.lo % b.lo ≤ a.lo := Nat.mod_le _ _
      _ < U64 := ha.1
  · rw [if_neg hfast]
    obtain ⟨hdv, hdw⟩ := divRaw_spec ha hb hna hbpos hble
    have hqb : (divRaw a b).toNat * b.toNat ≤ a.toNat := by
      rw [hdv]
      exact Nat.div_mul_le_self _ _
    have hmulv : (mul (divRaw a b) b).toNat = (divRaw a b).toNat * b.toNat := by
      rw [toNat_mul_of_lt hdw hb]
      exact lt_of_le_of_lt hqb (toNat_lt ha)
    constructor
    · rw [toNat_sub_of_le ha (wf_mul hdw hb) (by rw [hmulv]; exact hqb), hmulv, hdv]
      have := Nat.div_add_mod a.toNat b.toNat
      have hcomm : b.toNat * (a.toNat / b.toNat) = a.toNat / b.toNat * b.toNat := by
        ring
      omega
    · exact wf_sub ha (wf_mul hdw hb)

end Int128

namespace Decimal

theorem limbsWf_of_wf {d : Decimal} (h : Wf d) : LimbsWf d :=
  ⟨h.1, h.2.1, h.2.2.1⟩

theorem mantNat_lt {d : Decimal} (h : LimbsWf d) : mantNat d < 2 ^ 96 := by
  obtain ⟨h0, h1, h2⟩ := h
  unfold mantNat U32 at *
  omega

theorem toNat_mantissaAsInt128 {d : Decimal} (h : LimbsWf d) :
    (mantissaAsInt128 d).toNat = mantNat d := by
  obtain ⟨h0, h1, h2⟩ := h
  unfold mantissaAsInt128 Int128.toNat mantNat U32 U64 at *
  try dsimp only
  omega

theorem wf_mantissaAsInt128 {d : Decimal} (h : LimbsWf d) :
    Int128.Wf (mantissaAsInt128 d) := by
  obtain ⟨h0, h1, h2⟩ := h
  unfold mantissaAsInt128 Int128.Wf U32 U64 at *
  constructor <;> dsimp only <;> omega

theorem isNeg_mantissaAsInt128 {d : Decimal} (h : LimbsWf d) :
    (mantissaAsInt128 d).isNeg = false := by
  obtain ⟨h0, h1, h2⟩ := h
  unfold mantissaAsInt128 Int128.isNeg U32 at *
  simp only [decide_eq_false_iff_not, not_le]
  omega

theorem limbsWf_setMantissa (d : Decimal) (v : Int128) :
    LimbsWf (setMantissa d v) := by
  unfold setMantissa LimbsWf U32
  refine ⟨?_, ?_, ?_⟩ <;> dsimp only <;> exact Nat.mod_lt _ (by norm_num)

theorem mantNat_setMantissa (d : Decimal) {v : Int128} (hv : Int128.Wf v) :
    mantNat (setMantissa d v) = v.toNat % 2 ^ 96 := by
  obtain ⟨h1, h2⟩ := hv
  unfold setMantissa mantNat Int128.toNat U32 U64 at *
  dsimp only
  omega

theorem flags_setMantissa (d : Decimal) (v : Int128) :
    (setMantissa d v).flags = d.flags := rfl

theorem scale_setMantissa (d : Decimal) (v : Int128) :
    scale (setMantissa d v) = scale d := rfl

/-- Replacing the scale field installs the requested scale. -/
theorem scale_withScale {f s : ℕ} (hs : s < 2 ^ 8) :
    (withScale f s) / 2 ^ 16 % 2 ^ 8 = s := by
  unfold withScale
  omega

/-- Setting the sign bit leaves the scale field alone. -/
theorem scale_setSignMask (f : ℕ) :
    setSignMask f / 2 ^ 16 % 2 ^ 8 = f / 2 ^ 16 % 2 ^ 8 := by
  unfold setSignMask
  split_ifs <;> omega

/-- A value whose limbs are all zero has `mantNat` zero and conversely. -/
theorem mantNat_eq_zero_iff {d : Decimal} (h : LimbsWf d) :
    mantNat d = 0 ↔ d.m0 = 0 ∧ d.m1 = 0 ∧ d.m2 = 0 := by
  obtain ⟨h0, h1, h2⟩ := h
  unfold mantNat U32 at *
  omega

/-- The `mantissa % 10 == 0` test of `normalize`, read through the
division layer: it decides `mantNat d % 10 = 0`. -/
theorem normalize_cond_iff {d : Decimal} (h : LimbsWf d) :
    Int128.beq (Int128.modRaw (mantissaAsInt128 d) (Int128.ofNat 10))
        Int128.zero = true ↔ mantNat d % 10 = 0 := by
  have hwf := wf_mantissaAsInt128 h
  have hneg := isNeg_mantissaAsInt128 h
  have h10 : (Int128.ofNat 10).toNat = 10 := by decide
  have hw10 : Int128.Wf (Int128.ofNat 10) := by decide
  have hmod := Int128.modRaw_spec hwf hw10 hneg (by rw [h10]; norm_num)
    (by rw [h10]; norm_num)
  rw [Int128.beq_iff_toNat hmod.2 Int128.wf_zero, hmod.1, Int128.toNat_zero,
    h10, toNat_mantissaAsInt128 h]

/-- `divideByPowerOf10 d 1` divides the mantissa by ten. -/
theorem mantNat_divideByPowerOf10_one {d : Decimal} (h : LimbsWf d) :
    mantNat (divideByPowerOf10 d 1) = mantNat d / 10 ∧
      LimbsWf (divideByPowerOf10 d 1) := by
  have hwf := wf_mantissaAsInt128 h
  have hneg := isNeg_mantissaAsInt128 h
  have h10 : (powerOf10 1).toNat = 10 := by decide
  have hw10 : Int128.Wf (powerOf10 1) := by decide
  have hdiv := Int128.divRaw_spec hwf hw10 hneg (by rw [h10]; norm_num)
    (by rw [h10]; norm_num)
  unfold divideByPowerOf10
  refine ⟨?_, limbsWf_setMantissa _ _⟩
  rw [mantNat_setMantissa _ hdiv.2, hdiv.1, h10, toNat_mantissaAsInt128 h]
  apply Nat.mod_eq_of_lt
  have := mantNat_lt h
  have hle : mantNat d / 10 ≤ mantNat d := Nat.div_le_self _ _
  omega

/-- The `normalize` loop: limbs stay well-formed, the result satisfies
Invariant 1, a zero mantissa stays zero and forces scale zero, and the
sign bit is untouched. -/
theorem normalizeGo_spec :
    ∀ (fuel : ℕ) (d : Decimal), LimbsWf d → scale d ≤ fuel →
      LimbsWf (normalizeGo fuel d) ∧ Normalized (normalizeGo fuel d) ∧
      (mantNat d = 0 → mantNat (normalizeGo fuel d) = 0) ∧
      (normalizeGo fuel d).flags / 2 ^ 31 % 2 = d.flags / 2 ^ 31 % 2 := by
  intro fuel
  induction fuel with
  | zero =>
    intro d h hs
    have h0 : scale d = 0 := Nat.le_zero.mp hs
    exact ⟨h, Or.inl h0, fun hz => hz, rfl⟩
  | succ fuel ih =>
    intro d h hs
    simp only [normalizeGo]
    by_cases hcond : scale d ≠ 0 ∧
        Int128.beq (Int128.modRaw (mantissaAsInt128 d) (Int128.ofNat 10))
          Int128.zero = true
    · rw [if_pos hcond]
      have hstep := mantNat_divideByPowerOf10_one h
      have hswf : LimbsWf (normalizeStep d) := by
        unfold normalizeStep
        exact hstep.2
      have hsscale : scale (normalizeStep d) = scale d - 1 := by
        unfold normalizeStep scale
        dsimp only
        exact scale_withScale (by
          have : scale d ≤ 28 ∨ True := Or.inr trivial
          have h8 : scale d - 1 < 2 ^ 8 := by
            unfold scale
            omega
          exact h8)
      have hsm : mantNat (normalizeStep d) = mantNat d / 10 := by
        unfold normalizeStep
        unfold mantNat at *
        exact hstep.1
      have hssign : (normalizeStep d).flags / 2 ^ 31 % 2 = d.flags / 2 ^ 31 % 2 := by
        unfold normalizeStep withScale scale
        dsimp only
        rw [show (divideByPowerOf10 d 1).flags = d.flags from rfl]
        omega
      have := ih (normalizeStep d) hswf (by omega)
      refine ⟨this.1, this.2.1, ?_, ?_⟩
      · intro hz
        exact this.2.2.1 (by rw [hsm, hz])
      · rw [this.2.2.2, hssign]
    · rw [if_neg hcond]
      push_neg at hcond
      refine ⟨h, ?_, fun hz => hz, rfl⟩
      by_cases h0 : scale d = 0
      · exact Or.inl h0
      · right
        intro hdvd
        exact absurd ((normalize_cond_iff h).mpr hdvd) (by
          have := hcond h0
          simpa using this)

/-- `normalize` postconditions. -/
theorem normalize_spec {d : Decimal} (h : LimbsWf d) :
    LimbsWf (normalize d) ∧ Normalized (normalize d) ∧
      (mantNat d = 0 → mantNat (normalize d) = 0) ∧
      (normalize d).flags / 2 ^ 31 % 2 = d.flags / 2 ^ 31 % 2 :=
  normalizeGo_spec (scale d) d h (le_refl _)

/-- On a normalized value a zero mantissa forces scale zero. -/
theorem normalized_zero_scale {d : Decimal} (hn : Normalized d)
    (hz : mantNat d = 0) : scale d = 0 := by
  rcases hn with h | h
  · exact h
  · exact absurd (by rw [hz]) h

/-!
## Structural well-formedness of the Decimal operations
-/

theorem limbsWf_flags {d : Decimal} (h : LimbsWf d) (f : ℕ) :
    LimbsWf { d with flags := f } := h

theorem limbsWf_decZero : LimbsWf decZero := by decide

theorem limbsWf_decAdd {a b : Decimal} (ha : LimbsWf a) (hb : LimbsWf b) :
    LimbsWf (decAdd a b) := by
  unfold decAdd
  split_ifs <;>
    first
      | exact ha
      | exact hb
      | (refine (normalize_spec ?_).1
         unfold LimbsWf setMantissa U32
         (try split_ifs) <;> (dsimp only; refine ⟨?_, ?_, ?_⟩ <;> omega))

theorem limbsWf_decSub {a b : Decimal} (ha : LimbsWf a) (hb : LimbsWf b) :
    LimbsWf (decSub a b) :=
  limbsWf_decAdd ha hb

theorem limbsWf_decMul {a b : Decimal} (ha : LimbsWf a) (hb : LimbsWf b) :
    LimbsWf (decMul a b) := by
  unfold decMul
  split_ifs <;>
    first
      | exact limbsWf_decZero
      | (refine (normalize_spec ?_).1
         unfold LimbsWf setMantissa U32
         (try split_ifs) <;> (dsimp only; refine ⟨?_, ?_, ?_⟩ <;> omega))

theorem limbsWf_decDiv {a b r : Decimal} (h : decDiv a b = Except.ok r) :
    LimbsWf r := by
  unfold decDiv at h
  dsimp only at h
  split_ifs at h <;> injection h with h <;> subst h <;>
    first
      | exact limbsWf_decZero
      | (refine (normalize_spec ?_).1
         unfold LimbsWf setMantissa U32
         (try split_ifs) <;> (dsimp only; refine ⟨?_, ?_, ?_⟩ <;> omega))

theorem limbsWf_decOfInt128 {v : Int128} {r : Decimal}
    (h : decOfInt128 v = Except.ok r) : LimbsWf r := by
  unfold decOfInt128 at h
  dsimp only at h
  split_ifs at h <;> injection h with h <;> subst h <;>
    first
      | exact limbsWf_decZero
      | exact limbsWf_setMantissa _ _

theorem limbsWf_decRound {d : Decimal} (hd : LimbsWf d) (n : ℤ)
    (m : RoundingMode) : LimbsWf (decRound d n m) := by
  have htrunc : ∀ k (x : Decimal), LimbsWf x → LimbsWf (truncateLoop k x) := by
    intro k
    induction k with
    | zero => intro x hx; exact hx
    | succ k ih =>
      intro x _
      exact ih _ (limbsWf_setMantissa _ _)
  unfold decRound
  dsimp only
  split_ifs <;>
    first
      | exact hd
      | exact limbsWf_setMantissa _ _
      | exact limbsWf_flags (htrunc _ _ hd) _

end Decimal

/-!
## Claim theorems (first group)
-/

/-- C9: a negative requested decimal-place count is clamped to zero, so
`d.round(n, m)` with `n < 0` returns exactly `d.round(0, m)`. -/
theorem claim_C9_round_clamps_negative_places
    (d : Decimal) (n : ℤ) (m : RoundingMode) (hn : n < 0) :
    decRound d n m = decRound d 0 m := by
  have h1 : (if n < 0 then (0 : ℤ) else n) = 0 := if_pos hn
  have h2 : (if (0 : ℤ) < 0 then (0 : ℤ) else 0) = 0 := by norm_num
  simp only [decRound, h1, h2]

/-- Witness for C9 at `d = 123.456`, `n = -1`, banker's mode. -/
theorem claim_C9_witness :
    (-1 : ℤ) < 0 ∧
      decRound ⟨3 * 2 ^ 16, 123456, 0, 0⟩ (-1) RoundingMode.toNearest =
        decRound ⟨3 * 2 ^ 16, 123456, 0, 0⟩ 0 RoundingMode.toNearest :=
  ⟨by norm_num,
    claim_C9_round_clamps_negative_places ⟨3 * 2 ^ 16, 123456, 0, 0⟩ (-1)
      RoundingMode.toNearest (by norm_num)⟩

/-- C8: `Decimal::operator==` short-circuits to `true` whenever both
operands' mantissa limbs are all zero, whatever the stored sign and
scale bits; in particular `-Decimal{}` (which flips the stored sign
bit) still compares equal to `Decimal{}`. -/
theorem claim_C8_zero_equality :
    (∀ a b : Decimal, a.m0 = 0 ∧ a.m1 = 0 ∧ a.m2 = 0 →
        b.m0 = 0 ∧ b.m1 = 0 ∧ b.m2 = 0 → Decimal.decEq a b = true) ∧
      Decimal.decEq (decNeg decZero) decZero = true ∧ signBit (decNeg decZero) = true := by
  refine ⟨?_, by decide, by decide⟩
  intro a b ha hb
  unfold Decimal.decEq
  rw [if_pos ⟨ha.1, ha.2.1, ha.2.2, hb.1, hb.2.1, hb.2.2⟩]

/-- Witness for C8 at two zeros with scrambled sign/scale bits. -/
theorem claim_C8_witness :
    ((⟨2 ^ 31 + 7 * 2 ^ 16, 0, 0, 0⟩ : Decimal).m0 = 0 ∧
        (⟨2 ^ 31 + 7 * 2 ^ 16, 0, 0, 0⟩ : Decimal).m1 = 0 ∧
        (⟨2 ^ 31 + 7 * 2 ^ 16, 0, 0, 0⟩ : Decimal).m2 = 0) ∧
      Decimal.decEq ⟨2 ^ 31 + 7 * 2 ^ 16, 0, 0, 0⟩ ⟨3 * 2 ^ 16, 0, 0, 0⟩ = true :=
  ⟨⟨rfl, rfl, rfl⟩,
    claim_C8_zero_equality.1 ⟨2 ^ 31 + 7 * 2 ^ 16, 0, 0, 0⟩ ⟨3 * 2 ^ 16, 0, 0, 0⟩
      ⟨rfl, rfl, rfl⟩ ⟨rfl, rfl, rfl⟩⟩

/-- C3: division by a zero-valued divisor fails with the overflow error
for both types, and for every divisor not comparing equal to zero,
division returns normally. -/
theorem claim_C3_division_by_zero :
    (∀ a b : Decimal, Decimal.decEq b decZero = true →
        decDiv a b = Except.error Err.overflow) ∧
    (∀ a b : Decimal, Decimal.decEq b decZero = false → ∃ r, decDiv a b = Except.ok r) ∧
    (∀ x y : Int128, Int128.beq y Int128.zero = true →
        Int128.divE x y = Except.error Err.overflow) ∧
    (∀ x y : Int128, Int128.beq y Int128.zero = false →
        ∃ r, Int128.divE x y = Except.ok r) := by
  refine ⟨?_, ?_, ?_, ?_⟩
  · intro a b h
    unfold decDiv
    rw [if_pos h]
  · intro a b h
    unfold decDiv
    rw [if_neg (by simp [h])]
    split_ifs <;> exact ⟨_, rfl⟩
  · intro x y h
    unfold Int128.divE
    rw [if_pos h]
  · intro x y h
    unfold Int128.divE
    rw [if_neg (by simp [h])]
    exact ⟨_, rfl⟩

/-- Witness for C3: `Decimal("5") / Decimal("0")` and
`Int128(5) / Int128(0)` both yield the overflow error, and dividing by
the nonzero `Decimal("3")` / `Int128(3)` returns normally. -/
theorem claim_C3_witness :
    decDiv ⟨0, 5, 0, 0⟩ decZero = Except.error Err.overflow ∧
      Int128.divE (Int128.ofNat 5) Int128.zero = Except.error Err.overflow ∧
      (∃ r, decDiv ⟨0, 5, 0, 0⟩ ⟨0, 3, 0, 0⟩ = Except.ok r) ∧
      (∃ r, Int128.divE (Int128.ofNat 5) (Int128.ofNat 3) = Except.ok r) :=
  ⟨claim_C3_division_by_zero.1 _ _ (by decide),
    claim_C3_division_by_zero.2.2.1 _ _ (by decide),
    claim_C3_division_by_zero.2.1 _ _ (by decide),
    claim_C3_division_by_zero.2.2.2 _ _ (by decide)⟩

theorem signBit_setMantissa (d : Decimal) (v : Int128) :
    signBit (setMantissa d v) = signBit d := rfl

/-- `abs` computes the magnitude of the signed value (except at the
minimum value, whose magnitude is not representable). -/
theorem Int128.abs_spec {a : Int128} (ha : Int128.Wf a)
    (hne : a ≠ Int128.minValue) :
    (Int128.abs a).toNat = a.toInt.natAbs ∧ Int128.Wf (Int128.abs a) := by
  unfold Int128.abs
  cases hn : a.isNeg
  · simp only [Bool.false_eq_true, if_false]
    refine ⟨?_, ha⟩
    rw [Int128.toInt_eq_toNat hn]
    omega
  · simp only [if_true]
    refine ⟨?_, Int128.wf_neg ha⟩
    have h1 := Int128.toInt_eq_of_neg hn
    have h2 := Int128.toNat_neg ha
    have h3 := Int128.toNat_lt ha
    have h4 : 2 ^ 63 ≤ a.hi := by
      simpa [Int128.isNeg] using hn
    have h5 : 2 ^ 127 ≤ a.toNat := by
      obtain ⟨hl, hh⟩ := ha
      unfold Int128.toNat U64 at *
      omega
    have h6 : a.toNat ≠ 2 ^ 127 := by
      intro hEq
      apply hne
      obtain ⟨hl, hh⟩ := ha
      have : a.lo = 0 ∧ a.hi = 2 ^ 63 := by
        unfold Int128.toNat U64 at *
        omega
      obtain ⟨e1, e2⟩ := this
      cases a
      simp only [Int128.minValue, Int128.mk.injEq]
      exact ⟨e1, e2⟩
    rw [h2, h1]
    unfold U128 at *
    omega

/-- C5: constructing a Decimal from an Int128 succeeds exactly when the
magnitude of its signed value is at most 2^96 - 1, in which case the
result stores the absolute value as the mantissa with scale 0 and the
sign bit set exactly for negative inputs; every larger magnitude,
including the Int128 minimum value, fails with the overflow error. -/
theorem claim_C5_decimal_from_int128 (v : Int128) (hv : Int128.Wf v) :
    (v.toInt.natAbs ≤ 2 ^ 96 - 1 →
      ∃ r, decOfInt128 v = Except.ok r ∧
        mantNat r = v.toInt.natAbs ∧ scale r = 0 ∧
        (signBit r = true ↔ v.toInt < 0)) ∧
    (2 ^ 96 - 1 < v.toInt.natAbs →
      decOfInt128 v = Except.error Err.overflow) := by
  unfold decOfInt128
  by_cases hz : Int128.beq v Int128.zero = true
  · have hv0 : v = Int128.zero := Int128.beq_iff.mp hz
    subst hv0
    rw [if_pos hz]
    constructor
    · intro _
      refine ⟨decZero, rfl, by decide, rfl, by decide⟩
    · intro h
      exfalso
      have : (Int128.toInt Int128.zero).natAbs = 0 := by decide
      omega
  · rw [if_neg hz]
    dsimp only
    by_cases hm : Int128.beq v Int128.minValue = true
    · have hvm : v = Int128.minValue := Int128.beq_iff.mp hm
      subst hvm
      rw [if_pos hm]
      constructor
      · intro habs
        exfalso
        have : (Int128.toInt Int128.minValue).natAbs = 2 ^ 127 := by decide
        omega
      · intro _
        rfl
    · rw [if_neg hm]
      have hvm : v ≠ Int128.minValue := fun h => hm (Int128.beq_iff.mpr h)
      obtain ⟨habs, hwabs⟩ := Int128.abs_spec hv hvm
      have hhi : (Int128.abs v).hi = v.toInt.natAbs / U64 := by
        rw [Int128.hi_eq_div hwabs, habs]
      have hsign : (Int128.blt v Int128.zero = true) ↔ v.toInt < 0 := by
        rw [Int128.blt_zero_iff hv]
        constructor
        · intro h
          by_contra hc
          rw [(Int128.toInt_nonneg_iff hv).mp (by omega)] at h
          cases h
        · intro h
          cases hIs : v.isNeg
          · exact absurd ((Int128.toInt_nonneg_iff hv).mpr hIs) (by omega)
          · rfl
      constructor
      · intro hle
        rw [if_neg (by
          unfold UINT32_MAX_VALUE
          rw [hhi]
          unfold U64
          omega)]
        refine ⟨_, rfl, ?_, ?_, ?_⟩
        · rw [mantNat_setMantissa _ hwabs, habs]
          exact Nat.mod_eq_of_lt (by omega)
        · rw [scale_setMantissa]
          unfold scale setSignMask decZero
          dsimp only
          split_ifs <;> norm_num
        · rw [signBit_setMantissa]
          unfold signBit setSignMask decZero
          dsimp only
          rw [← hsign]
          split_ifs <;> simp_all
      · intro hgt
        rw [if_pos (by
          unfold UINT32_MAX_VALUE
          rw [hhi]
          unfold U64
          omega)]

/-- Witness for C5 at the boundary value 2^96 - 1. -/
theorem claim_C5_witness :
    Int128.Wf ⟨2 ^ 64 - 1, 2 ^ 32 - 1⟩ ∧
      ((⟨2 ^ 64 - 1, 2 ^ 32 - 1⟩ : Int128).toInt.natAbs ≤ 2 ^ 96 - 1) ∧
      (∃ r, decOfInt128 ⟨2 ^ 64 - 1, 2 ^ 32 - 1⟩ = Except.ok r ∧
        mantNat r = (⟨2 ^ 64 - 1, 2 ^ 32 - 1⟩ : Int128).toInt.natAbs ∧
        scale r = 0 ∧
        (signBit r = true ↔ (⟨2 ^ 64 - 1, 2 ^ 32 - 1⟩ : Int128).toInt < 0)) :=
  ⟨by decide, by decide,
    (claim_C5_decimal_from_int128 ⟨2 ^ 64 - 1, 2 ^ 32 - 1⟩
      (by decide)).1 (by decide)⟩

/-- `decOfInt128` rejects any magnitude above 2^96 - 1 with overflow. -/
theorem decOfInt128_overflow {v : Int128} (hv : Int128.Wf v)
    (h : 2 ^ 96 - 1 < v.toInt.natAbs) :
    decOfInt128 v = Except.error Err.overflow := by
  unfold decOfInt128
  by_cases hz : Int128.beq v Int128.zero = true
  · exfalso
    have hv0 : v = Int128.zero := Int128.beq_iff.mp hz
    subst hv0
    have : (Int128.toInt Int128.zero).natAbs = 0 := by decide
    omega
  · rw [if_neg hz]
    dsimp only
    by_cases hm : Int128.beq v Int128.minValue = true
    · rw [if_pos hm]
    · rw [if_neg hm]
      have hvm : v ≠ Int128.minValue := fun hEq => hm (Int128.beq_iff.mpr hEq)
      obtain ⟨habs, hwabs⟩ := Int128.abs_spec hv hvm
      rw [if_pos (by
        rw [Int128.hi_eq_div hwabs, habs]
        unfold UINT32_MAX_VALUE U64
        omega)]

/-- C2 (amended): every arithmetic result keeps its mantissa below 2^96
because the stored limbs are the low 96 bits of the computed value, and
construction from an out-of-range Int128 fails with overflow; the
original claim that no operation silently wraps is refuted by
`claim_C2_counterexample` below. -/
theorem claim_C2_mantissa_bound :
    (∀ a b : Decimal, LimbsWf a → LimbsWf b →
        mantNat (decAdd a b) < 2 ^ 96 ∧ mantNat (decSub a b) < 2 ^ 96 ∧
          mantNat (decMul a b) < 2 ^ 96) ∧
    (∀ a b r : Decimal, decDiv a b = Except.ok r → mantNat r < 2 ^ 96) ∧
    (∀ (v : Int128) (r : Decimal), decOfInt128 v = Except.ok r →
        mantNat r < 2 ^ 96) ∧
    (∀ v : Int128, Int128.Wf v → 2 ^ 96 - 1 < v.toInt.natAbs →
        decOfInt128 v = Except.error Err.overflow) := by
  refine ⟨?_, ?_, ?_, ?_⟩
  · intro a b ha hb
    exact ⟨mantNat_lt (limbsWf_decAdd ha hb), mantNat_lt (limbsWf_decSub ha hb),
      mantNat_lt (limbsWf_decMul ha hb)⟩
  · intro a b r h
    exact mantNat_lt (limbsWf_decDiv h)
  · intro v r h
    exact mantNat_lt (limbsWf_decOfInt128 h)
  · intro v hv h
    exact decOfInt128_overflow hv h

/-- Counterexample refuting C2 as stated: adding the largest Decimal
(mantissa 2^96 - 1, scale 0) to itself neither rounds nor fails - the
result mantissa is the exact sum wrapped to the low 96 bits, 2^96 - 2. -/
theorem claim_C2_counterexample :
    mantNat (decAdd ⟨0, U32 - 1, U32 - 1, U32 - 1⟩
        ⟨0, U32 - 1, U32 - 1, U32 - 1⟩) = 2 ^ 96 - 2 ∧
      (2 : ℕ) * (2 ^ 96 - 1) ≠ 2 ^ 96 - 2 := by
  exact ⟨by decide, by decide⟩

/-- Witness for C2 at small operands. -/
theorem claim_C2_witness :
    LimbsWf (⟨0, 5, 0, 0⟩ : Decimal) ∧ LimbsWf (⟨0, 7, 0, 0⟩ : Decimal) ∧
      (mantNat (decAdd ⟨0, 5, 0, 0⟩ ⟨0, 7, 0, 0⟩) < 2 ^ 96 ∧
        mantNat (decSub ⟨0, 5, 0, 0⟩ ⟨0, 7, 0, 0⟩) < 2 ^ 96 ∧
        mantNat (decMul ⟨0, 5, 0, 0⟩ ⟨0, 7, 0, 0⟩) < 2 ^ 96) :=
  ⟨by decide, by decide,
    claim_C2_mantissa_bound.1 ⟨0, 5, 0, 0⟩ ⟨0, 7, 0, 0⟩ (by decide) (by decide)⟩

theorem normalized_decZero : Normalized decZero := Or.inl rfl

/-- Flipping the sign bit leaves the scale field unchanged. -/
theorem scale_xorSignMask (f : ℕ) :
    xorSignMask f / 2 ^ 16 % 2 ^ 8 = f / 2 ^ 16 % 2 ^ 8 := by
  unfold xorSignMask
  split_ifs with h <;> omega

/-- The sum of two normalized nonzero operands is normalized. -/
theorem normalized_decAdd {a b : Decimal} (hna : Normalized a)
    (hnb : Normalized b) : Normalized (decAdd a b) := by
  unfold decAdd
  split_ifs <;>
    first
      | exact hnb
      | exact hna
      | (refine (normalize_spec ?_).2.1
         unfold LimbsWf setMantissa U32
         (try split_ifs) <;> (dsimp only; refine ⟨?_, ?_, ?_⟩ <;> omega))

/-- The difference of two normalized operands is normalized. -/
theorem normalized_decSub {a b : Decimal} (hna : Normalized a)
    (hnb : Normalized b) : Normalized (decSub a b) := by
  unfold decSub
  apply normalized_decAdd hna
  unfold Normalized scale at *
  dsimp only
  rcases hnb with h | h
  · left
    rw [scale_xorSignMask]
    exact h
  · right
    exact h

/-- Every product is normalized. -/
theorem normalized_decMul (a b : Decimal) : Normalized (decMul a b) := by
  unfold decMul
  split_ifs <;>
    first
      | exact normalized_decZero
      | (refine (normalize_spec ?_).2.1
         unfold LimbsWf setMantissa U32
         (try split_ifs) <;> (dsimp only; refine ⟨?_, ?_, ?_⟩ <;> omega))

/-- Every successful quotient is normalized. -/
theorem normalized_decDiv {a b r : Decimal} (h : decDiv a b = Except.ok r) :
    Normalized r := by
  unfold decDiv at h
  dsimp only at h
  split_ifs at h <;> injection h with h <;> subst h <;>
    first
      | exact normalized_decZero
      | (refine (normalize_spec ?_).2.1
         unfold LimbsWf setMantissa U32
         (try split_ifs) <;> (dsimp only; refine ⟨?_, ?_, ?_⟩ <;> omega))

/-- Every parse success is normalized: `Decimal::fromString` ends by
calling `internal::normalize` on the assembled value. -/
theorem normalized_decFromString {s : List Char} {d : Decimal}
    (h : decFromString s = some d) : Normalized d := by
  cases s with
  | nil => simp [decFromString] at h
  | cons c rest0 =>
    unfold decFromString at h
    dsimp only at h
    split_ifs at h <;>
      first
        | exact Option.noConfusion h
        | (split at h
           · exact Option.noConfusion h
           · split_ifs at h <;>
               first
                 | exact Option.noConfusion h
                 | (injection h with h
                    subst h
                    refine (normalize_spec ?_).2.1
                    unfold LimbsWf setMantissa U32
                    (try split_ifs) <;>
                      (dsimp only; refine ⟨?_, ?_, ?_⟩ <;> omega)))

/-- Construction from an `Int128` stores the magnitude at scale 0, a
normalized value. -/
theorem normalized_decOfInt128 {v : Int128} {r : Decimal}
    (h : decOfInt128 v = Except.ok r) : Normalized r ∧ scale r = 0 := by
  unfold decOfInt128 at h
  dsimp only at h
  split_ifs at h <;> injection h with h <;> subst h <;>
    first
      | exact ⟨normalized_decZero, rfl⟩
      | (refine ⟨Or.inl ?_, ?_⟩ <;>
          norm_num [flags_setMantissa, scale, setSignMask, decZero])

/-- C6 (amended): the four arithmetic operations normalize their results
(for addition and subtraction, provided the operands are themselves
normalized, since a zero operand makes the operation return the other
operand unchanged), a zero-valued arithmetic result has mantissa 0 and
scale 0, and construction normalizes as well - parsing from a string
ends in an explicit normalize call and construction from an Int128
stores the magnitude at scale 0; the further original claims - that
rounding also normalizes and that zero results always carry a cleared
sign bit - are refuted by `claim_C6_counterexample` below. -/
theorem claim_C6_normalization :
    (∀ a b : Decimal, Normalized a → Normalized b →
        Normalized (decAdd a b) ∧ Normalized (decSub a b)) ∧
    (∀ a b : Decimal, Normalized (decMul a b)) ∧
    (∀ a b r : Decimal, decDiv a b = Except.ok r → Normalized r) ∧
    (∀ a b : Decimal, Normalized a → Normalized b →
        mantNat (decAdd a b) = 0 → scale (decAdd a b) = 0) ∧
    (∀ (s : List Char) (d : Decimal), decFromString s = some d →
        Normalized d) ∧
    (∀ (v : Int128) (r : Decimal), decOfInt128 v = Except.ok r →
        Normalized r ∧ scale r = 0) := by
  refine ⟨?_, ?_, ?_, ?_, ?_, ?_⟩
  · intro a b hna hnb
    exact ⟨normalized_decAdd hna hnb, normalized_decSub hna hnb⟩
  · intro a b
    exact normalized_decMul a b
  · intro a b r h
    exact normalized_decDiv h
  · intro a b hna hnb hz
    exact normalized_zero_scale (normalized_decAdd hna hnb) hz
  · intro s d h
    exact normalized_decFromString h
  · intro v r h
    exact normalized_decOfInt128 h

/-- Counterexample refuting C6 as stated: negating the zero Decimal
leaves the sign bit set on a zero value, and rounding 1.999 to two
places yields mantissa 200 at scale 2, an unnormalized result. -/
theorem claim_C6_counterexample :
    signBit (decNeg decZero) = true ∧
      Decimal.decEq (decNeg decZero) decZero = true ∧
      ¬ Normalized (decRound ⟨3 * 2 ^ 16, 1999, 0, 0⟩ 2 RoundingMode.toNearest) ∧
      mantNat (decRound ⟨3 * 2 ^ 16, 1999, 0, 0⟩ 2 RoundingMode.toNearest) = 200 ∧
      scale (decRound ⟨3 * 2 ^ 16, 1999, 0, 0⟩ 2 RoundingMode.toNearest) = 2 := by
  refine ⟨by decide, by decide, ?_, by decide, by decide⟩
  unfold Normalized
  decide

/-- Witness for C6 at 5 + 7 and 5 - 7. -/
theorem claim_C6_witness :
    Normalized (⟨0, 5, 0, 0⟩ : Decimal) ∧ Normalized (⟨0, 7, 0, 0⟩ : Decimal) ∧
      (Normalized (decAdd ⟨0, 5, 0, 0⟩ ⟨0, 7, 0, 0⟩) ∧
        Normalized (decSub ⟨0, 5, 0, 0⟩ ⟨0, 7, 0, 0⟩)) :=
  ⟨Or.inl rfl, Or.inl rfl,
    claim_C6_normalization.1 ⟨0, 5, 0, 0⟩ ⟨0, 7, 0, 0⟩ (Or.inl rfl) (Or.inl rfl)⟩

/-- C4: the three concrete examples of the spec hold (2.5 rounds to 2,
3.5 to 4, 2.5 ties-away to 3), but the stated tie rule - round away
from zero whenever further non-zero digits exist below the rounding
digit - is violated by the code: 2.55 rounded to zero places under
ToNearest yields 2 (tie-to-even) although the non-zero digit 5 sits
right below the rounding digit 5, while 2.51, whose remainder the
code's check does detect, rounds to 3. -/
theorem claim_C4_banker_rounding :
    mantNat (decRound ⟨1 * 2 ^ 16, 25, 0, 0⟩ 0 RoundingMode.toNearest) = 2 ∧
    mantNat (decRound ⟨1 * 2 ^ 16, 35, 0, 0⟩ 0 RoundingMode.toNearest) = 4 ∧
    mantNat (decRound ⟨1 * 2 ^ 16, 25, 0, 0⟩ 0 RoundingMode.toNearestTiesAway) = 3 ∧
    mantNat (decRound ⟨2 * 2 ^ 16, 255, 0, 0⟩ 0 RoundingMode.toNearest) = 2 ∧
    scale (decRound ⟨2 * 2 ^ 16, 255, 0, 0⟩ 0 RoundingMode.toNearest) = 0 ∧
    mantNat (decRound ⟨2 * 2 ^ 16, 251, 0, 0⟩ 0 RoundingMode.toNearest) = 3 := by
  refine ⟨by decide, by decide, by decide, by decide, by decide, by decide⟩

/-- C10: `Int128::fromString` rejects every input whose character run
after the optional sign is longer than 39, even when leading zeros make
the value representable, and every accepted input has a run of at most
39 characters; concretely, thirty-nine zeros followed by a 5 (40
characters, value 5) is rejected while a plain 5 parses. -/
theorem claim_C10_digit_count_limit :
    (∀ s : List Char, 39 < (Int128.stripSign s).length →
        Int128.fromString s = none) ∧
    (∀ (s : List Char) (r : Int128), Int128.fromString s = some r →
        (Int128.stripSign s).length ≤ 39) ∧
    Int128.fromString (List.replicate 39 '0' ++ ['5']) = none ∧
    Int128.fromString ['5'] = some ⟨5, 0⟩ := by
  have key : ∀ s : List Char, 39 < (Int128.stripSign s).length →
      Int128.fromString s = none := by
    intro s h
    match s with
    | [] => rfl
    | c :: rest0 =>
      simp only [Int128.stripSign] at h
      unfold Int128.fromString
      dsimp only
      by_cases hc : c = '-' ∨ c = '+'
      · rw [if_pos hc] at h ⊢
        rw [if_neg (by intro he; rw [he] at h; simp at h),
          if_pos (show INT128_MAX_DIGIT_COUNT < _ from h)]
      · rw [if_neg hc] at h ⊢
        rw [if_neg (by intro he; rw [he] at h; simp at h),
          if_pos (show INT128_MAX_DIGIT_COUNT < _ from h)]
  refine ⟨key, ?_, by decide, by decide⟩
  intro s r h
  by_contra hlen
  rw [key s (by omega)] at h
  cases h

/-- Witness for C10 at a 41-character run of fours. -/
theorem claim_C10_witness :
    39 < (Int128.stripSign (List.replicate 41 '4')).length ∧
      Int128.fromString (List.replicate 41 '4') = none :=
  ⟨by decide, claim_C10_digit_count_limit.1 (List.replicate 41 '4') (by decide)⟩

theorem hornerVal_append (u v : List Char) (a : ℕ) :
    hornerVal (u ++ v) a = hornerVal v (hornerVal u a) := by
  induction u generalizing a with
  | nil => rfl
  | cons c cs ih =>
    simp only [List.cons_append, hornerVal]
    exact ih _

theorem char_toNat_digit {k : ℕ} (hk : k ≤ 9) :
    (Char.ofNat (48 + k)).toNat = 48 + k := by
  interval_cases k <;> decide

theorem natDigitsLE_allDigits (fuel n : ℕ) : AllDigits (natDigitsLE fuel n) := by
  induction fuel generalizing n with
  | zero => intro c hc; cases hc
  | succ fuel ih =>
    intro c hc
    unfold natDigitsLE at hc
    split_ifs at hc with h
    · cases hc
    · rcases List.mem_cons.mp hc with h1 | h1
      · subst h1
        rw [char_toNat_digit (by omega : n % 10 ≤ 9)]
        omega
      · exact ih _ c h1

theorem natDigitsLE_length_le {fuel n k : ℕ} (h : n < 10 ^ k) :
    (natDigitsLE fuel n).length ≤ k := by
  induction fuel generalizing n k with
  | zero => simp [natDigitsLE]
  | succ fuel ih =>
    unfold natDigitsLE
    split_ifs with h0
    · simp
    · match k with
      | 0 => omega
      | k + 1 =>
        simp only [List.length_cons]
        have : n / 10 < 10 ^ k := by
          rw [pow_succ] at h
          omega
        exact Nat.succ_le_succ (ih this)

theorem natDigitsLE_ne_nil {fuel n : ℕ} (hn : n ≠ 0) (hf : fuel ≠ 0) :
    natDigitsLE fuel n ≠ [] := by
  match fuel with
  | f + 1 =>
    unfold natDigitsLE
    rw [if_neg hn]
    simp

theorem hornerVal_natDigitsLE_reverse {fuel n : ℕ} (h : n < 10 ^ fuel) :
    ∀ a, hornerVal (natDigitsLE fuel n).reverse a =
      a * 10 ^ (natDigitsLE fuel n).length + n := by
  induction fuel generalizing n with
  | zero =>
    intro a
    have : n = 0 := by simpa using h
    subst this
    simp [natDigitsLE, hornerVal]
  | succ fuel ih =>
    intro a
    unfold natDigitsLE
    split_ifs with h0
    · subst h0
      simp [hornerVal]
    · have hdiv : n / 10 < 10 ^ fuel := by
        rw [pow_succ] at h
        omega
      simp only [List.reverse_cons, List.length_cons]
      rw [hornerVal_append, ih hdiv]
      show _ * 10 + ((Char.ofNat (48 + n % 10)).toNat - 48) = _
      rw [char_toNat_digit (by omega : n % 10 ≤ 9)]
      have : a * 10 ^ ((natDigitsLE fuel (n / 10)).length + 1) =
          a * 10 ^ (natDigitsLE fuel (n / 10)).length * 10 := by ring
      rw [this]
      omega

/-- Upper bound of a Horner value over digit characters. -/
theorem hornerVal_lt {l : List Char} (hd : AllDigits l) (a : ℕ) :
    hornerVal l a < (a + 1) * 10 ^ l.length := by
  induction l generalizing a with
  | nil => simpa [hornerVal] using Nat.lt_succ_self a
  | cons c cs ih =>
    have hc := hd c (List.mem_cons_self c cs)
    have hcs : AllDigits cs := fun x hx => hd x (List.mem_cons_of_mem _ hx)
    simp only [hornerVal, List.length_cons]
    have h1 := ih hcs (a * 10 + (c.toNat - 48))
    have h2 : (a * 10 + (c.toNat - 48) + 1) * 10 ^ cs.length ≤
        (a + 1) * 10 ^ (cs.length + 1) := by
      have : (a * 10 + (c.toNat - 48) + 1) ≤ (a + 1) * 10 := by omega
      calc (a * 10 + (c.toNat - 48) + 1) * 10 ^ cs.length
          ≤ (a + 1) * 10 * 10 ^ cs.length := Nat.mul_le_mul_right _ this
        _ = (a + 1) * 10 ^ (cs.length + 1) := by ring
    omega

/-- Lower bound of a Horner value over digit characters. -/
theorem hornerVal_ge {l : List Char} (a : ℕ) :
    a * 10 ^ l.length ≤ hornerVal l a := by
  induction l generalizing a with
  | nil => simp [hornerVal]
  | cons c cs ih =>
    simp only [hornerVal, List.length_cons]
    have h1 := ih (a * 10 + (c.toNat - 48))
    have h2 : a * 10 ^ (cs.length + 1) ≤ (a * 10 + (c.toNat - 48)) * 10 ^ cs.length := by
      have : a * 10 ≤ a * 10 + (c.toNat - 48) := by omega
      calc a * 10 ^ (cs.length + 1) = a * 10 * 10 ^ cs.length := by ring
        _ ≤ (a * 10 + (c.toNat - 48)) * 10 ^ cs.length := Nat.mul_le_mul_right _ this
    omega

/-- On equal-length digit runs, the lexicographic comparison is the
numeric comparison of the Horner values. -/
theorem lexGt_iff {u v : List Char} (hl : u.length = v.length)
    (hu : AllDigits u) (hv : AllDigits v) :
    ∀ a, (Int128.lexGt u v = true ↔ hornerVal v a < hornerVal u a) := by
  induction u generalizing v with
  | nil =>
    match v with
    | [] =>
      intro a
      simp [Int128.lexGt, hornerVal]
  | cons c cs ih =>
    match v with
    | d :: ds =>
      intro a
      have hc := hu c (List.mem_cons_self c cs)
      have hdd := hv d (List.mem_cons_self d ds)
      have hcs : AllDigits cs := fun x hx => hu x (List.mem_cons_of_mem _ hx)
      have hds : AllDigits ds := fun x hx => hv x (List.mem_cons_of_mem _ hx)
      have hl2 : cs.length = ds.length := by simpa using hl
      simp only [Int128.lexGt, hornerVal]
      split_ifs with h1 h2
      · simp only [false_iff, not_lt]
        have hub := hornerVal_lt hcs (a * 10 + (c.toNat - 48))
        have hlb := hornerVal_ge (l := ds) (a * 10 + (d.toNat - 48))
        have hmono : (a * 10 + (c.toNat - 48) + 1) * 10 ^ cs.length ≤
            (a * 10 + (d.toNat - 48)) * 10 ^ ds.length := by
          rw [hl2]
          exact Nat.mul_le_mul_right _ (by omega)
        omega
      · simp only [true_iff]
        have hub := hornerVal_lt hds (a * 10 + (d.toNat - 48))
        have hlb := hornerVal_ge (l := cs) (a * 10 + (c.toNat - 48))
        have hmono : (a * 10 + (d.toNat - 48) + 1) * 10 ^ ds.length ≤
            (a * 10 + (c.toNat - 48)) * 10 ^ cs.length := by
          rw [hl2]
          exact Nat.mul_le_mul_right _ (by omega)
        omega
      · have : c.toNat = d.toNat := by omega
        rw [this]
        exact ih hl2 hcs hds _

theorem hornerVal_mod (cs : List Char) :
    ∀ a, hornerVal cs (a % U128) % U128 = hornerVal cs a % U128 := by
  induction cs with
  | nil =>
    intro a
    show a % U128 % U128 = a % U128
    unfold U128
    omega
  | cons c cs ih =>
    intro a
    show hornerVal cs (a % U128 * 10 + (c.toNat - 48)) % U128 = _
    have hx : (a % U128 * 10 + (c.toNat - 48)) % U128 =
        (a * 10 + (c.toNat - 48)) % U128 := by
      unfold U128
      omega
    calc hornerVal cs (a % U128 * 10 + (c.toNat - 48)) % U128
        = hornerVal cs ((a % U128 * 10 + (c.toNat - 48)) % U128) % U128 :=
          (ih _).symm
      _ = hornerVal cs ((a * 10 + (c.toNat - 48)) % U128) % U128 := by rw [hx]
      _ = hornerVal cs (a * 10 + (c.toNat - 48)) % U128 := ih _

theorem Int128.toNat_inj {a b : Int128} (ha : Int128.Wf a) (hb : Int128.Wf b)
    (h : a.toNat = b.toNat) : a = b :=
  Int128.beq_iff.mp ((Int128.beq_iff_toNat ha hb).mpr h)

/-- The parse loop of `Int128::fromString` accumulates the Horner value
of a digit run, wrapping modulo 2^128. -/
theorem Int128.fromStringLoop_spec {cs : List Char} (hd : AllDigits cs) :
    ∀ acc : Int128, Int128.Wf acc →
      ∃ r, Int128.fromStringLoop cs acc = some r ∧
        Int128.Wf r ∧ r.toNat = hornerVal cs acc.toNat % U128 := by
  induction cs with
  | nil =>
    intro acc hacc
    refine ⟨acc, rfl, hacc, ?_⟩
    show acc.toNat = acc.toNat % U128
    exact (Nat.mod_eq_of_lt (Int128.toNat_lt hacc)).symm
  | cons c cs ih =>
    intro acc hacc
    have hc := hd c (List.mem_cons_self c cs)
    have hcs : AllDigits cs := fun x hx => hd x (List.mem_cons_of_mem _ hx)
    unfold Int128.fromStringLoop
    rw [if_neg (by omega)]
    have hw10 : Int128.Wf (Int128.ofNat 10) := Int128.wf_ofNat 10
    have hwd : Int128.Wf (Int128.ofNat (c.toNat - 48)) := Int128.wf_ofNat _
    have hwm := Int128.wf_mul hacc hw10
    have hwacc2 := Int128.wf_add hwm hwd
    obtain ⟨r, hr1, hr2, hr3⟩ := ih hcs _ hwacc2
    refine ⟨r, hr1, hr2, ?_⟩
    rw [hr3]
    have hmul := Int128.toNat_mul hacc hw10
    have hadd := Int128.toNat_add hwm hwd
    have h10 : (Int128.ofNat 10).toNat = 10 :=
      Int128.toNat_ofNat (by norm_num [U128])
    have hdv : (Int128.ofNat (c.toNat - 48)).toNat = c.toNat - 48 :=
      Int128.toNat_ofNat (by unfold U128; omega)
    rw [hadd, hmul, h10, hdv]
    show hornerVal cs ((acc.toNat * 10 % U128 + (c.toNat - 48)) % U128) % U128 =
      hornerVal cs (acc.toNat * 10 + (c.toNat - 48)) % U128
    have hx : (acc.toNat * 10 % U128 + (c.toNat - 48)) % U128 =
        (acc.toNat * 10 + (c.toNat - 48)) % U128 := by
      unfold U128
      omega
    rw [hx]
    exact hornerVal_mod cs _

/-- The digit-extraction loop of `Int128::toString` produces exactly the
big-endian decimal digits of the raw value. -/
theorem Int128.toStringGo_eq :
    ∀ (fuel : ℕ) (t : Int128) (acc : List Char), Int128.Wf t →
      t.isNeg = false →
      Int128.toStringGo fuel t acc = (natDigitsLE fuel t.toNat).reverse ++ acc := by
  intro fuel
  induction fuel with
  | zero =>
    intro t acc _ _
    rfl
  | succ fuel ih =>
    intro t acc hw hn
    unfold Int128.toStringGo natDigitsLE
    by_cases h0 : t.toNat = 0
    · rw [if_pos ((Int128.beq_iff_toNat hw Int128.wf_zero).mpr
        (by rw [h0, Int128.toNat_zero])), if_pos h0]
      simp
    · rw [if_neg (fun hb => h0 (by
        have := (Int128.beq_iff_toNat hw Int128.wf_zero).mp hb
        rw [Int128.toNat_zero] at this
        exact this)), if_neg h0]
      have hw10 := Int128.wf_ofNat 10
      have h10 : (Int128.ofNat 10).toNat = 10 :=
        Int128.toNat_ofNat (by norm_num [U128])
      have h10pos : 0 < (Int128.ofNat 10).toNat := by omega
      have h10le : (Int128.ofNat 10).toNat ≤ 2 ^ 126 := by rw [h10]; norm_num
      obtain ⟨hmv, hmw⟩ := Int128.modRaw_spec hw hw10 hn h10pos h10le
      obtain ⟨hdv, hdw⟩ := Int128.divRaw_spec hw hw10 hn h10pos h10le
      rw [h10] at hmv hdv
      have hlt : t.toNat < 2 ^ 127 := Int128.toNat_lt_of_isNeg_false hw hn
      have hdn : (Int128.divRaw t (Int128.ofNat 10)).isNeg = false :=
        Int128.isNeg_false_of_toNat_lt hdw (by rw [hdv]; omega)
      rw [ih _ _ hdw hdn, hdv]
      have hlo : (Int128.modRaw t (Int128.ofNat 10)).lo =
          t.toNat % 10 := by
        have := Int128.lo_eq_mod hmw
        rw [hmv] at this
        rw [this]
        unfold U64
        omega
      rw [hlo]
      have hch : (48 + t.toNat % 10) % 256 = 48 + t.toNat % 10 := by omega
      rw [hch]
      simp

/-- Parsing a plain digit run accumulates its Horner value (mod 2^128). -/
theorem Int128.fromStringLoop_digits {D : List Char} (hAD : AllDigits D) :
    Int128.fromStringLoop D Int128.zero =
      some (Int128.ofNat (hornerVal D 0 % U128)) := by
  obtain ⟨r, h1, h2, h3⟩ := Int128.fromStringLoop_spec hAD Int128.zero Int128.wf_zero
  rw [h1]
  congr 1
  refine Int128.toNat_inj h2 (Int128.wf_ofNat _) ?_
  rw [Int128.toNat_zero] at h3
  rw [h3, Int128.toNat_ofNat (Nat.mod_lt _ (by norm_num [U128]))]

/-- `Int128::fromString` on an unsigned digit run below the positive
boundary parses to the Horner value. -/
theorem Int128.fromString_digitRun {D : List Char} (hAD : AllDigits D)
    (hne : D ≠ []) (hlen : D.length ≤ 39)
    (hbound : D.length = 39 → Int128.lexGt D INT128_MAX_POSITIVE_STRING = false) :
    Int128.fromString D = some (Int128.ofNat (hornerVal D 0 % U128)) := by
  obtain ⟨c, rest, rfl⟩ : ∃ c rest, D = c :: rest := by
    cases D with
    | nil => exact absurd rfl hne
    | cons c rest => exact ⟨c, rest, rfl⟩
  have hc := hAD c (List.mem_cons_self c rest)
  have hcsign : ¬(c = '-' ∨ c = '+') := by
    rintro (rfl | rfl) <;> revert hc <;> decide
  have hnegf : (decide (c = '-') = false) := by
    rcases Decidable.em (c = '-') with h | h
    · exact absurd (Or.inl h) hcsign
    · exact decide_eq_false h
  unfold Int128.fromString
  dsimp only
  rw [if_neg hcsign, if_neg (by simp),
    if_neg (show ¬(INT128_MAX_DIGIT_COUNT < (c :: rest).length) by
      unfold INT128_MAX_DIGIT_COUNT
      omega)]
  by_cases h39 : (c :: rest).length = INT128_MAX_DIGIT_COUNT
  · have h39' : (c :: rest).length = 39 := h39
    have hb := hbound h39'
    rw [if_pos h39, if_pos hnegf, if_neg (by rw [hb]; simp),
      Int128.fromStringLoop_digits hAD]
    simp [hnegf]
  · rw [if_neg h39, Int128.fromStringLoop_digits hAD]
    simp [hnegf]

/-- `Int128::fromString` on a minus sign followed by a digit run below
the negative boundary parses to the negated Horner value. -/
theorem Int128.fromString_negDigitRun {D : List Char} (hAD : AllDigits D)
    (hne : D ≠ []) (hlen : D.length ≤ 39)
    (hb1 : D.length = 39 → D ≠ INT128_MAX_NEGATIVE_STRING)
    (hb2 : D.length = 39 → Int128.lexGt D INT128_MAX_NEGATIVE_STRING = false) :
    Int128.fromString ('-' :: D) =
      some (Int128.neg (Int128.ofNat (hornerVal D 0 % U128))) := by
  unfold Int128.fromString
  dsimp only
  have hnegt : (decide (('-' : Char) = '-') = true) := by decide
  rw [if_pos (Or.inl rfl), if_neg hne,
    if_neg (show ¬(INT128_MAX_DIGIT_COUNT < D.length) by
      unfold INT128_MAX_DIGIT_COUNT
      omega)]
  by_cases h39 : D.length = INT128_MAX_DIGIT_COUNT
  · have h39' : D.length = 39 := h39
    rw [if_pos h39, if_neg (by rw [hnegt]; simp), if_neg (hb1 h39'),
      if_neg (by rw [hb2 h39']; simp), Int128.fromStringLoop_digits hAD]
    simp [hnegt]
  · rw [if_neg h39, Int128.fromStringLoop_digits hAD]
    simp [hnegt]

/-- Round-trip for `Int128`: parsing the printed value returns the
value, for every well-formed bit pattern. -/
theorem Int128.roundTrip {x : Int128} (hw : Int128.Wf x) :
    Int128.fromString (Int128.toString x) = some x := by
  unfold Int128.toString
  by_cases hz : Int128.beq x Int128.zero = true
  · rw [if_pos hz, Int128.beq_iff.mp hz]
    decide
  · rw [if_neg hz]
    by_cases hm : Int128.beq x Int128.minValue = true
    · rw [if_pos hm, Int128.beq_iff.mp hm]
      decide
    · rw [if_neg hm]
      dsimp only
      have hxz : x ≠ Int128.zero := fun h => hz (Int128.beq_iff.mpr h)
      have hxm : x ≠ Int128.minValue := fun h => hm (Int128.beq_iff.mpr h)
      have hn0 : x.toNat ≠ 0 := fun h =>
        hxz (Int128.toNat_inj hw Int128.wf_zero (by rw [h, Int128.toNat_zero]))
      cases hneg : x.isNeg with
      | false =>
        rw [Int128.blt_zero_iff hw, hneg]
        simp only [Bool.false_eq_true, if_false]
        have habs_eq : x.abs = x := by
          unfold Int128.abs
          rw [hneg]
          simp
        rw [habs_eq, Int128.toStringGo_eq 39 x [] hw hneg, List.append_nil]
        have hlt : x.toNat < 2 ^ 127 := Int128.toNat_lt_of_isNeg_false hw hneg
        have hfuel : x.toNat < 10 ^ 39 := lt_trans hlt (by norm_num)
        have hAD : AllDigits (natDigitsLE 39 x.toNat).reverse := fun c hc =>
          natDigitsLE_allDigits 39 x.toNat c (List.mem_reverse.mp hc)
        have hne : (natDigitsLE 39 x.toNat).reverse ≠ [] := by
          simp only [ne_eq, List.reverse_eq_nil_iff]
          exact natDigitsLE_ne_nil hn0 (by norm_num)
        have hlen : (natDigitsLE 39 x.toNat).reverse.length ≤ 39 := by
          rw [List.length_reverse]
          exact natDigitsLE_length_le hfuel
        have hhor : hornerVal (natDigitsLE 39 x.toNat).reverse 0 = x.toNat := by
          rw [hornerVal_natDigitsLE_reverse hfuel 0]
          ring
        have hbound : (natDigitsLE 39 x.toNat).reverse.length = 39 →
            Int128.lexGt (natDigitsLE 39 x.toNat).reverse
              INT128_MAX_POSITIVE_STRING = false := by
          intro hL
          have hlenP : INT128_MAX_POSITIVE_STRING.length = 39 := by decide
          have hADP : AllDigits INT128_MAX_POSITIVE_STRING := by
            unfold AllDigits
            decide
          have hhorP : hornerVal INT128_MAX_POSITIVE_STRING 0 = 2 ^ 127 - 1 := by
            show hornerVal (natDigitsLE 39 (2 ^ 127 - 1)).reverse 0 = 2 ^ 127 - 1
            rw [hornerVal_natDigitsLE_reverse (by norm_num) 0]
            ring
          cases hlex : Int128.lexGt (natDigitsLE 39 x.toNat).reverse
            INT128_MAX_POSITIVE_STRING with
          | false => rfl
          | true =>
            exfalso
            have := (lexGt_iff (by rw [hL, hlenP]) hAD hADP 0).mp hlex
            rw [hhor, hhorP] at this
            omega
        rw [Int128.fromString_digitRun hAD hne hlen hbound, hhor,
          Nat.mod_eq_of_lt (lt_trans hlt (by norm_num [U128]))]
        congr 1
        exact Int128.toNat_inj (Int128.wf_ofNat x.toNat) hw
          (Int128.toNat_ofNat (lt_trans hlt (by norm_num [U128])))
      | true =>
        rw [Int128.blt_zero_iff hw, hneg, if_pos rfl]
        obtain ⟨habs, hwabs⟩ := Int128.abs_spec hw hxm
        have h63 : 2 ^ 63 ≤ x.hi := by
          simpa [Int128.isNeg] using hneg
        have hge : 2 ^ 127 ≤ x.toNat := by
          obtain ⟨hl, hh⟩ := hw
          unfold Int128.toNat U64 at *
          omega
        have hne127 : x.toNat ≠ 2 ^ 127 := by
          intro hEq
          apply hxm
          obtain ⟨hl, hh⟩ := hw
          have hlohi : x.lo = 0 ∧ x.hi = 2 ^ 63 := by
            unfold Int128.toNat U64 at *
            omega
          cases x
          simp only [Int128.minValue, Int128.mk.injEq]
          exact ⟨hlohi.1, hlohi.2⟩
        have htop := Int128.toNat_lt hw
        have htoInt := Int128.toInt_eq_of_neg hneg
        have hmlt : x.toInt.natAbs < 2 ^ 127 := by
          unfold U128 at *
          omega
        have hm0 : x.toInt.natAbs ≠ 0 := by
          unfold U128 at *
          omega
        have habsneg : x.abs.isNeg = false :=
          Int128.isNeg_false_of_toNat_lt hwabs (by rw [habs]; omega)
        rw [Int128.toStringGo_eq 39 x.abs [] hwabs habsneg, List.append_nil, habs]
        have hfuel : x.toInt.natAbs < 10 ^ 39 := lt_trans hmlt (by norm_num)
        have hAD : AllDigits (natDigitsLE 39 x.toInt.natAbs).reverse := fun c hc =>
          natDigitsLE_allDigits 39 _ c (List.mem_reverse.mp hc)
        have hne : (natDigitsLE 39 x.toInt.natAbs).reverse ≠ [] := by
          simp only [ne_eq, List.reverse_eq_nil_iff]
          exact natDigitsLE_ne_nil hm0 (by norm_num)
        have hlen : (natDigitsLE 39 x.toInt.natAbs).reverse.length ≤ 39 := by
          rw [List.length_reverse]
          exact natDigitsLE_length_le hfuel
        have hhor : hornerVal (natDigitsLE 39 x.toInt.natAbs).reverse 0 =
            x.toInt.natAbs := by
          rw [hornerVal_natDigitsLE_reverse hfuel 0]
          ring
        have hlenN : INT128_MAX_NEGATIVE_STRING.length = 39 := by decide
        have hADN : AllDigits INT128_MAX_NEGATIVE_STRING := by
          unfold AllDigits
          decide
        have hhorN : hornerVal INT128_MAX_NEGATIVE_STRING 0 = 2 ^ 127 := by
          show hornerVal (natDigitsLE 39 (2 ^ 127)).reverse 0 = 2 ^ 127
          rw [hornerVal_natDigitsLE_reverse (by norm_num) 0]
          ring
        have hb1 : (natDigitsLE 39 x.toInt.natAbs).reverse.length = 39 →
            (natDigitsLE 39 x.toInt.natAbs).reverse ≠
              INT128_MAX_NEGATIVE_STRING := by
          intro _ hEq
          rw [hEq, hhorN] at hhor
          omega
        have hb2 : (natDigitsLE 39 x.toInt.natAbs).reverse.length = 39 →
            Int128.lexGt (natDigitsLE 39 x.toInt.natAbs).reverse
              INT128_MAX_NEGATIVE_STRING = false := by
          intro hL
          cases hlex : Int128.lexGt (natDigitsLE 39 x.toInt.natAbs).reverse
            INT128_MAX_NEGATIVE_STRING with
          | false => rfl
          | true =>
            exfalso
            have := (lexGt_iff (by rw [hL, hlenN]) hAD hADN 0).mp hlex
            rw [hhor, hhorN] at this
            omega
        rw [Int128.fromString_negDigitRun hAD hne hlen hb1 hb2, hhor,
          Nat.mod_eq_of_lt (lt_trans hmlt (by norm_num [U128]))]
        congr 1
        refine Int128.toNat_inj
          (Int128.wf_neg (Int128.wf_ofNat x.toInt.natAbs)) hw ?_
        rw [Int128.toNat_neg (Int128.wf_ofNat x.toInt.natAbs),
          Int128.toNat_ofNat (lt_trans hmlt (by norm_num [U128]))]
        unfold U128 at *
        omega

open Decimal in
/-- Counterexample refuting C1 as stated: the representable Decimal
with the 29-digit mantissa 10^28 and scale 0 prints as 1 followed by 28
zeros, but parsing truncates to 28 significant digits, so the
round-trip returns mantissa 10^27, which does not compare equal to the
original value. -/
theorem claim_C1_counterexample :
    Decimal.Wf ⟨0, 10 ^ 28 % 2 ^ 32, 10 ^ 28 / 2 ^ 32 % 2 ^ 32, 10 ^ 28 / 2 ^ 64⟩ ∧
      decFromString (decToString
          ⟨0, 10 ^ 28 % 2 ^ 32, 10 ^ 28 / 2 ^ 32 % 2 ^ 32, 10 ^ 28 / 2 ^ 64⟩) =
        some ⟨0, 10 ^ 27 % 2 ^ 32, 10 ^ 27 / 2 ^ 32 % 2 ^ 32, 10 ^ 27 / 2 ^ 64⟩ ∧
      Decimal.decEq ⟨0, 10 ^ 27 % 2 ^ 32, 10 ^ 27 / 2 ^ 32 % 2 ^ 32, 10 ^ 27 / 2 ^ 64⟩
        ⟨0, 10 ^ 28 % 2 ^ 32, 10 ^ 28 / 2 ^ 32 % 2 ^ 32, 10 ^ 28 / 2 ^ 64⟩ = false :=
  ⟨by decide, by decide, by decide⟩

namespace Decimal

/-- The parse loop on a run of digits and points: when at most 28 digit
characters remain (counted against the running significant-digit
count), no break happens and the mantissa accumulates the Horner value
of the digit characters. -/
theorem decParseLoop_run (hp : Bool) :
    ∀ (cs : List Char) (ap hd : Bool) (mv : Int128) (sd ddp cs0 : ℕ),
      Int128.Wf mv →
      (∀ c ∈ cs, c = '.' ∨ (48 ≤ c.toNat ∧ c.toNat ≤ 57)) →
      sd + (cs.filter (fun c => !(c == '.'))).length ≤ DECIMAL_MAXIMUM_PLACES →
      ∃ mv2, decParseLoop hp cs ap mv hd sd ddp cs0 =
          some (mv2, (hd || !(cs.filter (fun c => !(c == '.'))).isEmpty), cs0) ∧
        Int128.Wf mv2 ∧
        mv2.toNat = hornerVal (cs.filter (fun c => !(c == '.'))) mv.toNat % U128 := by
  intro cs
  induction cs with
  | nil =>
    intro ap hd mv sd ddp cs0 hw _ _
    refine ⟨mv, ?_, hw, ?_⟩
    · simp [decParseLoop]
    · show mv.toNat = hornerVal [] mv.toNat % U128
      exact (Nat.mod_eq_of_lt (Int128.toNat_lt hw)).symm
  | cons c cs ih =>
    intro ap hd mv sd ddp cs0 hw hchars hsd
    by_cases hdot : c = '.'
    · subst hdot
      have hf : (('.' :: cs).filter (fun c => !(c == '.'))) =
          cs.filter (fun c => !(c == '.')) := by
        simp
      rw [hf] at hsd ⊢
      unfold decParseLoop
      rw [if_pos rfl]
      exact ih true hd mv sd ddp cs0 hw
        (fun x hx => hchars x (List.mem_cons_of_mem _ hx)) hsd
    · have hc : 48 ≤ c.toNat ∧ c.toNat ≤ 57 := by
        rcases hchars c (List.mem_cons_self c cs) with h | h
        · exact absurd h hdot
        · exact h
      have hbeqf : (c == '.') = false := by
        rcases Bool.eq_false_or_eq_true (c == '.') with h | h
        · exact absurd (eq_of_beq h) hdot
        · exact h
      have hf : (c :: cs).filter (fun c => !(c == '.')) =
          c :: cs.filter (fun c => !(c == '.')) := by
        simp [List.filter_cons, hbeqf]
      rw [hf] at hsd ⊢
      have hsd27 : ¬(DECIMAL_MAXIMUM_PLACES ≤ sd) := by
        simp only [List.length_cons] at hsd
        unfold DECIMAL_MAXIMUM_PLACES at *
        omega
      unfold decParseLoop
      rw [if_neg hdot, if_neg (by omega), if_neg hsd27]
      have hw10 := Int128.wf_ofNat 10
      have hwd := Int128.wf_ofNat (c.toNat - 48)
      have hwm := Int128.wf_mul hw hw10
      have hwmv2 := Int128.wf_add hwm hwd
      have hsd2 : (if c.toNat - 48 ≠ 0 ∨ Int128.beq mv Int128.zero = false ∨
            ap = true then sd + 1 else sd) +
          (cs.filter (fun c => !(c == '.'))).length ≤ DECIMAL_MAXIMUM_PLACES := by
        simp only [List.length_cons] at hsd
        split_ifs <;> omega
      obtain ⟨mv2, h1, h2, h3⟩ := ih ap true _ _
        (if ap = true then ddp + 1 else ddp) cs0 hwmv2
        (fun x hx => hchars x (List.mem_cons_of_mem _ hx)) hsd2
      refine ⟨mv2, ?_, h2, ?_⟩
      · rw [h1]
        simp
      · rw [h3]
        have hmul := Int128.toNat_mul hw hw10
        have hadd := Int128.toNat_add hwm hwd
        have h10 : (Int128.ofNat 10).toNat = 10 :=
          Int128.toNat_ofNat (by norm_num [U128])
        have hdv : (Int128.ofNat (c.toNat - 48)).toNat = c.toNat - 48 :=
          Int128.toNat_ofNat (by unfold U128; omega)
        rw [hadd, hmul, h10, hdv]
        show hornerVal _ ((mv.toNat * 10 % U128 + (c.toNat - 48)) % U128) % U128 =
          hornerVal _ (mv.toNat * 10 + (c.toNat - 48)) % U128
        have hx : (mv.toNat * 10 % U128 + (c.toNat - 48)) % U128 =
            (mv.toNat * 10 + (c.toNat - 48)) % U128 := by
          unfold U128
          omega
        rw [hx]
        exact hornerVal_mod _ _

/-- The `normalize` loop only strips factors of ten: the scale never
grows and the value is preserved exactly. -/
theorem normalizeGo_value :
    ∀ (fuel : ℕ) (d : Decimal), LimbsWf d →
      scale (normalizeGo fuel d) ≤ scale d ∧
        mantNat (normalizeGo fuel d) *
          10 ^ (scale d - scale (normalizeGo fuel d)) = mantNat d := by
  intro fuel
  induction fuel with
  | zero =>
    intro d h
    refine ⟨le_refl _, ?_⟩
    simp [normalizeGo]
  | succ fuel ih =>
    intro d h
    simp only [normalizeGo]
    by_cases hcond : scale d ≠ 0 ∧
        Int128.beq (Int128.modRaw (mantissaAsInt128 d) (Int128.ofNat 10))
          Int128.zero = true
    · rw [if_pos hcond]
      have hdvd : mantNat d % 10 = 0 := (normalize_cond_iff h).mp hcond.2
      have hstep := mantNat_divideByPowerOf10_one h
      have hswf : LimbsWf (normalizeStep d) := by
        unfold normalizeStep
        exact hstep.2
      have hsscale : scale (normalizeStep d) = scale d - 1 := by
        unfold normalizeStep scale
        dsimp only
        exact scale_withScale (by omega)
      have hsm : mantNat (normalizeStep d) = mantNat d / 10 := by
        unfold normalizeStep
        unfold mantNat at *
        exact hstep.1
      obtain ⟨ihs, ihv⟩ := ih (normalizeStep d) hswf
      rw [hsscale] at ihs
      refine ⟨le_trans ihs (by omega), ?_⟩
      rw [hsm, hsscale] at ihv
      have hexp : scale d - scale (normalizeGo fuel (normalizeStep d)) =
          (scale d - 1 - scale (normalizeGo fuel (normalizeStep d))) + 1 := by
        omega
      rw [hexp, pow_succ, ← Nat.mul_assoc, ihv]
      omega
    · rw [if_neg hcond]
      refine ⟨le_refl _, ?_⟩
      simp

/-- `normalize` value preservation packaged. -/
theorem normalize_value {d : Decimal} (h : LimbsWf d) :
    scale (normalize d) ≤ scale d ∧
      mantNat (normalize d) * 10 ^ (scale d - scale (normalize d)) = mantNat d :=
  normalizeGo_value (scale d) d h

/-- `normalize` keeps the sign bit. -/
theorem signBit_normalize {d : Decimal} (h : LimbsWf d) :
    signBit (normalize d) = signBit d := by
  have := (normalize_spec h).2.2.2
  unfold signBit
  rw [this]

/-- Value-based sufficient condition for `Decimal::operator==`. -/
theorem decEq_of_aligned {u v : Decimal} (hu : LimbsWf u) (hv : LimbsWf v)
    (hs : scale u ≤ scale v) (hsv : scale v ≤ 28)
    (hm : mantNat u * 10 ^ (scale v - scale u) = mantNat v)
    (hsign : signBit u = signBit v) : decEq u v = true := by
  unfold decEq
  by_cases hz : u.m0 = 0 ∧ u.m1 = 0 ∧ u.m2 = 0 ∧ v.m0 = 0 ∧ v.m1 = 0 ∧ v.m2 = 0
  · rw [if_pos hz]
  · rw [if_neg hz, if_neg (by simp [hsign])]
    have hwu := wf_mantissaAsInt128 hu
    have hwv := wf_mantissaAsInt128 hv
    have hp : Int128.Wf (powerOf10 (scale v - scale u)) := Int128.wf_ofNat _
    have hpv : (powerOf10 (scale v - scale u)).toNat = 10 ^ (scale v - scale u) := by
      refine Int128.toNat_ofNat ?_
      have h1 : (10 : ℕ) ^ (scale v - scale u) ≤ 10 ^ 28 :=
        Nat.pow_le_pow_right (by norm_num) (by omega)
      unfold U128
      omega
    unfold alignScale
    dsimp only
    by_cases hlt : scale u < scale v
    · rw [if_pos hlt]
      refine (Int128.beq_iff_toNat (Int128.wf_mul hwu hp) hwv).mpr ?_
      rw [toNat_mantissaAsInt128 hv]
      rw [Int128.toNat_mul_of_lt hwu hp]
      · rw [toNat_mantissaAsInt128 hu, hpv, hm]
      · rw [toNat_mantissaAsInt128 hu, hpv, hm]
        have := mantNat_lt hv
        unfold U128
        omega
    · have hse : scale u = scale v := by omega
      rw [if_neg hlt, if_neg (by omega)]
      refine (Int128.beq_iff_toNat hwu hwv).mpr ?_
      rw [toNat_mantissaAsInt128 hu, toNat_mantissaAsInt128 hv]
      rw [hse] at hm
      simpa using hm

/-- A 96-bit value passes both truncation loops of
`Decimal::fromString` unchanged. -/
theorem decTruncScaleLoop_id {mv : Int128} (h : mv.hi ≤ UINT32_MAX_VALUE) :
    ∀ (fuel cs : ℕ), decTruncScaleLoop fuel mv cs = (mv, cs) := by
  intro fuel cs
  cases fuel with
  | zero => rfl
  | succ fuel =>
    unfold decTruncScaleLoop
    rw [if_neg (by omega)]

theorem decTruncLoop_id {mv : Int128} (h : mv.hi ≤ UINT32_MAX_VALUE) :
    ∀ fuel : ℕ, decTruncLoop fuel mv = mv := by
  intro fuel
  cases fuel with
  | zero => rfl
  | succ fuel =>
    unfold decTruncLoop
    rw [if_neg (by omega)]

end Decimal

/-- A digit character is not a point, in `BEq` form. -/
theorem digit_beq_dot_false {c : Char} (h : 48 ≤ c.toNat) :
    (c == '.') = false := by
  rcases Bool.eq_false_or_eq_true (c == '.') with hb | hb
  · exact absurd (congrArg Char.toNat (eq_of_beq hb)) (by
      intro hEq
      rw [show ('.' : Char).toNat = 46 from rfl] at hEq
      omega)
  · exact hb

/-- Digit runs survive the not-point filter unchanged. -/
theorem filter_not_dot_of_digits {l : List Char} (h : AllDigits l) :
    l.filter (fun c => !(c == '.')) = l := by
  induction l with
  | nil => rfl
  | cons c cs ih =>
    have hc := h c (List.mem_cons_self c cs)
    have hcs : AllDigits cs := fun x hx => h x (List.mem_cons_of_mem _ hx)
    simp [List.filter_cons, digit_beq_dot_false hc.1, ih hcs]

/-- Digit runs contain no points. -/
theorem filter_dot_of_digits {l : List Char} (h : AllDigits l) :
    l.filter (fun c => c == '.') = [] := by
  induction l with
  | nil => rfl
  | cons c cs ih =>
    have hc := h c (List.mem_cons_self c cs)
    have hcs : AllDigits cs := fun x hx => h x (List.mem_cons_of_mem _ hx)
    simp [List.filter_cons, digit_beq_dot_false hc.1, ih hcs]

/-- A digit run before a point is what the tail-length scan takes. -/
theorem takeWhile_digits_dot {u : List Char} (h : AllDigits u) (rest : List Char) :
    (u ++ '.' :: rest).takeWhile (fun c => !(c == '.')) = u := by
  induction u with
  | nil => simp [List.takeWhile]
  | cons c cs ih =>
    have hc := h c (List.mem_cons_self c cs)
    have hcs : AllDigits cs := fun x hx => h x (List.mem_cons_of_mem _ hx)
    simp [List.takeWhile, digit_beq_dot_false hc.1, ih hcs]

/-- Leading zero characters scale a Horner accumulator by powers of ten. -/
theorem hornerVal_replicate_zero : ∀ (k : ℕ) (a : ℕ),
    hornerVal (List.replicate k '0') a = a * 10 ^ k := by
  intro k
  induction k with
  | zero => intro a; simp [hornerVal]
  | succ k ih =>
    intro a
    show hornerVal (List.replicate k '0') (a * 10 + (('0' : Char).toNat - 48)) = _
    rw [show ('0' : Char).toNat - 48 = 0 from rfl, ih]
    ring

namespace Decimal

/-- Leading zeros before the decimal point pass through the parse loop
without being counted as significant digits. -/
theorem decParseLoop_zeros (hp : Bool) :
    ∀ (z : ℕ) (rest : List Char) (mv : Int128) (hd : Bool) (ddp cs0 : ℕ),
      Int128.Wf mv → mv.toNat = 0 →
      ∃ mv1, decParseLoop hp (List.replicate z '0' ++ rest) false mv hd 0 ddp cs0 =
          decParseLoop hp rest false mv1 (hd || decide (z ≠ 0)) 0 ddp cs0 ∧
        Int128.Wf mv1 ∧ mv1.toNat = 0 := by
  intro z
  induction z with
  | zero =>
    intro rest mv hd ddp cs0 hw h0
    refine ⟨mv, ?_, hw, h0⟩
    simp
  | succ z ih =>
    intro rest mv hd ddp cs0 hw h0
    have hbeq : Int128.beq mv Int128.zero = true :=
      (Int128.beq_iff_toNat hw Int128.wf_zero).mpr (by rw [h0, Int128.toNat_zero])
    have hcond : ¬(('0' : Char).toNat - 48 ≠ 0 ∨
        Int128.beq mv Int128.zero = false ∨ (false : Bool) = true) := by
      rw [hbeq]
      decide
    have hw10 := Int128.wf_ofNat 10
    have hwd := Int128.wf_ofNat (('0' : Char).toNat - 48)
    have hwm := Int128.wf_mul hw hw10
    have hwmv2 := Int128.wf_add hwm hwd
    have h0v : (Int128.add (Int128.mul mv (Int128.ofNat 10))
        (Int128.ofNat (('0' : Char).toNat - 48))).toNat = 0 := by
      rw [Int128.toNat_add hwm hwd, Int128.toNat_mul hw hw10, h0,
        Int128.toNat_ofNat (show (('0' : Char).toNat - 48) < U128 by decide)]
      decide
    have hstep : decParseLoop hp ('0' :: (List.replicate z '0' ++ rest))
        false mv hd 0 ddp cs0 =
        decParseLoop hp (List.replicate z '0' ++ rest) false
          (Int128.add (Int128.mul mv (Int128.ofNat 10))
            (Int128.ofNat (('0' : Char).toNat - 48)))
          true 0 ddp cs0 := by
      conv_lhs => unfold decParseLoop
      rw [if_neg (by decide), if_neg (by decide),
        if_neg (by unfold DECIMAL_MAXIMUM_PLACES; omega)]
      dsimp only
      rw [if_neg hcond]
      rfl
    obtain ⟨mv1, h1, h2, h3⟩ := ih rest _ true ddp cs0 hwmv2 h0v
    refine ⟨mv1, ?_, h2, h3⟩
    show decParseLoop hp ('0' :: (List.replicate z '0' ++ rest))
        false mv hd 0 ddp cs0 = _
    rw [hstep, h1]
    have hX : (true || decide (z ≠ 0)) = true := by simp
    have hY : (hd || decide (z + 1 ≠ 0)) = true := by simp
    rw [hX, hY]

/-- `Decimal::fromString` on an optionally signed digit run with `z`
leading zeros and no decimal point: the normalized decimal with the
Horner mantissa at scale zero. -/
theorem decFromString_noPoint (neg : Bool) (z : ℕ) (P1 : List Char)
    (hP1 : AllDigits P1) (hne : z ≠ 0 ∨ P1 ≠ [])
    (hcount : z + P1.length ≤ 28) :
    decFromString ((if neg then ['-'] else []) ++ (List.replicate z '0' ++ P1)) =
      some (normalize (setMantissa
        { flags := (if neg then 2 ^ 31 else 0) + 0 * 2 ^ 16,
          m0 := 0, m1 := 0, m2 := 0 }
        (Int128.ofNat (hornerVal P1 0 % U128)))) := by
  have hADZ : AllDigits (List.replicate z '0') := by
    intro c hc
    rw [List.eq_of_mem_replicate hc]
    decide
  have hADB : AllDigits (List.replicate z '0' ++ P1) := by
    intro c hc
    rcases List.mem_append.mp hc with h | h
    · exact hADZ c h
    · exact hP1 c h
  have hbody_ne : List.replicate z '0' ++ P1 ≠ [] := by
    intro hEq
    rcases List.append_eq_nil.mp hEq with ⟨h1, h2⟩
    rcases hne with h | h
    · have := congrArg List.length h1
      simp at this
      omega
    · exact h h2
  have hfdot : (List.replicate z '0' ++ P1).filter (fun ch => ch == '.') = [] := by
    rw [List.filter_append, filter_dot_of_digits hADZ, filter_dot_of_digits hP1]
    rfl
  have hfnd : (List.replicate z '0' ++ P1).filter (fun c => !(c == '.')) =
      List.replicate z '0' ++ P1 :=
    filter_not_dot_of_digits hADB
  have hchars : ∀ c ∈ List.replicate z '0' ++ P1,
      c = '.' ∨ (48 ≤ c.toNat ∧ c.toNat ≤ 57) := fun c hc => Or.inr (hADB c hc)
  have hsd : 0 + ((List.replicate z '0' ++ P1).filter
      (fun c => !(c == '.'))).length ≤ DECIMAL_MAXIMUM_PLACES := by
    rw [hfnd]
    simp only [List.length_append, List.length_replicate]
    unfold DECIMAL_MAXIMUM_PLACES
    omega
  obtain ⟨mv2, hrun, hwmv2, hval⟩ := decParseLoop_run false
    (List.replicate z '0' ++ P1) false false Int128.zero 0 0 0
    Int128.wf_zero hchars hsd
  have hvv : mv2.toNat = hornerVal P1 0 % U128 := by
    rw [hval, hfnd, Int128.toNat_zero, hornerVal_append,
      hornerVal_replicate_zero]
    norm_num
  have hie : (List.replicate z '0' ++ P1).isEmpty = false := by
    rcases Bool.eq_false_or_eq_true (List.replicate z '0' ++ P1).isEmpty with h | h
    · exact absurd (List.isEmpty_iff.mp h) hbody_ne
    · exact h
  have hd_true : (false || !((List.replicate z '0' ++ P1).filter
      (fun c => !(c == '.'))).isEmpty) = true := by
    rw [hfnd, hie]
    rfl
  rw [hd_true] at hrun
  have hupper : hornerVal P1 0 < 10 ^ 28 := by
    have h1 := hornerVal_lt hP1 0
    have h2 : (0 + 1) * 10 ^ P1.length ≤ 10 ^ 28 := by
      rw [Nat.one_mul]
      exact Nat.pow_le_pow_right (by norm_num) (by omega)
    omega
  have hval96 : mv2.toNat < 2 ^ 96 := by
    rw [hvv]
    have : hornerVal P1 0 % U128 ≤ hornerVal P1 0 := Nat.mod_le _ _
    have h10 : (10 : ℕ) ^ 28 < 2 ^ 96 := by norm_num
    omega
  have hhi : mv2.hi ≤ UINT32_MAX_VALUE := by
    rw [Int128.hi_eq_div hwmv2]
    unfold UINT32_MAX_VALUE U64
    omega
  have hmv2eq : mv2 = Int128.ofNat (hornerVal P1 0 % U128) := by
    refine Int128.toNat_inj hwmv2 (Int128.wf_ofNat _) ?_
    rw [hvv, Int128.toNat_ofNat (Nat.mod_lt _ (by norm_num [U128]))]
  cases neg with
  | true =>
    show decFromString ('-' :: (List.replicate z '0' ++ P1)) = _
    unfold decFromString
    dsimp only
    rw [if_pos (Or.inl rfl), if_neg hbody_ne, hfdot]
    norm_num
    rw [hrun]
    dsimp only
    norm_num
    rw [decTruncScaleLoop_id hhi 28 0]
    dsimp only
    rw [decTruncLoop_id hhi 39, hmv2eq]
  | false =>
    show decFromString (List.replicate z '0' ++ P1) = _
    obtain ⟨c, rest, hb⟩ : ∃ c rest,
        List.replicate z '0' ++ P1 = c :: rest := by
      cases hcase : List.replicate z '0' ++ P1 with
      | nil => exact absurd hcase hbody_ne
      | cons c rest => exact ⟨c, rest, rfl⟩
    have hcdig : 48 ≤ c.toNat ∧ c.toNat ≤ 57 :=
      hADB c (by rw [hb]; exact List.mem_cons_self c rest)
    have hcsign : ¬(c = '-' ∨ c = '+') := by
      rintro (rfl | rfl) <;> revert hcdig <;> decide
    rw [hb]
    unfold decFromString
    dsimp only
    rw [if_neg hcsign, ← hb]
    rw [if_neg hbody_ne, hfdot]
    norm_num
    rw [hrun]
    dsimp only
    norm_num
    rw [decTruncScaleLoop_id hhi 28 0]
    dsimp only
    rw [decTruncLoop_id hhi 39, hmv2eq]
    rw [if_neg (fun h => hcsign (Or.inl h))]

/-- `Decimal::fromString` on an optionally signed digit run with `z`
leading zeros, a decimal point, and `Q` fractional digits: the
normalized decimal with the Horner mantissa at scale `Q.length`. -/
theorem decFromString_point (neg : Bool) (z : ℕ) (P1 Q : List Char)
    (hP1 : AllDigits P1) (hQ : AllDigits Q)
    (hne : z ≠ 0 ∨ P1 ≠ [])
    (hcount : P1.length + Q.length ≤ 28) (hQlen : Q.length ≤ 28) :
    decFromString ((if neg then ['-'] else []) ++
        ((List.replicate z '0' ++ P1) ++ '.' :: Q)) =
      some (normalize (setMantissa
        { flags := (if neg then 2 ^ 31 else 0) + Q.length * 2 ^ 16,
          m0 := 0, m1 := 0, m2 := 0 }
        (Int128.ofNat (hornerVal (P1 ++ Q) 0 % U128)))) := by
  have hADZ : AllDigits (List.replicate z '0') := by
    intro c hc
    rw [List.eq_of_mem_replicate hc]
    decide
  have hADPQ : AllDigits (P1 ++ Q) := by
    intro c hc
    rcases List.mem_append.mp hc with h | h
    · exact hP1 c h
    · exact hQ c h
  have hADQr : AllDigits Q.reverse := fun c hc => hQ c (List.mem_reverse.mp hc)
  have hbody_ne : (List.replicate z '0' ++ P1) ++ '.' :: Q ≠ [] := by
    simp
  have hfdot : ((List.replicate z '0' ++ P1) ++ '.' :: Q).filter
      (fun ch => ch == '.') = ['.'] := by
    rw [List.filter_append, List.filter_append, filter_dot_of_digits hADZ,
      filter_dot_of_digits hP1]
    simp only [List.nil_append, List.filter_cons]
    rw [filter_dot_of_digits hQ]
    rfl
  have htake : (((List.replicate z '0' ++ P1) ++ '.' :: Q).reverse).takeWhile
      (fun ch => !(ch == '.')) = Q.reverse := by
    rw [List.reverse_append, List.reverse_cons, List.append_assoc,
      List.singleton_append]
    exact takeWhile_digits_dot hADQr _
  have hchars : ∀ c ∈ P1 ++ '.' :: Q,
      c = '.' ∨ (48 ≤ c.toNat ∧ c.toNat ≤ 57) := by
    intro c hc
    rcases List.mem_append.mp hc with h | h
    · exact Or.inr (hP1 c h)
    · rcases List.mem_cons.mp h with h1 | h1
      · exact Or.inl h1
      · exact Or.inr (hQ c h1)
  have hfnd : (P1 ++ '.' :: Q).filter (fun c => !(c == '.')) = P1 ++ Q := by
    rw [List.filter_append, filter_not_dot_of_digits hP1, List.filter_cons]
    rw [show ((('.' : Char) == '.') : Bool) = true from rfl]
    simp only [Bool.not_true, Bool.false_eq_true, if_false]
    rw [filter_not_dot_of_digits hQ]
  obtain ⟨mv1, hz1, hwmv1, hv1⟩ := decParseLoop_zeros true z (P1 ++ '.' :: Q)
    Int128.zero false 0 Q.length Int128.wf_zero Int128.toNat_zero
  have hsd : 0 + ((P1 ++ '.' :: Q).filter
      (fun c => !(c == '.'))).length ≤ DECIMAL_MAXIMUM_PLACES := by
    rw [hfnd]
    simp only [List.length_append]
    unfold DECIMAL_MAXIMUM_PLACES
    omega
  obtain ⟨mv2, hrun0, hwmv2, hval⟩ := decParseLoop_run true (P1 ++ '.' :: Q)
    false (false || decide (z ≠ 0)) mv1 0 0 Q.length hwmv1 hchars hsd
  have hdres : ((false || decide (z ≠ 0)) ||
      !((P1 ++ '.' :: Q).filter (fun c => !(c == '.'))).isEmpty) = true := by
    rw [hfnd]
    rcases hne with h | h
    · simp [h]
    · have : (P1 ++ Q).isEmpty = false := by
        rcases Bool.eq_false_or_eq_true (P1 ++ Q).isEmpty with h1 | h1
        · exact absurd (List.append_eq_nil.mp (List.isEmpty_iff.mp h1)).1 h
        · exact h1
      rw [this]
      simp
  rw [hdres] at hrun0
  have hrun : decParseLoop true ((List.replicate z '0' ++ P1) ++ '.' :: Q)
      false Int128.zero false 0 0 Q.length = some (mv2, true, Q.length) := by
    rw [List.append_assoc, hz1, hrun0]
  have hvv : mv2.toNat = hornerVal (P1 ++ Q) 0 % U128 := by
    rw [hval, hfnd, hv1]
  have hupper : hornerVal (P1 ++ Q) 0 < 10 ^ 28 := by
    have h1 := hornerVal_lt hADPQ 0
    have h2 : (0 + 1) * 10 ^ (P1 ++ Q).length ≤ 10 ^ 28 := by
      rw [Nat.one_mul]
      refine Nat.pow_le_pow_right (by norm_num) ?_
      simp only [List.length_append]
      omega
    omega
  have hval96 : mv2.toNat < 2 ^ 96 := by
    rw [hvv]
    have : hornerVal (P1 ++ Q) 0 % U128 ≤ hornerVal (P1 ++ Q) 0 := Nat.mod_le _ _
    have h10 : (10 : ℕ) ^ 28 < 2 ^ 96 := by norm_num
    omega
  have hhi : mv2.hi ≤ UINT32_MAX_VALUE := by
    rw [Int128.hi_eq_div hwmv2]
    unfold UINT32_MAX_VALUE U64
    omega
  have hmv2eq : mv2 = Int128.ofNat (hornerVal (P1 ++ Q) 0 % U128) := by
    refine Int128.toNat_inj hwmv2 (Int128.wf_ofNat _) ?_
    rw [hvv, Int128.toNat_ofNat (Nat.mod_lt _ (by norm_num [U128]))]
  have hq256 : Q.length % 256 = Q.length := Nat.mod_eq_of_lt (by omega)
  have hqif : (if DECIMAL_MAXIMUM_PLACES < Q.length % 256
      then DECIMAL_MAXIMUM_PLACES else Q.length % 256) = Q.length := by
    rw [hq256, if_neg (by unfold DECIMAL_MAXIMUM_PLACES; omega)]
  cases neg with
  | true =>
    show decFromString ('-' :: ((List.replicate z '0' ++ P1) ++ '.' :: Q)) = _
    unfold decFromString
    dsimp only
    rw [if_pos (Or.inl rfl), if_neg hbody_ne, hfdot]
    norm_num
    rw [takeWhile_digits_dot hADQr (P1.reverse ++ List.replicate z '0'),
      List.length_reverse, hqif, hz1, hrun0]
    dsimp only
    norm_num
    rw [decTruncScaleLoop_id hhi 28 Q.length]
    dsimp only
    rw [decTruncLoop_id hhi 39, hmv2eq]
  | false =>
    show decFromString ((List.replicate z '0' ++ P1) ++ '.' :: Q) = _
    obtain ⟨c, rest, hb⟩ : ∃ c rest,
        (List.replicate z '0' ++ P1) ++ '.' :: Q = c :: rest := by
      cases hcase : (List.replicate z '0' ++ P1) ++ '.' :: Q with
      | nil => exact absurd hcase hbody_ne
      | cons c rest => exact ⟨c, rest, rfl⟩
    have hcmem : c ∈ (List.replicate z '0' ++ P1) ++ '.' :: Q := by
      rw [hb]
      exact List.mem_cons_self c rest
    have hcx : c = '.' ∨ (48 ≤ c.toNat ∧ c.toNat ≤ 57) := by
      rcases List.mem_append.mp hcmem with h | h
      · rcases List.mem_append.mp h with h1 | h1
        · exact Or.inr (hADZ c h1)
        · exact Or.inr (hP1 c h1)
      · rcases List.mem_cons.mp h with h1 | h1
        · exact Or.inl h1
        · exact Or.inr (hQ c h1)
    have hcsign : ¬(c = '-' ∨ c = '+') := by
      rcases hcx with h | h
      · subst h
        decide
      · rintro (rfl | rfl) <;> revert h <;> decide
    rw [hb]
    unfold decFromString
    dsimp only
    rw [if_neg hcsign, ← hb]
    rw [if_neg hbody_ne, hfdot]
    norm_num
    rw [takeWhile_digits_dot hADQr (P1.reverse ++ List.replicate z '0'),
      List.length_reverse, hqif, hz1, hrun0]
    dsimp only
    norm_num
    rw [decTruncScaleLoop_id hhi 28 Q.length]
    dsimp only
    rw [decTruncLoop_id hhi 39, hmv2eq]
    rw [if_neg (fun h => hcsign (Or.inl h))]
    norm_num

theorem decDigits64_eq : ∀ fuel v, decDigits64 fuel v = natDigitsLE fuel v := by
  intro fuel
  induction fuel with
  | zero => intro v; rfl
  | succ fuel ih =>
    intro v
    unfold decDigits64 natDigitsLE
    split_ifs with h
    · rfl
    · rw [ih]

/-- The 128-bit digit loop extracts the little-endian digits of the raw
value (for non-negative bit patterns). -/
theorem decDigits128_eq : ∀ (fuel : ℕ) (m : Int128), Int128.Wf m →
    m.isNeg = false → decDigits128 fuel m = natDigitsLE fuel m.toNat := by
  intro fuel
  induction fuel with
  | zero => intro m _ _; rfl
  | succ fuel ih =>
    intro m hw hn
    unfold decDigits128 natDigitsLE
    by_cases h0 : m.toNat = 0
    · rw [if_pos ((Int128.beq_iff_toNat hw Int128.wf_zero).mpr
        (by rw [h0, Int128.toNat_zero])), if_pos h0]
    · rw [if_neg (fun hb => h0 (by
        have := (Int128.beq_iff_toNat hw Int128.wf_zero).mp hb
        rwa [Int128.toNat_zero] at this)), if_neg h0]
      by_cases hhi : m.hi = 0
      · rw [if_pos hhi, decDigits64_eq]
        have htoNat : m.toNat = m.lo := by
          unfold Int128.toNat
          rw [hhi]
          ring
        rw [htoNat]
        rw [show natDigitsLE (fuel + 1) m.lo =
          (if m.lo = 0 then [] else Char.ofNat (48 + m.lo % 10) ::
            natDigitsLE fuel (m.lo / 10)) from rfl]
        rw [if_neg (fun hEq => h0 (htoNat.trans hEq))]
      · rw [if_neg hhi]
        have hw10 := Int128.wf_ofNat 10
        have h10 : (Int128.ofNat 10).toNat = 10 :=
          Int128.toNat_ofNat (by norm_num [U128])
        have h10pos : 0 < (Int128.ofNat 10).toNat := by omega
        have h10le : (Int128.ofNat 10).toNat ≤ 2 ^ 126 := by rw [h10]; norm_num
        obtain ⟨hmv, hmw⟩ := Int128.modRaw_spec hw hw10 hn h10pos h10le
        obtain ⟨hdv, hdw⟩ := Int128.divRaw_spec hw hw10 hn h10pos h10le
        rw [h10] at hmv hdv
        have hlt : m.toNat < 2 ^ 127 := Int128.toNat_lt_of_isNeg_false hw hn
        have hdn : (Int128.divRaw m (Int128.ofNat 10)).isNeg = false :=
          Int128.isNeg_false_of_toNat_lt hdw (by rw [hdv]; omega)
        rw [ih _ hdw hdn, hdv]
        have hlo : (Int128.modRaw m (Int128.ofNat 10)).lo = m.toNat % 10 := by
          have := Int128.lo_eq_mod hmw
          rw [hmv] at this
          rw [this]
          unfold U64
          omega
        rw [hlo]
        have hch : (48 + m.toNat % 10) % 256 = 48 + m.toNat % 10 := by omega
        rw [hch]

/-- `Decimal::toString` on a non-zero value: sign prefix, then the
big-endian digits with the decimal point inserted `scale` places from
the right (zero-padded on the left when needed). -/
theorem decToString_eq {d : Decimal} (h : LimbsWf d) (hn : mantNat d ≠ 0) :
    decToString d = (if signBit d then ['-'] else []) ++
      (if 0 < scale d then
        if (natDigitsLE 29 (mantNat d)).length ≤ scale d then
          '0' :: '.' ::
            (List.replicate (scale d - (natDigitsLE 29 (mantNat d)).length) '0' ++
              (natDigitsLE 29 (mantNat d)).reverse)
        else ((natDigitsLE 29 (mantNat d)).drop (scale d)).reverse ++
          '.' :: ((natDigitsLE 29 (mantNat d)).take (scale d)).reverse
      else (natDigitsLE 29 (mantNat d)).reverse) := by
  have hlimbs : ¬(d.m0 = 0 ∧ d.m1 = 0 ∧ d.m2 = 0) := by
    rw [← mantNat_eq_zero_iff h]
    exact hn
  unfold decToString
  rw [if_neg hlimbs]
  dsimp only
  have habs : (mantissaAsInt128 d).abs = mantissaAsInt128 d := by
    unfold Int128.abs
    rw [isNeg_mantissaAsInt128 h]
    simp
  rw [habs, decDigits128_eq 29 _ (wf_mantissaAsInt128 h) (isNeg_mantissaAsInt128 h),
    toNat_mantissaAsInt128 h,
    if_neg (natDigitsLE_ne_nil hn (by norm_num : (29 : ℕ) ≠ 0))]
  split_ifs <;> rfl

/-- Round-trip for `Decimal` values whose mantissa stays below 10^28:
parsing the printed value compares equal to the value. -/
theorem decRoundTrip {d : Decimal} (hw : Wf d) (hn : mantNat d < 10 ^ 28) :
    ∃ r, decFromString (decToString d) = some r ∧ decEq r d = true := by
  have hl : LimbsWf d := limbsWf_of_wf hw
  have hs28 : scale d ≤ 28 := hw.2.2.2.1
  by_cases h0 : mantNat d = 0
  · have hz : d.m0 = 0 ∧ d.m1 = 0 ∧ d.m2 = 0 := (mantNat_eq_zero_iff hl).mp h0
    have ht : decToString d = ['0'] := by
      unfold decToString
      rw [if_pos hz]
    have hp := decFromString_noPoint false 1 [] (fun c hc => absurd hc (by simp))
      (Or.inl (by norm_num)) (by simp)
    simp only [List.replicate_one, List.append_nil, List.nil_append,
      Bool.false_eq_true, if_false] at hp
    rw [ht, hp]
    refine ⟨_, rfl, ?_⟩
    have hzv : normalize (setMantissa
        { flags := 0 + 0 * 2 ^ 16,
          m0 := 0, m1 := 0, m2 := 0 }
        (Int128.ofNat (hornerVal [] 0 % U128))) = decZero := by decide
    rw [hzv]
    unfold decEq
    rw [if_pos ⟨rfl, rfl, rfl, hz.1, hz.2.1, hz.2.2⟩]
  · have hn29 : mantNat d < 10 ^ 29 := by
      have : (10 : ℕ) ^ 28 < 10 ^ 29 := by norm_num
      omega
    have hhor : hornerVal (natDigitsLE 29 (mantNat d)).reverse 0 = mantNat d := by
      rw [hornerVal_natDigitsLE_reverse hn29 0]
      ring
    have hlen28 : (natDigitsLE 29 (mantNat d)).length ≤ 28 :=
      natDigitsLE_length_le hn
    have hne_nil : (natDigitsLE 29 (mantNat d)).reverse ≠ [] := by
      simp only [ne_eq, List.reverse_eq_nil_iff]
      exact natDigitsLE_ne_nil h0 (by norm_num)
    have hADrev : AllDigits (natDigitsLE 29 (mantNat d)).reverse := fun c hc =>
      natDigitsLE_allDigits 29 _ c (List.mem_reverse.mp hc)
    have hfinal : ∀ X : Decimal,
        X = setMantissa
          { flags := (if signBit d then 2 ^ 31 else 0) + scale d * 2 ^ 16,
            m0 := 0, m1 := 0, m2 := 0 }
          (Int128.ofNat (mantNat d)) →
        decEq (normalize X) d = true := by
      intro X hX
      have hXl : LimbsWf X := by rw [hX]; exact limbsWf_setMantissa _ _
      have hXm : mantNat X = mantNat d := by
        rw [hX, mantNat_setMantissa _ (Int128.wf_ofNat _),
          Int128.toNat_ofNat (by
            have : (10 : ℕ) ^ 28 < U128 := by norm_num [U128]
            omega)]
        refine Nat.mod_eq_of_lt ?_
        have : (10 : ℕ) ^ 28 < 2 ^ 96 := by norm_num
        omega
      have hXs : scale X = scale d := by
        rw [hX]
        rw [scale_setMantissa]
        unfold scale
        dsimp only
        split_ifs <;> omega
      have hXsign : signBit X = signBit d := by
        rw [hX, signBit_setMantissa]
        cases hsb : signBit d
        · simp only [hsb, Bool.false_eq_true, if_false]
          unfold signBit
          dsimp only
          simp only [decide_eq_false_iff_not]
          omega
        · simp only [hsb, if_true]
          unfold signBit
          dsimp only
          simp only [decide_eq_true_eq]
          omega
      obtain ⟨hns, hnv⟩ := normalize_value hXl
      refine decEq_of_aligned (normalize_spec hXl).1 hl ?_ hs28 ?_ ?_
      · rw [← hXs]
        exact hns
      · rw [show scale d - scale (normalize X) = scale X - scale (normalize X)
          from by rw [hXs]]
        rw [hnv, hXm]
      · rw [signBit_normalize hXl, hXsign]
    rw [decToString_eq hl h0]
    by_cases hsp : 0 < scale d
    · rw [if_pos hsp]
      by_cases hfit : (natDigitsLE 29 (mantNat d)).length ≤ scale d
      · rw [if_pos hfit]
        have hQ : AllDigits (List.replicate
            (scale d - (natDigitsLE 29 (mantNat d)).length) '0' ++
            (natDigitsLE 29 (mantNat d)).reverse) := by
          intro c hc
          rcases List.mem_append.mp hc with h | h
          · rw [List.eq_of_mem_replicate h]
            decide
          · exact hADrev c h
        have hp := decFromString_point (signBit d) 1 []
          (List.replicate (scale d - (natDigitsLE 29 (mantNat d)).length) '0' ++
            (natDigitsLE 29 (mantNat d)).reverse)
          (fun c hc => absurd hc (by simp)) hQ (Or.inl (by norm_num))
          (by
            simp only [List.length_nil, List.length_append,
              List.length_replicate, List.length_reverse]
            omega)
          (by
            simp only [List.length_append, List.length_replicate,
              List.length_reverse]
            omega)
        simp only [List.replicate_one, List.append_nil, List.nil_append,
          List.singleton_append] at hp
        rw [hp]
        refine ⟨_, rfl, ?_⟩
        apply hfinal
        have e1 : hornerVal (List.replicate
            (scale d - (natDigitsLE 29 (mantNat d)).length) '0' ++
            (natDigitsLE 29 (mantNat d)).reverse) 0 % U128 = mantNat d := by
          rw [hornerVal_append, hornerVal_replicate_zero, Nat.zero_mul, hhor]
          refine Nat.mod_eq_of_lt ?_
          have : (10 : ℕ) ^ 28 < U128 := by norm_num [U128]
          omega
        have e2 : (List.replicate
            (scale d - (natDigitsLE 29 (mantNat d)).length) '0' ++
            (natDigitsLE 29 (mantNat d)).reverse).length = scale d := by
          simp only [List.length_append, List.length_replicate,
            List.length_reverse]
          omega
        rw [e1, e2]
      · rw [if_neg hfit]
        have hdrop_ne : ((natDigitsLE 29 (mantNat d)).drop (scale d)).reverse ≠ [] := by
          simp only [ne_eq, List.reverse_eq_nil_iff]
          intro hEq
          have := congrArg List.length hEq
          simp only [List.length_drop, List.length_nil] at this
          omega
        have hPd : AllDigits ((natDigitsLE 29 (mantNat d)).drop (scale d)).reverse := by
          intro c hc
          exact natDigitsLE_allDigits 29 _ c
            (List.mem_of_mem_drop (List.mem_reverse.mp hc))
        have hQd : AllDigits ((natDigitsLE 29 (mantNat d)).take (scale d)).reverse := by
          intro c hc
          exact natDigitsLE_allDigits 29 _ c
            (List.mem_of_mem_take (List.mem_reverse.mp hc))
        have hp := decFromString_point (signBit d) 0
          ((natDigitsLE 29 (mantNat d)).drop (scale d)).reverse
          ((natDigitsLE 29 (mantNat d)).take (scale d)).reverse
          hPd hQd (Or.inr hdrop_ne)
          (by
            simp only [List.length_reverse, List.length_drop, List.length_take]
            omega)
          (by
            simp only [List.length_reverse, List.length_take]
            omega)
        simp only [List.replicate_zero, List.nil_append] at hp
        rw [hp]
        refine ⟨_, rfl, ?_⟩
        apply hfinal
        have e1 : hornerVal
            (((natDigitsLE 29 (mantNat d)).drop (scale d)).reverse ++
              ((natDigitsLE 29 (mantNat d)).take (scale d)).reverse) 0 %
            U128 = mantNat d := by
          rw [← List.reverse_append, List.take_append_drop, hhor]
          refine Nat.mod_eq_of_lt ?_
          have : (10 : ℕ) ^ 28 < U128 := by norm_num [U128]
          omega
        have e2 : (((natDigitsLE 29 (mantNat d)).take (scale d)).reverse).length =
            scale d := by
          simp only [List.length_reverse, List.length_take]
          omega
        rw [e1, e2]
    · rw [if_neg hsp]
      have hp := decFromString_noPoint (signBit d) 0
        (natDigitsLE 29 (mantNat d)).reverse hADrev (Or.inr hne_nil)
        (by
          simp only [List.length_reverse]
          omega)
      simp only [List.replicate_zero, List.nil_append] at hp
      rw [hp]
      refine ⟨_, rfl, ?_⟩
      apply hfinal
      have e1 : hornerVal (natDigitsLE 29 (mantNat d)).reverse 0 % U128 =
          mantNat d := by
        rw [hhor]
        refine Nat.mod_eq_of_lt ?_
        have : (10 : ℕ) ^ 28 < U128 := by norm_num [U128]
        omega
      have e2 : scale d = 0 := by omega
      rw [e1, e2]

end Decimal

/-- C1 (amended): the Int128 round-trip holds for every value, and the
Decimal round-trip holds for every representable value whose mantissa
has at most 28 decimal digits (mantissa below 10^28), the parsed value
comparing equal to the original; the original unrestricted Decimal
claim is refuted by `claim_C1_counterexample`. -/
theorem claim_C1_roundtrip :
    (∀ x : Int128, Int128.Wf x →
        Int128.fromString (Int128.toString x) = some x) ∧
    (∀ d : Decimal, Decimal.Wf d → Decimal.mantNat d < 10 ^ 28 →
        ∃ r, Decimal.decFromString (Decimal.decToString d) = some r ∧
          Decimal.decEq r d = true) :=
  ⟨fun _ hw => Int128.roundTrip hw, fun _ hw hn => Decimal.decRoundTrip hw hn⟩

/-- Witness for C1 at the Int128 value -5 and the Decimal 123.456. -/
theorem claim_C1_witness :
    Int128.Wf ⟨2 ^ 64 - 5, 2 ^ 64 - 1⟩ ∧
      Int128.fromString (Int128.toString ⟨2 ^ 64 - 5, 2 ^ 64 - 1⟩) =
        some ⟨2 ^ 64 - 5, 2 ^ 64 - 1⟩ ∧
      Decimal.Wf ⟨3 * 2 ^ 16, 123456, 0, 0⟩ ∧
      Decimal.mantNat ⟨3 * 2 ^ 16, 123456, 0, 0⟩ < 10 ^ 28 ∧
      (∃ r, Decimal.decFromString
          (Decimal.decToString ⟨3 * 2 ^ 16, 123456, 0, 0⟩) = some r ∧
        Decimal.decEq r ⟨3 * 2 ^ 16, 123456, 0, 0⟩ = true) :=
  ⟨by decide, claim_C1_roundtrip.1 _ (by decide), by decide, by decide,
    claim_C1_roundtrip.2 _ (by decide) (by decide)⟩

namespace Int128

/-- The 6-step binary search finds the highest set bit. -/
theorem bl64_spec {w : ℕ} (h1 : 1 ≤ w) (h2 : w < U64) :
    2 ^ bl64 w ≤ w ∧ w < 2 ^ (bl64 w + 1) := by
  unfold U64 at h2
  have step1 : ∃ a1 v1 s1, (if w / 2 ^ 32 = 0 then (0, w * 2 ^ 32 % 2 ^ 64) else (0 + 32, w)) = (a1, v1) ∧
      v1 < 2 ^ 64 ∧ 2 ^ 32 ≤ v1 ∧ v1 = w * 2 ^ s1 ∧
      a1 + s1 = 32 := by
    by_cases c : w / 2 ^ 32 = 0
    · refine ⟨0, w * 2 ^ 32 % 2 ^ 64, 0 + 32, by rw [if_pos c], by omega, by omega, ?_, by omega⟩
      rw [pow_add]
      omega
      
    · refine ⟨0 + 32, w, 0, by rw [if_neg c], by omega, by omega, ?_, by omega⟩
      omega
  obtain ⟨a1, v1, s1, he1, hv1, hl1, hs1, ha1⟩ := step1
  have step2 : ∃ a2 v2 s2, (if v1 / 2 ^ 48 = 0 then (a1, v1 * 2 ^ 16 % 2 ^ 64) else (a1 + 16, v1)) = (a2, v2) ∧
      v2 < 2 ^ 64 ∧ 2 ^ 48 ≤ v2 ∧ v2 = w * 2 ^ s2 ∧
      a2 + s2 = 48 := by
    by_cases c : v1 / 2 ^ 48 = 0
    · refine ⟨a1, v1 * 2 ^ 16 % 2 ^ 64, s1 + 16, by rw [if_pos c], by omega, by omega, ?_, by omega⟩
      have hnw : v1 * 2 ^ 16 < 2 ^ 64 := by omega
      rw [Nat.mod_eq_of_lt hnw, pow_add, hs1]
      ring
    · refine ⟨a1 + 16, v1, s1, by rw [if_neg c], by omega, by omega, ?_, by omega⟩
      exact hs1
  obtain ⟨a2, v2, s2, he2, hv2, hl2, hs2, ha2⟩ := step2
  have step3 : ∃ a3 v3 s3, (if v2 / 2 ^ 56 = 0 then (a2, v2 * 2 ^ 8 % 2 ^ 64) else (a2 + 8, v2)) = (a3, v3) ∧
      v3 < 2 ^ 64 ∧ 2 ^ 56 ≤ v3 ∧ v3 = w * 2 ^ s3 ∧
      a3 + s3 = 56 := by
    by_cases c : v2 / 2 ^ 56 = 0
    · refine ⟨a2, v2 * 2 ^ 8 % 2 ^ 64, s2 + 8, by rw [if_pos c], by omega, by omega, ?_, by omega⟩
      have hnw : v2 * 2 ^ 8 < 2 ^ 64 := by omega
      rw [Nat.mod_eq_of_lt hnw, pow_add, hs2]
      ring
    · refine ⟨a2 + 8, v2, s2, by rw [if_neg c], by omega, by omega, ?_, by omega⟩
      exact hs2
  obtain ⟨a3, v3, s3, he3, hv3, hl3, hs3, ha3⟩ := step3
  have step4 : ∃ a4 v4 s4, (if v3 / 2 ^ 60 = 0 then (a3, v3 * 2 ^ 4 % 2 ^ 64) else (a3 + 4, v3)) = (a4, v4) ∧
      v4 < 2 ^ 64 ∧ 2 ^ 60 ≤ v4 ∧ v4 = w * 2 ^ s4 ∧
      a4 + s4 = 60 := by
    by_cases c : v3 / 2 ^ 60 = 0
    · refine ⟨a3, v3 * 2 ^ 4 % 2 ^ 64, s3 + 4, by rw [if_pos c], by omega, by omega, ?_, by omega⟩
      have hnw : v3 * 2 ^ 4 < 2 ^ 64 := by omega
      rw [Nat.mod_eq_of_lt hnw, pow_add, hs3]
      ring
    · refine ⟨a3 + 4, v3, s3, by rw [if_neg c], by omega, by omega, ?_, by omega⟩
      exact hs3
  obtain ⟨a4, v4, s4, he4, hv4, hl4, hs4, ha4⟩ := step4
  have step5 : ∃ a5 v5 s5, (if v4 / 2 ^ 62 = 0 then (a4, v4 * 2 ^ 2 % 2 ^ 64) else (a4 + 2, v4)) = (a5, v5) ∧
      v5 < 2 ^ 64 ∧ 2 ^ 62 ≤ v5 ∧ v5 = w * 2 ^ s5 ∧
      a5 + s5 = 62 := by
    by_cases c : v4 / 2 ^ 62 = 0
    · refine ⟨a4, v4 * 2 ^ 2 % 2 ^ 64, s4 + 2, by rw [if_pos c], by omega, by omega, ?_, by omega⟩
      have hnw : v4 * 2 ^ 2 < 2 ^ 64 := by omega
      rw [Nat.mod_eq_of_lt hnw, pow_add, hs4]
      ring
    · refine ⟨a4 + 2, v4, s4, by rw [if_neg c], by omega, by omega, ?_, by omega⟩
      exact hs4
  obtain ⟨a5, v5, s5, he5, hv5, hl5, hs5, ha5⟩ := step5
  have hres : bl64 w = if v5 / 2 ^ 63 = 0 then a5 else a5 + 1 := by
    unfold bl64 U64
    rw [he1]
    dsimp only
    rw [he2]
    dsimp only
    rw [he3]
    dsimp only
    rw [he4]
    dsimp only
    rw [he5]
  rw [hres]
  by_cases cm : v5 / 2 ^ 63 = 0
  · rw [if_pos cm]
    constructor
    · refine Nat.le_of_mul_le_mul_right ?_ (show 0 < 2 ^ s5 from Nat.pos_pow_of_pos _ (by norm_num))
      calc 2 ^ a5 * 2 ^ s5 = 2 ^ (a5 + s5) := by rw [← pow_add]
        _ = 2 ^ 62 := by rw [ha5]
        _ ≤ v5 := hl5
        _ = w * 2 ^ s5 := hs5
    · have hv63 : v5 < 2 ^ 63 := by omega
      have : w * 2 ^ s5 < 2 ^ (a5 + 1) * 2 ^ s5 := by
        calc w * 2 ^ s5 = v5 := hs5.symm
          _ < 2 ^ 63 := hv63
          _ = 2 ^ (a5 + 1 + s5) := by rw [show a5 + 1 + s5 = 63 from by omega]
          _ = 2 ^ (a5 + 1) * 2 ^ s5 := by rw [← pow_add]
      exact Nat.lt_of_mul_lt_mul_right this
  · rw [if_neg cm]
    constructor
    · refine Nat.le_of_mul_le_mul_right ?_ (show 0 < 2 ^ s5 from Nat.pos_pow_of_pos _ (by norm_num))
      calc 2 ^ (a5 + 1) * 2 ^ s5 = 2 ^ (a5 + 1 + s5) := by rw [← pow_add]
        _ = 2 ^ 63 := by rw [show a5 + 1 + s5 = 63 from by omega]
        _ ≤ v5 := by omega
        _ = w * 2 ^ s5 := hs5
    · have : w * 2 ^ s5 < 2 ^ (a5 + 1 + 1) * 2 ^ s5 := by
        calc w * 2 ^ s5 = v5 := hs5.symm
          _ < 2 ^ 64 := hv5
          _ = 2 ^ (a5 + 1 + 1 + s5) := by rw [show a5 + 1 + 1 + s5 = 64 from by omega]
          _ = 2 ^ (a5 + 1 + 1) * 2 ^ s5 := by rw [← pow_add]
      exact Nat.lt_of_mul_lt_mul_right this

/-- `bitLength` computes the highest set bit of the raw value. -/
theorem bitLength_spec {x : Int128} (hw : Wf x) (h1 : 1 ≤ x.toNat) :
    2 ^ bitLength x ≤ x.toNat ∧ x.toNat < 2 ^ (bitLength x + 1) := by
  obtain ⟨hlo, hhi⟩ := hw
  unfold bitLength
  by_cases hh : x.hi ≠ 0
  · rw [if_pos hh]
    obtain ⟨hb1, hb2⟩ := bl64_spec (by omega : 1 ≤ x.hi) hhi
    unfold toNat
    constructor
    · calc 2 ^ (64 + bl64 x.hi) = 2 ^ 64 * 2 ^ bl64 x.hi := by ring
        _ ≤ 2 ^ 64 * x.hi := Nat.mul_le_mul_left _ hb1
        _ ≤ x.lo + 2 ^ 64 * x.hi := Nat.le_add_left _ _
        _ = x.lo + U64 * x.hi := by norm_num [U64]
    · have : x.lo + U64 * x.hi < 2 ^ 64 * (x.hi + 1) := by
        unfold U64 at *
        omega
      calc x.lo + U64 * x.hi < 2 ^ 64 * (x.hi + 1) := this
        _ ≤ 2 ^ 64 * 2 ^ (bl64 x.hi + 1) := Nat.mul_le_mul_left _ hb2
        _ = 2 ^ (64 + bl64 x.hi + 1) := by ring
  · rw [if_neg hh]
    push_neg at hh
    have hlo1 : 1 ≤ x.lo := by
      unfold toNat at h1
      rw [hh] at h1
      unfold U64 at h1
      omega
    obtain ⟨hb1, hb2⟩ := bl64_spec hlo1 hlo
    unfold toNat
    rw [hh]
    constructor <;> omega

/-- Heron lower bound: one iteration never drops below the integer
square root. -/
theorem heron_lower {n d : ℕ} (hd : 1 ≤ d) :
    Nat.sqrt n ≤ (d + n / d) / 2 := by
  set s := Nat.sqrt n with hs
  have hsq : s * s ≤ n := Nat.sqrt_le n
  rcases le_or_lt (2 * s) d with h | h
  · have : n / d ≥ 0 := Nat.zero_le _
    omega
  · have hnd : 2 * s - d ≤ n / d := by
      refine (Nat.le_div_iff_mul_le (by omega)).mpr ?_
      have hz : (2 * s - d) * d ≤ s * s := by
        zify [le_of_lt h]
        nlinarith [sq_nonneg ((s : ℤ) - d)]
      omega
    omega

/-- Heron descent: above the root, one iteration strictly decreases. -/
theorem heron_descent {n d : ℕ} (hd : Nat.sqrt n < d) :
    (d + n / d) / 2 < d := by
  have hlt : n < d * d := by
    have := Nat.sqrt_lt.mp hd
    omega
  have h1 : n / d < d := by
    refine Nat.div_lt_of_lt_mul ?_
    omega
  omega

/-- `n / sqrt n` exceeds `sqrt n` by at most two. -/
theorem div_sqrt_le {n : ℕ} (hs : 1 ≤ Nat.sqrt n) :
    n / Nat.sqrt n ≤ Nat.sqrt n + 2 := by
  set s := Nat.sqrt n with hsdef
  have h2 : n < (s + 1) * (s + 1) := Nat.lt_succ_sqrt n
  have := (Nat.div_lt_iff_lt_mul (by omega : 0 < s)).mpr
    (show n < (s + 3) * s by nlinarith)
  omega

/-- Heron halving: above the root the error at least halves (up to one). -/
theorem heron_halving {n d : ℕ} (hs : 1 ≤ Nat.sqrt n) (hd : Nat.sqrt n ≤ d) :
    (d + n / d) / 2 ≤ Nat.sqrt n + (d - Nat.sqrt n + 2) / 2 := by
  set s := Nat.sqrt n with hsdef
  have h1 : n / d ≤ n / s := Nat.div_le_div_left hd (by omega)
  have h2 : n / s ≤ s + 2 := div_sqrt_le hs
  omega

/-- One Heron iteration of the source, read through the division layer. -/
theorem heron_step {x div : Int128} (hwx : Wf x) (hwd : Wf div)
    (hnx : x.isNeg = false)
    (hd1 : 1 ≤ div.toNat) (hdB : div.toNat ≤ 2 ^ 64)
    (hsum : div.toNat + x.toNat / div.toNat < 2 ^ 127) :
    (divRaw (add div (divRaw x div)) (ofNat 2)).toNat =
      (div.toNat + x.toNat / div.toNat) / 2 ∧
    Wf (divRaw (add div (divRaw x div)) (ofNat 2)) := by
  have hdle : div.toNat ≤ 2 ^ 126 := by
    have : (2 : ℕ) ^ 64 ≤ 2 ^ 126 := by norm_num
    omega
  obtain ⟨hq, hqw⟩ := divRaw_spec hwx hwd hnx (by omega) hdle
  have hxlt := toNat_lt hwx
  have hsum128 : div.toNat + (divRaw x div).toNat < U128 := by
    rw [hq]
    unfold U128 at *
    omega
  have haddv : (add div (divRaw x div)).toNat =
      div.toNat + x.toNat / div.toNat := by
    rw [toNat_add_of_lt hwd hqw hsum128, hq]
  have hwadd := wf_add hwd hqw
  have hnadd : (add div (divRaw x div)).isNeg = false :=
    isNeg_false_of_toNat_lt hwadd (by rw [haddv]; omega)
  have hw2 : Wf (ofNat 2) := wf_ofNat 2
  have h2v : (ofNat 2).toNat = 2 := toNat_ofNat (by norm_num [U128])
  obtain ⟨hd2, hd2w⟩ := divRaw_spec hwadd hw2 hnadd
    (by rw [h2v]; norm_num) (by rw [h2v]; norm_num)
  refine ⟨?_, hd2w⟩
  rw [hd2, haddv, h2v]

/-- Convergence of the Heron loop: once the estimate is at least the
root, with the alternation invariant linking the previous estimate and
enough fuel (either unit-descent or halving budget), the loop returns
exactly the integer square root. -/
theorem heronGo_conv {x : Int128} (hwx : Wf x) (hnx : isNeg x = false)
    (h2 : 2 ≤ x.toNat) :
    ∀ (fuel : ℕ) (div div2 : Int128), Wf div → Wf div2 →
      1 ≤ div.toNat → div.toNat ≤ 2 ^ 64 →
      Nat.sqrt x.toNat ≤ div.toNat →
      (div2 = div ∨
        div.toNat = (div2.toNat + x.toNat / div2.toNat) / 2 ∨
        div2.toNat < Nat.sqrt x.toNat) →
      (div.toNat - Nat.sqrt x.toNat + 6 ≤ fuel ∨
        ∃ j, div.toNat - Nat.sqrt x.toNat ≤ 2 ^ j + 2 ∧ j + 9 ≤ fuel) →
      (heronGo x fuel div div2).toNat = Nat.sqrt x.toNat := by
  intro fuel
  induction fuel with
  | zero =>
    intro div div2 _ _ _ _ _ _ hbud
    exfalso
    rcases hbud with h | ⟨j, _, h⟩ <;> omega
  | succ fuel ih =>
    intro div div2 hwd hwd2 hd1 hdB hsd hlink hbud
    have hs1 : 1 ≤ Nat.sqrt x.toNat := Nat.le_sqrt.mpr (by omega)
    have hslt : Nat.sqrt x.toNat < 2 ^ 64 := by
      refine Nat.sqrt_lt.mpr ?_
      have := toNat_lt hwx
      unfold U128 at this
      omega
    have hnds : x.toNat / div.toNat ≤ x.toNat / Nat.sqrt x.toNat :=
      Nat.div_le_div_left hsd (by omega)
    have hns2 : x.toNat / Nat.sqrt x.toNat ≤ Nat.sqrt x.toNat + 2 :=
      div_sqrt_le hs1
    have hsum : div.toNat + x.toNat / div.toNat < 2 ^ 127 := by omega
    obtain ⟨hyv, hyw⟩ := heron_step hwx hwd hnx hd1 hdB hsum
    show (heronGo x (fuel + 1) div div2).toNat = _
    unfold heronGo
    dsimp only
    set yv := divRaw (add div (divRaw x div)) (ofNat 2) with hydef
    have hys : Nat.sqrt x.toNat ≤ yv.toNat := by
      rw [hyv]
      exact heron_lower (by omega)
    have hyB : yv.toNat ≤ 2 ^ 64 := by
      rw [hyv]
      omega
    have hy1 : 1 ≤ yv.toNat := by omega
    have hyn : yv.isNeg = false :=
      isNeg_false_of_toNat_lt hyw (by omega)
    have hdn : div.isNeg = false :=
      isNeg_false_of_toNat_lt hwd (by omega)
    by_cases hds : div.toNat = Nat.sqrt x.toNat
    · by_cases hyeq : yv.toNat = Nat.sqrt x.toNat
      · have hcond : (beq yv div || beq yv div2) = true := by
          rw [(beq_iff_toNat hyw hwd).mpr (by omega)]
          rfl
        rw [if_pos hcond]
        have hblt : ¬(blt yv div = true) := by
          rw [blt_iff_of_nonneg hyw hwd hyn hdn]
          omega
        rw [if_neg hblt]
        omega
      · have hy_eq : yv.toNat = Nat.sqrt x.toNat + 1 := by
          have : yv.toNat ≤ Nat.sqrt x.toNat + 1 := by
            rw [hyv, hds]
            omega
          omega
        have hb1 : beq yv div = false := by
          rcases Bool.eq_false_or_eq_true (beq yv div) with h | h
          · exact absurd ((beq_iff_toNat hyw hwd).mp h) (by omega)
          · exact h
        have hbounce : 1 ≤ fuel → (heronGo x fuel yv div).toNat =
            Nat.sqrt x.toNat := by
          intro hf1
          match fuel, hf1 with
          | f + 1, _ =>
            have hsum2 : yv.toNat + x.toNat / yv.toNat < 2 ^ 127 := by
              have : x.toNat / yv.toNat ≤ x.toNat / Nat.sqrt x.toNat :=
                Nat.div_le_div_left hys (by omega)
              omega
            obtain ⟨hy2v, hy2w⟩ := heron_step hwx hyw hnx hy1 hyB hsum2
            unfold heronGo
            dsimp only
            set y2 := divRaw (add yv (divRaw x yv)) (ofNat 2) with hy2def
            have hy2s : Nat.sqrt x.toNat ≤ y2.toNat := by
              rw [hy2v]
              exact heron_lower (by omega)
            have hy2lt : y2.toNat < yv.toNat := by
              rw [hy2v]
              exact heron_descent (by omega)
            have hy2eq : y2.toNat = Nat.sqrt x.toNat := by omega
            have hb21 : beq y2 yv = false := by
              rcases Bool.eq_false_or_eq_true (beq y2 yv) with h | h
              · exact absurd ((beq_iff_toNat hy2w hyw).mp h) (by omega)
              · exact h
            have hcond : (beq y2 yv || beq y2 div) = true := by
              rw [hb21, (beq_iff_toNat hy2w hwd).mpr (by omega)]
              rfl
            rw [if_pos hcond]
            have hy2n : y2.isNeg = false :=
              isNeg_false_of_toNat_lt hy2w (by omega)
            have hblt : blt y2 yv = true := by
              rw [blt_iff_of_nonneg hy2w hyw hy2n hyn]
              omega
            rw [if_pos hblt]
            exact hy2eq
        have hf1 : 1 ≤ fuel := by
          rcases hbud with h | ⟨j, _, h⟩ <;> omega
        by_cases hb2p : yv.toNat = div2.toNat
        · have hcond : (beq yv div || beq yv div2) = true := by
            rw [hb1, (beq_iff_toNat hyw hwd2).mpr hb2p]
            rfl
          rw [if_pos hcond]
          have hblt : ¬(blt yv div = true) := by
            rw [blt_iff_of_nonneg hyw hwd hyn hdn]
            omega
          rw [if_neg hblt]
          omega
        · have hcond : ¬((beq yv div || beq yv div2) = true) := by
            have hb2 : beq yv div2 = false := by
              rcases Bool.eq_false_or_eq_true (beq yv div2) with h | h
              · exact absurd ((beq_iff_toNat hyw hwd2).mp h) hb2p
              · exact h
            rw [hb1, hb2]
            simp
          rw [if_neg hcond]
          exact hbounce hf1
    · have hsd' : Nat.sqrt x.toNat < div.toNat := by omega
      have hlt : yv.toNat < div.toNat := by
        rw [hyv]
        exact heron_descent hsd'
      have hb1 : beq yv div = false := by
        rcases Bool.eq_false_or_eq_true (beq yv div) with h | h
        · exact absurd ((beq_iff_toNat hyw hwd).mp h) (by omega)
        · exact h
      by_cases hb2p : yv.toNat = div2.toNat
      · have hcond : (beq yv div || beq yv div2) = true := by
          rw [hb1, (beq_iff_toNat hyw hwd2).mpr hb2p]
          rfl
        rw [if_pos hcond]
        have hyeqs : yv.toNat = Nat.sqrt x.toNat := by
          by_contra hy_ne
          have hygt : Nat.sqrt x.toNat < yv.toNat := by omega
          rcases hlink with rfl | hlink2 | hlink3
          · omega
          · have hstep_eq : div.toNat = (yv.toNat + x.toNat / yv.toNat) / 2 := by
              rw [hlink2, hb2p]
            have : (yv.toNat + x.toNat / yv.toNat) / 2 < yv.toNat :=
              heron_descent hygt
            omega
          · omega
        have hblt : blt yv div = true := by
          rw [blt_iff_of_nonneg hyw hwd hyn hdn]
          omega
        rw [if_pos hblt]
        exact hyeqs
      · have hcond : ¬((beq yv div || beq yv div2) = true) := by
          have hb2 : beq yv div2 = false := by
            rcases Bool.eq_false_or_eq_true (beq yv div2) with h | h
            · exact absurd ((beq_iff_toNat hyw hwd2).mp h) hb2p
            · exact h
          rw [hb1, hb2]
          simp
        rw [if_neg hcond]
        refine ih yv div hyw hwd hy1 hyB hys (Or.inr (Or.inl hyv)) ?_
        rcases hbud with hb | ⟨j, hej, hfj⟩
        · left
          omega
        · match j with
          | 0 =>
            left
            omega
          | j + 1 =>
            right
            refine ⟨j, ?_, by omega⟩
            have hhalf := heron_halving hs1 hsd
            have hp : (2 : ℕ) ^ (j + 1) = 2 ^ j * 2 := by ring
            rw [hyv]
            omega

/-- From the bit-length-derived seed, one explicit first Heron
iteration (which lands at or above the root) followed by convergence:
the loop returns the integer square root whenever the seed is positive,
at most 2^63, and the first quotient fits 2^64. -/
theorem heronGo_seed {x d0 : Int128} (hwx : Wf x) (hnx : isNeg x = false)
    (h2 : 2 ≤ x.toNat) (hwd : Wf d0) (hd1 : 1 ≤ d0.toNat)
    (hdB : d0.toNat ≤ 2 ^ 63) (hq : x.toNat / d0.toNat ≤ 2 ^ 64)
    {fuel : ℕ} (hf : 75 ≤ fuel) :
    (heronGo x fuel d0 d0).toNat = Nat.sqrt x.toNat := by
  match fuel, hf with
  | f + 1, _ =>
    have hs1 : 1 ≤ Nat.sqrt x.toNat := Nat.le_sqrt.mpr (by omega)
    have hsum : d0.toNat + x.toNat / d0.toNat < 2 ^ 127 := by omega
    obtain ⟨hyv, hyw⟩ := heron_step hwx hwd hnx hd1 (by omega) hsum
    show (heronGo x (f + 1) d0 d0).toNat = _
    unfold heronGo
    dsimp only
    set yv := divRaw (add d0 (divRaw x d0)) (ofNat 2) with hydef
    have hys : Nat.sqrt x.toNat ≤ yv.toNat := by
      rw [hyv]
      exact heron_lower (by omega)
    have hyB : yv.toNat ≤ 2 ^ 64 := by
      rw [hyv]
      omega
    have hy1 : 1 ≤ yv.toNat := by omega
    by_cases hyd : yv.toNat = d0.toNat
    · have hcond : (beq yv d0 || beq yv d0) = true := by
        rw [(beq_iff_toNat hyw hwd).mpr hyd]
        rfl
      rw [if_pos hcond]
      have hd0s : d0.toNat = Nat.sqrt x.toNat := by
        by_contra hne
        rcases Nat.lt_or_ge d0.toNat (Nat.sqrt x.toNat) with hlt | hge
        · omega
        · have : yv.toNat < d0.toNat := by
            rw [hyv]
            exact heron_descent (by omega)
          omega
      have hyn : yv.isNeg = false := isNeg_false_of_toNat_lt hyw (by omega)
      have hdn : d0.isNeg = false := isNeg_false_of_toNat_lt hwd (by omega)
      have hblt : ¬(blt yv d0 = true) := by
        rw [blt_iff_of_nonneg hyw hwd hyn hdn]
        omega
      rw [if_neg hblt]
      omega
    · have hcond : ¬((beq yv d0 || beq yv d0) = true) := by
        have hb : beq yv d0 = false := by
          rcases Bool.eq_false_or_eq_true (beq yv d0) with h | h
          · exact absurd ((beq_iff_toNat hyw hwd).mp h) hyd
          · exact h
        rw [hb]
        simp
      rw [if_neg hcond]
      exact heronGo_conv hwx hnx h2 f yv d0 hyw hwd hy1 hyB hys
        (Or.inr (Or.inl hyv)) (Or.inr ⟨64, by omega, by omega⟩)

end Int128

/-- C7: for every non-negative Int128 input, isqrt succeeds with the
floor square root - the unique r with r*r ≤ x < (r+1)*(r+1) - and for
every negative input it fails with a domain error. -/
theorem claim_C7_isqrt :
    (∀ x : Int128, Int128.Wf x → 0 ≤ Int128.toInt x →
      ∃ r : Int128, Int128.isqrt x = Except.ok r ∧
        Int128.toNat r * Int128.toNat r ≤ Int128.toNat x ∧
        Int128.toNat x < (Int128.toNat r + 1) * (Int128.toNat r + 1)) ∧
    (∀ x : Int128, Int128.Wf x → Int128.toInt x < 0 →
      Int128.isqrt x = Except.error Err.domain) := by
  constructor
  · intro x hwf hpos
    have hnx : x.isNeg = false := (Int128.toInt_nonneg_iff hwf).mp hpos
    have hn127 : x.toNat < 2 ^ 127 :=
      Int128.toNat_lt_of_isNeg_false hwf hnx
    unfold Int128.isqrt
    have hc1 : ¬(Int128.blt x Int128.zero = true) := by
      rw [Int128.blt_zero_iff hwf, hnx]
      exact Bool.false_ne_true
    rw [if_neg hc1]
    by_cases hx01 : x.toNat ≤ 1
    · have hcond2 : (Int128.beq x Int128.zero ||
          Int128.beq x (Int128.ofNat 1)) = true := by
        rcases Nat.lt_or_ge x.toNat 1 with h0 | h1
        · have hb : Int128.beq x Int128.zero = true :=
            (Int128.beq_iff_toNat hwf Int128.wf_zero).mpr
              (by rw [Int128.toNat_zero]; omega)
          rw [hb]
          rfl
        · have hb : Int128.beq x (Int128.ofNat 1) = true :=
            (Int128.beq_iff_toNat hwf (Int128.wf_ofNat 1)).mpr
              (by rw [Int128.toNat_ofNat (by norm_num [U128])]; omega)
          rw [hb]
          exact Bool.or_true _
      rw [if_pos hcond2]
      refine ⟨x, rfl, ?_, ?_⟩
      · rcases (by omega : x.toNat = 0 ∨ x.toNat = 1) with h | h <;>
          rw [h] <;> norm_num
      · rcases (by omega : x.toNat = 0 ∨ x.toNat = 1) with h | h <;>
          rw [h] <;> norm_num
    · have hn2 : 2 ≤ x.toNat := by omega
      have hbz : Int128.beq x Int128.zero = false := by
        rcases Bool.eq_false_or_eq_true (Int128.beq x Int128.zero) with h | h
        · have := (Int128.beq_iff_toNat hwf Int128.wf_zero).mp h
          rw [Int128.toNat_zero] at this
          omega
        · exact h
      have hb1 : Int128.beq x (Int128.ofNat 1) = false := by
        rcases Bool.eq_false_or_eq_true (Int128.beq x (Int128.ofNat 1))
          with h | h
        · have := (Int128.beq_iff_toNat hwf (Int128.wf_ofNat 1)).mp h
          rw [Int128.toNat_ofNat (by norm_num [U128])] at this
          omega
        · exact h
      have hcond2 : ¬((Int128.beq x Int128.zero ||
          Int128.beq x (Int128.ofNat 1)) = true) := by
        rw [hbz, hb1]
        simp
      rw [if_neg hcond2]
      dsimp only
      obtain ⟨hbl1, hbl2⟩ := Int128.bitLength_spec hwf (by omega)
      have hbl_le : Int128.bitLength x ≤ 126 := by
        by_contra hgt
        push_neg at hgt
        have : (2 : ℕ) ^ 127 ≤ 2 ^ Int128.bitLength x :=
          Nat.pow_le_pow_right (by norm_num) (by omega)
        omega
      have hsh : Int128.bitLength x / 2 ≤ 63 := by omega
      have hshift : ¬(64 ≤ Int128.bitLength x / 2) := by omega
      rw [if_neg hshift]
      have hplt : (2 : ℕ) ^ (Int128.bitLength x / 2) < 2 ^ 64 :=
        lt_of_le_of_lt (Nat.pow_le_pow_right (by norm_num) hsh)
          (by norm_num)
      have hd0 : Int128.toNat ⟨2 ^ (Int128.bitLength x / 2) % U64, 0⟩ =
          2 ^ (Int128.bitLength x / 2) := by
        unfold Int128.toNat U64
        dsimp only
        rw [Nat.mod_eq_of_lt hplt]
        ring
      have hwd0 : Int128.Wf ⟨2 ^ (Int128.bitLength x / 2) % U64, 0⟩ := by
        constructor
        · exact Nat.mod_lt _ (by norm_num [U64])
        · norm_num [U64]
      have hd1 : 1 ≤ Int128.toNat ⟨2 ^ (Int128.bitLength x / 2) % U64, 0⟩ := by
        rw [hd0]
        exact Nat.one_le_pow _ 2 (by norm_num)
      have hdB : Int128.toNat ⟨2 ^ (Int128.bitLength x / 2) % U64, 0⟩ ≤
          2 ^ 63 := by
        rw [hd0]
        exact Nat.pow_le_pow_right (by norm_num) hsh
      have hq : x.toNat /
          Int128.toNat ⟨2 ^ (Int128.bitLength x / 2) % U64, 0⟩ ≤ 2 ^ 64 := by
        rw [hd0]
        have hmul : x.toNat < 2 ^ 64 * 2 ^ (Int128.bitLength x / 2) := by
          calc x.toNat < 2 ^ (Int128.bitLength x + 1) := hbl2
          _ ≤ 2 ^ (64 + Int128.bitLength x / 2) :=
            Nat.pow_le_pow_right (by norm_num) (by omega)
          _ = 2 ^ 64 * 2 ^ (Int128.bitLength x / 2) := pow_add 2 64 _
        exact le_of_lt
          ((Nat.div_lt_iff_lt_mul (Nat.one_le_pow _ 2 (by norm_num))).mpr hmul)
      have hval := Int128.heronGo_seed hwf hnx hn2 hwd0 hd1 hdB hq
        (show 75 ≤ Int128.INT128_ISQRT_MAX_ITERATIONS by
          norm_num [Int128.INT128_ISQRT_MAX_ITERATIONS])
      refine ⟨_, rfl, ?_, ?_⟩
      · rw [hval]
        exact Nat.sqrt_le x.toNat
      · rw [hval]
        exact Nat.lt_succ_sqrt x.toNat
  · intro x hwf hneg
    have hisn : x.isNeg = true := by
      rcases Bool.eq_false_or_eq_true x.isNeg with h | h
      · exact h
      · exact absurd ((Int128.toInt_nonneg_iff hwf).mpr h) (by omega)
    have hc : Int128.blt x Int128.zero = true := by
      rw [Int128.blt_zero_iff hwf]
      exact hisn
    unfold Int128.isqrt
    rw [if_pos hc]

/-- Witness for C7 at concrete inputs: isqrt of 123 is its floor
square root, and isqrt of a negative value is a domain error. -/
theorem claim_C7_witness :
    (∃ r : Int128, Int128.isqrt (Int128.ofNat 123) = Except.ok r ∧
      Int128.toNat r * Int128.toNat r ≤ Int128.toNat (Int128.ofNat 123) ∧
      Int128.toNat (Int128.ofNat 123) <
        (Int128.toNat r + 1) * (Int128.toNat r + 1)) ∧
    Int128.isqrt (⟨0, 2 ^ 63⟩ : Int128) = Except.error Err.domain :=
  ⟨claim_C7_isqrt.1 (Int128.ofNat 123) (by decide) (by decide),
   claim_C7_isqrt.2 (⟨0, 2 ^ 63⟩ : Int128) (by decide) (by decide)⟩

end Nfx
